import Mathlib

/-!
# jw_rbtree: a heap-level embedding of `rbtree.c`

The C code mutates nodes in place through raw pointers, so the embedding keeps an
explicit heap.  A pointer is a natural number, `0` is `NULL`, and the heap maps an
address to the node stored there (`none` for memory that holds no node).  Every C
statement that dereferences a pointer becomes a heap access that fails (`none`) on
`NULL` or on an address without a node; a failed `__ASSERT` and an exhausted loop
budget are reported the same way.

Platform assumptions (LP64): `int` has 32 bits, `ptrdiff_t` and `size_t` have 64.
The conversion of a `ptrdiff_t` to `int` keeps the low 32 bits (two's complement).
-/

namespace RBTree

/-- A pointer value; `0` is `NULL`. -/
abbrev Ptr := Nat

/-- The null pointer. -/
def NULL : Ptr := 0

/-- Address of the stack variable `head` used by `rb_insert` and `rb_remove`. -/
def HEAD : Ptr := 1

/-- Linux errno values returned by the operations. -/
def ENOENT : Nat := 2

/-- Out of memory. -/
def ENOMEM : Nat := 12

/-- Already exists. -/
def EEXIST : Nat := 17

/-- The C `struct rb_node`: two links, the colour word and the element. -/
structure rb_node where
  link0 : Ptr
  link1 : Ptr
  red : Bool
  data : Nat
deriving DecidableEq, Repr

/-- The node heap. -/
abbrev Heap := Ptr → Option rb_node

/-- What is reachable from a tree handle, with the trace of release calls. -/
structure State where
  mem : Heap
  root : Ptr
  size : Nat
  released : List Nat

/-- Conversion of a `ptrdiff_t` value to `int`. -/
def toInt32 (x : Int) : Int := (x + 2147483648) % 4294967296 - 2147483648

/-- Wrap to the `ptrdiff_t` range. -/
def toInt64 (x : Int) : Int :=
  (x + 9223372036854775808) % 18446744073709551616 - 9223372036854775808

/-- The default comparator `_rb_raw_data_cmp`: `a - b` on the raw words. -/
def _rb_raw_data_cmp (a b : Nat) : Int := toInt64 ((a : Int) - (b : Int))

/-- Read `*p`. -/
def load (h : Heap) (p : Ptr) : Option rb_node :=
  if p = NULL then none else h p

/-- Write `*p = n` (the address must hold a node). -/
def store (h : Heap) (p : Ptr) (n : rb_node) : Option Heap :=
  match load h p with
  | none => none
  | some _ => some (Function.update h p (some n))

/-- Field `link[dir]` of a node value. -/
def rb_node.link (n : rb_node) (dir : Bool) : Ptr :=
  if dir then n.link1 else n.link0

/-- Node value with `link[dir]` replaced. -/
def rb_node.withLink (n : rb_node) (dir : Bool) (v : Ptr) : rb_node :=
  if dir then { n with link1 := v } else { n with link0 := v }

/-- Evaluate `p->link[dir]`. -/
def getLink (h : Heap) (p : Ptr) (dir : Bool) : Option Ptr :=
  (load h p).map (fun n => n.link dir)

/-- Execute `p->link[dir] = v`. -/
def setLink (h : Heap) (p : Ptr) (dir : Bool) (v : Ptr) : Option Heap :=
  match load h p with
  | none => none
  | some n => store h p (n.withLink dir v)

/-- Evaluate `p->red == 1`. -/
def getRed (h : Heap) (p : Ptr) : Option Bool :=
  (load h p).map (fun n => n.red)

/-- Execute `p->red = c`. -/
def setRed (h : Heap) (p : Ptr) (c : Bool) : Option Heap :=
  match load h p with
  | none => none
  | some n => store h p { n with red := c }

/-- Evaluate `p->data`. -/
def getData (h : Heap) (p : Ptr) : Option Nat :=
  (load h p).map (fun n => n.data)

/-- Execute `p->data = d`. -/
def setData (h : Heap) (p : Ptr) (d : Nat) : Option Heap :=
  match load h p with
  | none => none
  | some n => store h p { n with data := d }

/-- The macro `IS_RED(n)`: `n != NULL && n->red == 1`. -/
def IS_RED (h : Heap) (p : Ptr) : Option Bool :=
  if p = NULL then some false else getRed h p

/-- The function `make_node`; `m` is what `__MALLOC` returns (`0` when it fails). -/
def make_node (m : Ptr) (h : Heap) (data : Nat) : Heap × Ptr :=
  if m = NULL then (h, NULL)
  else (Function.update h m (some { link0 := NULL, link1 := NULL, red := true, data := data }), m)

/-- The function `rot_once`. -/
def rot_once (h : Heap) (root : Ptr) (dir : Bool) : Option (Heap × Ptr) := do
  let save ← getLink h root (!dir)
  let sl ← getLink h save dir
  let h ← setLink h root (!dir) sl
  let h ← setLink h save dir root
  let h ← setRed h root true
  let h ← setRed h save false
  pure (h, save)

/-- The function `rot_twice`. -/
def rot_twice (h : Heap) (root : Ptr) (dir : Bool) : Option (Heap × Ptr) := do
  let c ← getLink h root (!dir)
  let (h, r) ← rot_once h c (!dir)
  let h ← setLink h root (!dir) r
  rot_once h root dir

/-- The function `rb_size`, with its assertion. -/
def rb_size (s : State) : Option Nat :=
  if s.root = NULL ∧ s.size ≠ 0 then none else some s.size

/-- The loop of `rb_get_unsafe`; `dir` is a `ptrdiff_t` there. -/
def get_loop (cmp : Nat → Nat → Int) (h : Heap) (data : Nat) : Nat → Ptr → Option (Option Nat)
  | 0, _ => none
  | fuel + 1, it =>
    if it = NULL then some none
    else do
      let d ← getData h it
      let dir := cmp data d
      if dir = 0 then pure (some d)
      else do
        let nx ← getLink h it (decide (dir > 0))
        get_loop cmp h data fuel nx

/-- The function `rb_get_unsafe`: the stored element, or the marker `nf` (`rb_not_found`). -/
def rb_get_unsafe (fuel : Nat) (cmp : Nat → Nat → Int) (nf : Nat) (s : State) (data : Nat) :
    Option Nat :=
  (get_loop cmp s.mem data fuel s.root).map (fun r => r.getD nf)

/-- The function `rb_find`. -/
def rb_find (fuel : Nat) (cmp : Nat → Nat → Int) (nf : Nat) (s : State) (data : Nat) :
    Option Nat :=
  ( rb_get_unsafe fuel cmp nf s data).map (fun r => if r ≠ nf then 1 else 0)

/-- How the descent loop of `rb_insert` ends. -/
inductive InsExit where
  | enomem (h : Heap)
  | done (h : Heap) (ins : Bool)

/-- The local variables of `rb_insert` at the top of its loop, with the heap. -/
structure InsLoc where
  h : Heap
  t : Ptr
  g : Ptr
  p : Ptr
  q : Ptr
  dir : Bool
  last : Bool

/-- First part of the loop body of `rb_insert`: the new node at a null link, or the colour
flip.  Returns the heap, `q`, `ins`, and whether `return ENOMEM` was taken. -/
def insert_top (m : Ptr) (data : Nat) (h : Heap) (p q : Ptr) (dir : Bool) :
    Option (Heap × Ptr × Bool × Bool) :=
  if q = NULL then do
    let (h, n) := make_node m h data
    let h ← setLink h p dir n
    if n = NULL then pure (h, n, false, true) else pure (h, n, true, false)
  else do
    let l0 ← getLink h q false
    let r0 ← IS_RED h l0
    let both ← (if r0 then do
        let l1 ← getLink h q true
        IS_RED h l1
      else pure false)
    if both then do
      let h ← setRed h q true
      let l0 ← getLink h q false
      let h ← setRed h l0 false
      let l1 ← getLink h q true
      let h ← setRed h l1 false
      pure (h, q, false, false)
    else pure (h, q, false, false)

/-- Second part of the loop body of `rb_insert`: the rotation on a hard red violation. -/
def insert_fix (h : Heap) (t g p q : Ptr) (last : Bool) : Option Heap := do
  let rq ← IS_RED h q
  let viol ← (if rq then IS_RED h p else pure false)
  if viol then do
    let tl ← getLink h t true
    let dir2 := decide (tl = g)
    let pl ← getLink h p last
    if q = pl then do
      let (h, r) ← rot_once h g (!last)
      setLink h t dir2 r
    else do
      let (h, r) ← rot_twice h g (!last)
      setLink h t dir2 r
  else pure h

/-- One iteration of the `while (1)` loop of `rb_insert`: an exit, or the locals of the
next iteration. -/
def insert_step (cmp : Nat → Nat → Int) (m : Ptr) (data : Nat) (l : InsLoc) :
    Option (InsExit ⊕ InsLoc) := do
  let (h, q, ins, stop) ← insert_top m data l.h l.p l.q l.dir
  if stop then pure (Sum.inl (InsExit.enomem h)) else do
  let h ← insert_fix h l.t l.g l.p q l.last
  if ins then pure (Sum.inl (InsExit.done h true)) else do
  let d ← getData h q
  let c := toInt32 (cmp data d)
  if c = 0 then pure (Sum.inl (InsExit.done h false)) else do
  let dir := decide (c > 0)
  let nx ← getLink h q dir
  pure (Sum.inr { h := h, t := if l.g ≠ NULL then l.g else l.t, g := l.p, p := q, q := nx,
                  dir := dir, last := l.dir })

/-- The `while (1)` loop of `rb_insert`; one unit of fuel per iteration. -/
def insert_loop (cmp : Nat → Nat → Int) (m : Ptr) (data : Nat) : Nat → InsLoc → Option InsExit
  | 0, _ => none
  | fuel + 1, l =>
    match insert_step cmp m data l with
    | none => none
    | some (Sum.inl e) => some e
    | some (Sum.inr l) => insert_loop cmp m data fuel l

/-- The label `out_exit` of `rb_insert`. -/
def insert_exit (s : State) (ins : Bool) : Option (Nat × State) := do
  let h ← setRed s.mem s.root false
  let s := { s with mem := h }
  if ins then pure (0, { s with size := (s.size + 1) % 18446744073709551616 })
  else pure (EEXIST, s)

/-- The stack variable `head = { .red = 0 }`. -/
def headInit : rb_node := { link0 := NULL, link1 := NULL, red := false, data := 0 }

/-- The function `rb_insert`; `m` is the result of the one `__MALLOC` call it may make. -/
def rb_insert (fuel : Nat) (cmp : Nat → Nat → Int) (m : Ptr) (s : State) (data : Nat) :
    Option (Nat × State) :=
  if s.root = NULL then
    if s.size ≠ 0 then none
    else
      let (h, n) := make_node m s.mem data
      if n = NULL then some (ENOMEM, { s with mem := h, root := n })
      else insert_exit { s with mem := h, root := n } true
  else do
    let h := Function.update s.mem HEAD (some headInit)
    let h ← setLink h HEAD true s.root
    match ← insert_loop cmp m data fuel
        { h := h, t := HEAD, g := NULL, p := NULL, q := s.root, dir := false, last := false } with
    | InsExit.enomem h => pure (ENOMEM, { s with mem := Function.update h HEAD none })
    | InsExit.done h ins => do
      let r ← getLink h HEAD true
      insert_exit { s with mem := Function.update h HEAD none, root := r } ins

/-- The local variables of `rb_remove` at the loop test, with the heap. -/
structure RemLoc where
  h : Heap
  g : Ptr
  p : Ptr
  q : Ptr
  f : Ptr
  dir : Bool

/-- The statements under `Ensure correct coloring` in `rb_remove`. -/
def remove_recolor (h : Heap) (g q : Ptr) (dir2 : Bool) : Option Heap := do
  let x ← getLink h g dir2
  let h ← setRed h x true
  let h ← setRed h q true
  let x ← getLink h g dir2
  let x0 ← getLink h x false
  let h ← setRed h x0 false
  let x ← getLink h g dir2
  let x1 ← getLink h x true
  setRed h x1 false

/-- The rotation about `p` in the sibling case of `rb_remove`, with the recolouring. -/
def remove_rotate (h : Heap) (g p q s : Ptr) (last : Bool) : Option Heap := do
  let gl ← getLink h g true
  let dir2 := decide (gl = p)
  let sl ← getLink h s last
  let rsl ← IS_RED h sl
  let hr ← (if rsl then rot_twice h p last else rot_once h p last)
  let h ← setLink hr.1 g dir2 hr.2
  remove_recolor h g q dir2

/-- The colour flip in the sibling case of `rb_remove`. -/
def remove_flip (h : Heap) (p q s : Ptr) : Option Heap := do
  let h ← setRed h p false
  let h ← setRed h s true
  setRed h q true

/-- Evaluate `!IS_RED(a->link[d1]) && !IS_RED(a->link[d2])`. -/
def bothNotRed (h : Heap) (a : Ptr) (d1 d2 : Bool) : Option Bool := do
  let x ← getLink h a d1
  let rx ← IS_RED h x
  if rx then pure false else do
    let y ← getLink h a d2
    let ry ← IS_RED h y
    pure (!ry)

/-- The sibling case of `rb_remove` (`q` and both its children are not red): colour flip or
rotation about `p`. -/
def remove_sibling (h : Heap) (g p q : Ptr) (last : Bool) : Option Heap := do
  let s ← getLink h p (!last)
  if s = NULL then pure h else do
  let noRed ← bothNotRed h s (!last) last
  if noRed then remove_flip h p q s else remove_rotate h g p q s last

/-- The rebalancing part of the loop body of `rb_remove`; returns the heap and `p`. -/
def remove_push (h : Heap) (g p q : Ptr) (dir last : Bool) : Option (Heap × Ptr) := do
  let rq ← IS_RED h q
  let blacks ← (if rq then pure false else do
      let qd ← getLink h q dir
      let r ← IS_RED h qd
      pure (!r))
  if blacks then do
    let qo ← getLink h q (!dir)
    let rqo ← IS_RED h qo
    if rqo then do
      let (h, r) ← rot_once h q dir
      let h ← setLink h p last r
      pure (h, r)
    else do
      let h ← remove_sibling h g p q last
      pure (h, p)
  else pure (h, p)

/-- Loop test and one iteration of `rb_remove`: the final locals when the loop ends, or
the locals at the next test. -/
def remove_step (cmp : Nat → Nat → Int) (data : Nat) (l : RemLoc) :
    Option (RemLoc ⊕ RemLoc) := do
  let nx ← getLink l.h l.q l.dir
  if nx = NULL then pure (Sum.inl l) else do
  let d ← getData l.h nx
  let c := toInt32 (cmp data d)
  let dir := decide (c > 0)
  let (h, p) ← remove_push l.h l.p l.q nx dir l.dir
  pure (Sum.inr { h := h, g := l.p, p := p, q := nx, f := if c = 0 then nx else l.f,
                  dir := dir })

/-- The `while (q->link[dir] != NULL)` loop of `rb_remove`. -/
def remove_loop (cmp : Nat → Nat → Int) (data : Nat) : Nat → RemLoc → Option RemLoc
  | 0, _ => none
  | fuel + 1, l =>
    match remove_step cmp data l with
    | none => none
    | some (Sum.inl e) => some e
    | some (Sum.inr l) => remove_loop cmp data fuel l

/-- The block `if (f != NULL) { ... }` of `rb_remove`: heap, release trace and size. -/
def remove_splice (s : State) (l : RemLoc) : Option (Heap × List Nat × Nat) :=
  if l.f ≠ NULL then do
    let qd ← getData l.h l.q
    let h ← setData l.h l.f qd
    let p1 ← getLink h l.p true
    let q0 ← getLink h l.q false
    let c ← getLink h l.q (decide (q0 = NULL))
    let h ← setLink h l.p (decide (p1 = l.q)) c
    let qd ← getData h l.q
    pure (Function.update h l.q none, s.released ++ [qd],
      (s.size + 18446744073709551615) % 18446744073709551616)
  else pure (l.h, s.released, s.size)

/-- The function `rb_remove`. -/
def rb_remove (fuel : Nat) (cmp : Nat → Nat → Int) (s : State) (data : Nat) :
    Option (Nat × State) :=
  if s.root = NULL then
    if s.size ≠ 0 then none else some (ENOENT, s)
  else do
    let h := Function.update s.mem HEAD (some headInit)
    let h ← setLink h HEAD true s.root
    let l ← remove_loop cmp data fuel
      { h := h, g := NULL, p := NULL, q := HEAD, f := NULL, dir := true }
    let (h, rel, size) ← remove_splice s l
    let r ← getLink h HEAD true
    let h ← (if r ≠ NULL then setRed h r false
      else if size ≠ 0 then none else pure h)
    pure (if l.f ≠ NULL then 0 else ENOENT,
      { mem := Function.update h HEAD none, root := r, size := size, released := rel })

/-! ## Reading a tree off the heap -/

/-- The shape reachable from a pointer: every node with its address, colour and element. -/
inductive Tree where
  | nil
  | node (addr : Ptr) (l : Tree) (red : Bool) (data : Nat) (r : Tree)
deriving DecidableEq, Repr

/-- Follow the links from `p`, at most `fuel` levels deep. -/
def toTree (h : Heap) : Nat → Ptr → Option Tree
  | 0, _ => none
  | fuel + 1, p =>
    if p = NULL then some Tree.nil
    else
      match h p with
      | none => none
      | some n =>
        match toTree h fuel n.link0, toTree h fuel n.link1 with
        | some l, some r => some (Tree.node p l n.red n.data r)
        | _, _ => none

/-- Elements in in-order (lesser link first). -/
def Tree.inorder : Tree → List Nat
  | Tree.nil => []
  | Tree.node _ l _ d r => l.inorder ++ d :: r.inorder

/-- Addresses of the nodes, in in-order. -/
def Tree.addrs : Tree → List Ptr
  | Tree.nil => []
  | Tree.node a l _ _ r => l.addrs ++ a :: r.addrs

/-- Number of nodes. -/
def Tree.count : Tree → Nat
  | Tree.nil => 0
  | Tree.node _ l _ _ r => l.count + 1 + r.count

/-- Address of the root node (`NULL` for the empty tree). -/
def Tree.ptr : Tree → Ptr
  | Tree.nil => NULL
  | Tree.node a _ _ _ _ => a

/-- Colour test on the root, as `IS_RED` sees it. -/
def Tree.isRed : Tree → Bool
  | Tree.nil => false
  | Tree.node _ _ c _ _ => c

/-- Strict ordering of every node against its whole lesser and greater subtree, read with
the comparator at full `ptrdiff_t` width. -/
def Tree.bst (cmp : Nat → Nat → Int) : Tree → Bool
  | Tree.nil => true
  | Tree.node _ l _ d r =>
    l.inorder.all (fun x => decide (cmp x d < 0)) && r.inorder.all (fun x => decide (cmp x d > 0))
      && l.bst cmp && r.bst cmp

/-- No red node has a red child. -/
def Tree.noRedRed : Tree → Bool
  | Tree.nil => true
  | Tree.node _ l c _ r => !(c && (l.isRed || r.isRed)) && l.noRedRed && r.noRedRed

/-- The common number of black nodes on every downward path, the absent link counted as
one; `none` when two paths disagree. -/
def Tree.blackHeight : Tree → Option Nat
  | Tree.nil => some 1
  | Tree.node _ l c _ r =>
    match l.blackHeight, r.blackHeight with
    | some a, some b => if a = b then some (if c then a else a + 1) else none
    | _, _ => none

/-- The invariants (a)-(d) on a shape. -/
def Tree.rbValid (cmp : Nat → Nat → Int) (t : Tree) : Bool :=
  t.bst cmp && t.noRedRed && t.blackHeight.isSome && !t.isRed

/-- The heap holds the shape `t`: every node of `t` sits at its address with the links,
colour and element that `t` records. -/
def rep (h : Heap) : Tree → Bool
  | Tree.nil => true
  | Tree.node a l c d r =>
    decide (a ≠ NULL) && decide (h a = some { link0 := l.ptr, link1 := r.ptr, red := c, data := d })
      && rep h l && rep h r

/-- The handle `s` owns the shape `t`: `t` is what the links from `s.root` reach, no node
is shared or sits at the stack slot, and the stack slot holds no node. -/
def Owns (s : State) (t : Tree) : Prop :=
  s.root = t.ptr ∧ rep s.mem t = true ∧ t.addrs.Nodup ∧ HEAD ∉ t.addrs ∧ s.mem HEAD = none

instance (s : State) (t : Tree) : Decidable (Owns s t) := by
  unfold Owns; exact inferInstance

/-- The invariants (a)-(e) of the handle: it owns a shape that is a red-black search tree
under `cmp`, and `size` is the number of nodes. -/
def Valid (cmp : Nat → Nat → Int) (s : State) (t : Tree) : Prop :=
  Owns s t ∧ t.rbValid cmp = true ∧ s.size = t.count

instance (cmp : Nat → Nat → Int) (s : State) (t : Tree) : Decidable (Valid cmp s t) := by
  unfold Valid; exact inferInstance

/-- A comparator that is a strict total order on the elements: zero exactly on equal
elements, antisymmetric in sign, transitive. -/
structure StrictTotal (cmp : Nat → Nat → Int) : Prop where
  eq_zero : ∀ a b, cmp a b = 0 ↔ a = b
  antisymm : ∀ a b, cmp a b < 0 ↔ 0 < cmp b a
  trans : ∀ a b c, cmp a b < 0 → cmp b c < 0 → cmp a c < 0

/-- A three-way comparator on the element words: -1, 0 or 1. -/
def cmp3 (a b : Nat) : Int := if a < b then -1 else if a = b then 0 else 1

/-- Lay a shape out on a heap: every node of `t` is written at its address. -/
def Tree.write : Tree → Heap → Heap
  | Tree.nil, h => h
  | Tree.node a l c d r, h =>
    Function.update (r.write (l.write h)) a
      (some { link0 := l.ptr, link1 := r.ptr, red := c, data := d })

/-- The handle whose heap holds exactly the shape `t`. -/
def Tree.toState (t : Tree) : State :=
  { mem := t.write (fun _ => none), root := t.ptr, size := t.count, released := [] }

/-- A freshly created, empty handle (`rb_alloc`). -/
def emptyState : State := { mem := fun _ => none, root := NULL, size := 0, released := [] }

/-- What an operation leaves behind, in comparable form: return code, size field, the shape
reachable from the root (read at most `fuel` levels deep) and the release trace. -/
def observe (fuel : Nat) (r : Option (Nat × State)) : Option (Nat × Nat × Option Tree × List Nat) :=
  r.map (fun x => (x.1, x.2.size, toTree x.2.mem fuel x.2.root, x.2.released))

/-! ## Teardown and the checker -/

/-- The local variables of `rb_free_core` at its loop test, with the heap and the trace
of release calls. -/
structure FreeLoc where
  h : Heap
  iter : Ptr
  size : Nat
  size1 : Nat
  released : List Nat

/-- Loop test and one iteration of the teardown loop of `rb_free_core`. -/
def free_step (l : FreeLoc) : Option (FreeLoc ⊕ FreeLoc) :=
  if l.iter = NULL then some (Sum.inl l)
  else do
    let l0 ← getLink l.h l.iter false
    if l0 = NULL then do
      let save ← getLink l.h l.iter true
      let d ← getData l.h l.iter
      pure (Sum.inr { h := Function.update l.h l.iter none, iter := save,
                      size := (l.size + 18446744073709551615) % 18446744073709551616,
                      size1 := (l.size1 + 1) % 18446744073709551616,
                      released := l.released ++ [d] })
    else do
      let sr ← getLink l.h l0 true
      let h ← setLink l.h l.iter false sr
      let h ← setLink h l0 true l.iter
      pure (Sum.inr { l with h := h, iter := l0 })

/-- The teardown loop of `rb_free_core`; one unit of fuel per loop test. -/
def free_loop : Nat → FreeLoc → Option FreeLoc
  | 0, _ => none
  | fuel + 1, l =>
    match free_step l with
    | none => none
    | some (Sum.inl e) => some e
    | some (Sum.inr l) => free_loop fuel l

/-- The function `rb_free_core`.  The flag of the result tells whether the handle itself
was released (`*t = NULL`); the state carries the heap, the fields of the handle as last
written, and the release trace. -/
def rb_free_core (fuel : Nat) (s : State) (fully : Bool) : Option (Bool × State) := do
  let l ← free_loop fuel
    { h := s.mem, iter := s.root, size := s.size, size1 := 0, released := s.released }
  if s.size ≠ l.size1 then none
  else if l.size ≠ 0 then none
  else pure (fully, { mem := l.h, root := NULL, size := l.size, released := l.released })

/-- The function `rb_free`. -/
def rb_free (fuel : Nat) (s : State) : Option (Bool × State) := rb_free_core fuel s true

/-- The function `rb_clear`. -/
def rb_clear (fuel : Nat) (s : State) : Option (Bool × State) := rb_free_core fuel s false

/-- The assertions of `rb_assert_recur` on one node with links `l` and `r`: red-red
adjacency and the order against the two children.  Returns `IS_RED(root)`. -/
def assert_local (cmp : Nat → Nat → Int) (h : Heap) (root l r : Ptr) : Option Bool := do
  let c ← IS_RED h root
  let okc ← (if c then do
      let cl ← IS_RED h l
      if cl then pure false else do
        let cr ← IS_RED h r
        pure (!cr)
    else pure true)
  if !okc then none else do
  let d ← getData h root
  let okl ← (if l ≠ NULL then do
      let ld ← getData h l
      pure (decide (cmp ld d < 0))
    else pure true)
  if !okl then none else do
  let okr ← (if r ≠ NULL then do
      let rd ← getData h r
      pure (decide (cmp rd d > 0))
    else pure true)
  if !okr then none else pure c

/-- The function `rb_assert_recur`; the result is a `uint32_t`. -/
def rb_assert_recur (cmp : Nat → Nat → Int) (h : Heap) : Nat → Ptr → Option Nat
  | 0, _ => none
  | fuel + 1, root =>
    if root = NULL then some 1
    else
      match getLink h root false, getLink h root true with
      | some l, some r =>
        match assert_local cmp h root l r with
        | none => none
        | some c =>
          match rb_assert_recur cmp h fuel l, rb_assert_recur cmp h fuel r with
          | some lh, some rh =>
            if lh = rh then some (if c then lh else (lh + 1) % 4294967296) else none
          | _, _ => none
      | _, _ => none

/-- The function `rb_assert`: `some ()` when no assertion fails. -/
def rb_assert (fuel : Nat) (cmp : Nat → Nat → Int) (s : State) : Option Unit :=
  if s.root = NULL then (if s.size ≠ 0 then none else some ())
  else (rb_assert_recur cmp s.mem fuel s.root).map (fun _ => ())

/-- Length of the chain of greater links from the root. -/
def Tree.rspine : Tree → Nat
  | Tree.nil => 0
  | Tree.node _ _ _ _ r => r.rspine + 1

/-- The heap with the listed addresses released. -/
def eraseAddrs (h : Heap) (as : List Ptr) : Heap :=
  fun x => if x ∈ as then none else h x

/-! ## The checker -/

/-- A left-leaning, unbalanced shape of four nodes (not a red-black tree). -/
def leftChain : Tree :=
  Tree.node 4 (Tree.node 3 (Tree.node 2 Tree.nil true 1 Tree.nil) true 2 Tree.nil) false 3
    (Tree.node 5 Tree.nil false 9 Tree.nil)

/-- The red-black tree that inserting 5, 3, 8, 1, 4 builds (nodes at addresses 2 to 6). -/
def fiveTree : Tree :=
  Tree.node 2
    (Tree.node 3 (Tree.node 5 Tree.nil true 1 Tree.nil) false 3 (Tree.node 6 Tree.nil true 4 Tree.nil))
    false 5 (Tree.node 4 Tree.nil false 8 Tree.nil)

/-! ## Lookup -/

/-- A one-node tree whose stored element is the word 77. -/
def markerTree : Tree := Tree.node 2 Tree.nil false 77 Tree.nil

/-- A shape that is not a search tree: the lesser child 3 of the root 5 has the greater
child 7. -/
def crossTree : Tree :=
  Tree.node 2 (Tree.node 3 Tree.nil false 3 (Tree.node 5 Tree.nil true 7 Tree.nil)) false 5
    (Tree.node 4 Tree.nil false 8 Tree.nil)

/-- A handle whose single node is red and whose size field says 5. -/
def redRootState : State :=
  { mem := (Tree.node 2 Tree.nil true 1 Tree.nil).write (fun _ => none), root := 2, size := 5,
    released := [] }

/-! ## The operations on concrete trees -/

/-- A call of the public interface: an insert (with the address `__MALLOC` hands out, `0`
for a failed allocation) or a remove. -/
inductive Op where
  | insert (k : Nat) (m : Ptr)
  | remove (k : Nat)

/-- Run one call. -/
def runOp (fuel : Nat) (cmp : Nat → Nat → Int) (s : State) : Op → Option (Nat × State)
  | Op.insert k m => rb_insert fuel cmp m s k
  | Op.remove k => rb_remove fuel cmp s k

/-- Run a sequence of calls; the return codes are collected in order. -/
def runOps (fuel : Nat) (cmp : Nat → Nat → Int) : List Op → State → Option (List Nat × State)
  | [], s => some ([], s)
  | op :: ops, s =>
    match runOp fuel cmp s op with
    | none => none
    | some (c, s1) => (runOps fuel cmp ops s1).map (fun r => (c :: r.1, r.2))

/-- The one-node tree holding the word 0. -/
def oneNode : Tree := Tree.node 2 Tree.nil false 0 Tree.nil

/-- The tree 0 (black root) with the red greater child 2^32. -/
def twoWide : Tree :=
  Tree.node 2 Tree.nil false 0 (Tree.node 3 Tree.nil true 4294967296 Tree.nil)

/-- The tree 0 (black root) with the red greater child 2^31. -/
def twoWide31 : Tree :=
  Tree.node 2 Tree.nil false 0 (Tree.node 3 Tree.nil true 2147483648 Tree.nil)

/-- A five-node tree whose root 2^31+100 is more than 2^31 above its lesser subtree
3, 10, 20. -/
def wideTree : Tree :=
  Tree.node 2
    (Tree.node 3 (Tree.node 5 Tree.nil true 3 Tree.nil) false 10
      (Tree.node 6 Tree.nil true 20 Tree.nil))
    false 2147483748 (Tree.node 4 Tree.nil false 2147483848 Tree.nil)

/-- A seven-node tree: black root 10 with red lesser child 5, whose lesser child 3 has the
two red children 2 and 4. -/
def sevenTree : Tree :=
  Tree.node 2
    (Tree.node 3
      (Tree.node 5 (Tree.node 7 Tree.nil true 2 Tree.nil) false 3
        (Tree.node 8 Tree.nil true 4 Tree.nil))
      true 5 (Tree.node 6 Tree.nil false 7 Tree.nil))
    false 10 (Tree.node 4 Tree.nil false 15 Tree.nil)

/-- The tree 2 (black root) with the red children 1 and 3. -/
def threeTree : Tree :=
  Tree.node 2 (Tree.node 3 Tree.nil true 1 Tree.nil) false 2 (Tree.node 4 Tree.nil true 3 Tree.nil)

/-- The tree 2 (black root) with the black children 1 and 3. -/
def threeBlack : Tree :=
  Tree.node 2 (Tree.node 3 Tree.nil false 1 Tree.nil) false 2
    (Tree.node 4 Tree.nil false 3 Tree.nil)

/-! ## Duplicate insert without a colour flip on the path -/

/-- The comparator results of `k` against the elements of `t` fit an `int`. -/
def Fits32 (cmp : Nat → Nat → Int) (k : Nat) (t : Tree) : Prop :=
  ∀ x ∈ t.inorder, toInt32 (cmp k x) = cmp k x

instance (cmp : Nat → Nat → Int) (k : Nat) (t : Tree) : Decidable (Fits32 cmp k t) := by
  unfold Fits32; exact inferInstance

/-- No node on the search path of `k` (down to the node that matches) has two red
children. -/
def Tree.noFlipTo (cmp : Nat → Nat → Int) (k : Nat) : Tree → Bool
  | Tree.nil => true
  | Tree.node _ l _ d r =>
    !(l.isRed && r.isRed) &&
      (if cmp k d = 0 then true else if cmp k d > 0 then r.noFlipTo cmp k else l.noFlipTo cmp k)

/-! ## Remove of an absent key without rebalancing on the path -/

/-- Below the root: every node on the search path of `k` is red or has a red child on the
descent side. -/
def Tree.noPushBelow (cmp : Nat → Nat → Int) (k : Nat) : Tree → Bool
  | Tree.nil => true
  | Tree.node _ l c d r =>
    if cmp k d > 0 then (c || r.isRed) && r.noPushBelow cmp k
    else (c || l.isRed) && l.noPushBelow cmp k

/-- The descent of `rb_remove` for `k` meets no node where it recolours or rotates: the
root is red, or has a red child on the descent side, or has no red child on the other side;
the nodes below satisfy `noPushBelow`. -/
def Tree.noPushTo (cmp : Nat → Nat → Int) (k : Nat) : Tree → Bool
  | Tree.nil => true
  | Tree.node _ l c d r =>
    if cmp k d > 0 then (c || r.isRed || !l.isRed) && r.noPushBelow cmp k
    else (c || l.isRed || !r.isRed) && l.noPushBelow cmp k

/-! ## Paths into a shape -/

/-- A node seen from one of its subtrees: its address, colour and element, the side `dir`
on which the subtree hangs, and the subtree `sib` on the other side. -/
structure Frame where
  addr : Ptr
  red : Bool
  data : Nat
  dir : Bool
  sib : Tree

/-- The node of a frame with `t` hung on side `dir`. -/
def Frame.fill (f : Frame) (t : Tree) : Tree :=
  if f.dir then Tree.node f.addr f.sib f.red f.data t
  else Tree.node f.addr t f.red f.data f.sib

/-- The heap record of the node of a frame whose link on side `dir` is `p`. -/
def Frame.record (f : Frame) (p : Ptr) : rb_node :=
  if f.dir then { link0 := f.sib.ptr, link1 := p, red := f.red, data := f.data }
  else { link0 := p, link1 := f.sib.ptr, red := f.red, data := f.data }

/-- The shape around a subtree: the frames from its parent up to the top. -/
def plug : List Frame → Tree → Tree
  | [], t => t
  | f :: c, t => plug c (f.fill t)

/-- The frame of the stack variable `head`: the tree hangs on its `link[1]`. -/
def headFrame : Frame := { addr := HEAD, red := false, data := 0, dir := true, sib := Tree.nil }

/-- Addresses of the nodes of a path: the frames and their other subtrees. -/
def ctxAddrs : List Frame → List Ptr
  | [] => []
  | f :: c => f.addr :: f.sib.addrs ++ ctxAddrs c

/-- The heap holds the frames of a path whose innermost link points to `p`. -/
def repCtx (h : Heap) : List Frame → Ptr → Prop
  | [], _ => True
  | f :: c, p =>
    f.addr ≠ NULL ∧ h f.addr = some (f.record p) ∧ rep h f.sib = true ∧ repCtx h c f.addr

/-- The subtree on side `dir` of the root. -/
def Tree.child : Tree → Bool → Tree
  | Tree.nil, _ => Tree.nil
  | Tree.node _ l _ _ r, dir => if dir then r else l

/-- The heaps agree outside the listed addresses. -/
def Agree (h h2 : Heap) (as : List Ptr) : Prop := ∀ z, z ∉ as → h2 z = h z

/-! ## Rotations on the heap -/

/-- The heap after `rot_once(root, dir)` on the node `fa` whose child `fb` on side `!dir`
has the inner subtree pointer `bi`. -/
def rotHeap (h : Heap) (fa fb : Frame) (bi : Ptr) : Heap :=
  Function.update (Function.update h fa.addr
    (some (({ fa with red := true } : Frame).record bi))) fb.addr
    (some (({ fb with red := false } : Frame).record fa.addr))

/-! ## Colours along a path -/

/-- The shape with its root coloured `c` (the empty shape is left alone). -/
def Tree.setRed : Tree → Bool → Tree
  | Tree.nil, _ => Tree.nil
  | Tree.node a l _ d r, c => Tree.node a l c d r

/-! ## Addresses and colours of the rebalanced windows -/

/-- The shape has no red node with a red child and black height `n`. -/
def Tree.rb (t : Tree) (n : Nat) : Prop := t.noRedRed = true ∧ t.blackHeight = some n

/-- The colour invariants (b) and (c) of a shape. -/
def Tree.rbOK (t : Tree) : Prop := t.noRedRed = true ∧ t.blackHeight.isSome = true

/-! ## In-order sequences along a path -/

/-- Nodes in in-order (lesser link first), each with its address and element. -/
def Tree.pairs : Tree → List (Ptr × Nat)
  | Tree.nil => []
  | Tree.node a l _ d r => l.pairs ++ (a, d) :: r.pairs

/-- The nodes of a path that come before its hole in in-order. -/
def ctxLeft : List Frame → List (Ptr × Nat)
  | [] => []
  | f :: K => ctxLeft K ++ (if f.dir then f.sib.pairs ++ [(f.addr, f.data)] else [])

/-- The nodes of a path that come after its hole in in-order. -/
def ctxRight : List Frame → List (Ptr × Nat)
  | [] => []
  | f :: K => (if f.dir then [] else (f.addr, f.data) :: f.sib.pairs) ++ ctxRight K

/-! ## The descent of `rb_remove` -/

/-- Invariant of the loop of `rb_remove`: the heap holds the path `K` from the current node
up to the root, under the stack node `head`, around the subtree `X` that the descent enters
next; no address occurs twice; the tree satisfies the colour invariants. -/
structure RInv (h : Heap) (K : List Frame) (X : Tree) : Prop where
  hrep : rep h (plug (K ++ [headFrame]) X) = true
  hnd : (plug (K ++ [headFrame]) X).addrs.Nodup
  hcol : (plug K X).rbOK

/-- The current node is red, or the subtree entered next has a red root, or the current
node is the root and its other child is not red. -/
def pushOK : List Frame → Tree → Prop
  | [], _ => True
  | f :: K, X => f.red = true ∨ X.isRed = true ∨ (K = [] ∧ f.sib.isRed = false)

/-- The innermost frame of a path under `head`. -/
def topFrame : List Frame → Frame
  | [] => headFrame
  | f :: _ => f

/-- What one rebalancing step establishes: the new path starts with the frame of the node
stepped to, then the node returned as `p`; the in-order sequences before and after the hole
are those of the old path with the frame of the node stepped to. -/
def StepPost (h : Heap) (K : List Frame) (fX : Frame) (X2 : Tree) (r : Heap × Ptr) : Prop :=
  ∃ f1 K1, RInv r.1 (f1 :: K1) X2 ∧ pushOK (f1 :: K1) X2 ∧ f1.addr = fX.addr ∧
    f1.dir = fX.dir ∧ (topFrame K1).addr = r.2 ∧
    (plug (f1 :: K1) X2).addrs.Perm (plug K (fX.fill X2)).addrs ∧
    Agree h r.1 (plug (K ++ [headFrame]) (fX.fill X2)).addrs ∧ f1.data = fX.data ∧
    ctxLeft (f1 :: K1) = ctxLeft (fX :: K) ∧ ctxRight (f1 :: K1) = ctxRight (fX :: K)

/-- The locals `q`, `dir` and `p` of `rb_remove` against the path. -/
def RLoc (l : RemLoc) (K : List Frame) : Prop :=
  l.q = (topFrame K).addr ∧ l.dir = (topFrame K).dir ∧
    ∀ f K0, K = f :: K0 → l.p = (topFrame K0).addr

/-! ## Overwriting an element, and the colour of the root -/

/-- The shape with the element at address `a` replaced by `d`. -/
def Tree.setData : Tree → Ptr → Nat → Tree
  | Tree.nil, _, _ => Tree.nil
  | Tree.node b l c x r, a, d =>
    Tree.node b (l.setData a d) c (if b = a then d else x) (r.setData a d)

/-- The frame with the element at address `a` replaced by `d`. -/
def Frame.setData (f : Frame) (a : Ptr) (d : Nat) : Frame :=
  { f with data := if f.addr = a then d else f.data, sib := f.sib.setData a d }

/-! ## The steps of `rb_insert` under a path -/

/-- The heap holds the path `K` under the stack node `head`, around the subtree `X`, and no
address occurs twice. -/
structure HInv (h : Heap) (K : List Frame) (X : Tree) : Prop where
  hrep : rep h (plug (K ++ [headFrame]) X) = true
  hnd : (plug (K ++ [headFrame]) X).addrs.Nodup

/-! ## Colours after the steps of `rb_insert` -/

/-- A black node without a red child. -/
def Tree.safe : Tree → Prop
  | Tree.nil => False
  | Tree.node _ l c _ r => c = false ∧ l.isRed = false ∧ r.isRed = false

/-! ## The descent of `rb_insert` -/

/-- Address of the first frame of a path, `NULL` on the empty path. -/
def pAddr : List Frame → Ptr
  | [] => NULL
  | f :: _ => f.addr

/-- Invariant at the top of the loop of `rb_insert`, between rebalancing steps: the heap
holds the path `K` around the subtree `X` at `q`; the tree has the colour invariants; the
root is black until it is passed; `p` does not have two red children of which `q` is one;
when `p` is red, either `q` is a black node without red child or the uncle is not red; the
path follows the comparisons with `data`. -/
structure NInv (cmp : Nat → Nat → Int) (data : Nat) (h : Heap) (K : List Frame) (X : Tree) :
    Prop where
  heap : HInv h K X
  hcol : (plug K X).rbOK
  root : K = [] → X ≠ Tree.nil ∧ X.isRed = false
  two : ∀ fp K1, K = fp :: K1 → ¬(X.isRed = true ∧ fp.sib.isRed = true)
  redok : ∀ fp K1, K = fp :: K1 → fp.red = true →
    X.safe ∨ ∃ fg K2, K1 = fg :: K2 ∧ fg.sib.isRed = false
  path : ∀ f ∈ K, toInt32 (cmp data f.data) ≠ 0 ∧
    f.dir = decide (toInt32 (cmp data f.data) > 0)

/-- The locals `q`, `p`, `g`, `t`, `dir`, `last` of `rb_insert` against the path. -/
def ILoc (l : InsLoc) (K : List Frame) (X : Tree) : Prop :=
  l.q = X.ptr ∧ l.p = pAddr K ∧ l.g = pAddr K.tail ∧ l.t = (topFrame (K.drop 2)).addr ∧
    (∀ f K1, K = f :: K1 → l.dir = f.dir) ∧ (∀ f f2 K2, K = f :: f2 :: K2 → l.last = f2.dir)

/-- The tree the loop of `rb_insert` leaves behind: held by the heap under `head`, without
repeated address, with the colour invariants, on the old addresses and `m` when a node was
added. -/
def InsDone (m : Ptr) (old : List Ptr) (h2 : Heap) (ins : Bool) : Prop :=
  ∃ T, rep h2 (headFrame.fill T) = true ∧ (headFrame.fill T).addrs.Nodup ∧ T.rbOK ∧
    T.addrs.Perm (if ins then m :: old else old)

/-- Colour of the first frame of a path, black on the empty path. -/
def pRed : List Frame → Bool
  | [] => false
  | f :: _ => f.red

/-- What up to three iterations of the loop of `rb_insert` achieve from `l`: the loop ends
leaving a tree with the colour invariants, or it reaches locals `l2` that satisfy the
invariant around a smaller subtree. -/
def Progress (cmp : Nat → Nat → Int) (m data : Nat) (f : Nat) (l : InsLoc) (K : List Frame)
    (X : Tree) : Prop :=
  (∃ h2 ins, insert_loop cmp m data (f + 3) l = some (InsExit.done h2 ins) ∧
    InsDone m (plug K X).addrs h2 ins) ∨
  (∃ k l2 K2 X2, k ≤ 2 ∧
    insert_loop cmp m data (f + 3) l = insert_loop cmp m data (f + k) l2 ∧
    NInv cmp data l2.h K2 X2 ∧ ILoc l2 K2 X2 ∧ X2.count < X.count ∧
    (plug K2 X2).addrs.Perm (plug K X).addrs)

/-! ## Sequences of calls -/

/-- The allocation of a call hands out a block that is not in use, at a 64-bit address:
not `NULL`, not the stack slot, and no node sits there. -/
def opFresh (s : State) : Op → Bool
  | Op.insert _ m => decide (m ≠ NULL) && decide (m ≠ HEAD) && decide (s.mem m = none) &&
      decide (m < 18446744073709551616)
  | Op.remove _ => true

/-- Every allocation along the run of a sequence of calls hands out an unused block. -/
def freshOps (fuel : Nat) (cmp : Nat → Nat → Int) : List Op → State → Bool
  | [], _ => true
  | op :: ops, s =>
    opFresh s op &&
      match runOp fuel cmp s op with
      | none => true
      | some (_, s1) => freshOps fuel cmp ops s1

/-- Number of `rb_insert` calls of a run that returned 0. -/
def insOK : List Op → List Nat → Nat
  | Op.insert _ _ :: ops, c :: cs => (if c = 0 then 1 else 0) + insOK ops cs
  | Op.remove _ :: ops, _ :: cs => insOK ops cs
  | _, _ => 0

/-- Number of `rb_remove` calls of a run that returned 0. -/
def remOK : List Op → List Nat → Nat
  | Op.remove _ :: ops, c :: cs => (if c = 0 then 1 else 0) + remOK ops cs
  | Op.insert _ _ :: ops, _ :: cs => remOK ops cs
  | _, _ => 0

/-! ## The search of `rb_remove` for a present key -/

/-- Every node of the shape that holds `k` has a lesser child. -/
def Tree.leftAt (k : Nat) : Tree → Bool
  | Tree.nil => true
  | Tree.node _ l _ d r => (decide (d ≠ k) || decide (l ≠ Tree.nil)) && l.leftAt k && r.leftAt k

/-- Invariant of the search of `rb_remove` for `k`, on the in-order sequence `whole` of the
tree: the path and the subtree entered next make up `whole`; what comes before the subtree
is below `k`; what comes after it is above `k` while nothing is found, and starts with the
found node once `f` is set; a node holding `k` has a lesser child; the current node was
entered by the comparison with its element. -/
structure SInv (cmp : Nat → Nat → Int) (k : Nat) (whole : List (Ptr × Nat)) (K : List Frame)
    (X : Tree) (f : Ptr) : Prop where
  hp : ctxLeft K ++ X.pairs ++ ctxRight K = whole
  hl : ∀ e ∈ ctxLeft K, 0 < cmp k e.2
  hr : (f = NULL ∧ ∀ e ∈ ctxRight K, cmp k e.2 < 0) ∨ (f ≠ NULL ∧ ∃ R, ctxRight K = (f, k) :: R)
  hleft : X.leftAt k = true
  htop : ∀ fq K0, K = fq :: K0 →
    fq.dir = decide (toInt32 (cmp k fq.data) > 0) ∧ (fq.data = k → X ≠ Tree.nil)

/-- The comparator results on the probe `k` agree with the order of the stored elements: a
stored element that compares equal to `k` stands to every stored element as `k` does. -/
def ProbeOK (cmp : Nat → Nat → Int) (k : Nat) (t : Tree) : Prop :=
  ∀ x ∈ t.inorder, cmp k x = 0 →
    ∀ d ∈ t.inorder, (cmp x d < 0 → cmp k d < 0) ∧ (0 < cmp x d → 0 < cmp k d)

instance (cmp : Nat → Nat → Int) (k : Nat) (t : Tree) : Decidable (ProbeOK cmp k t) := by
  unfold ProbeOK; exact inferInstance

/-- A comparator that reads only the tens of a word: 41 and 45 compare equal. -/
def cmpTens (a b : Nat) : Int := cmp3 (a / 10) (b / 10)

/-- The tree 40 (black root) with the red children 10 and 70. -/
def tensTree : Tree :=
  Tree.node 2 (Tree.node 3 Tree.nil true 10 Tree.nil) false 40
    (Tree.node 4 Tree.nil true 70 Tree.nil)

/-! ## Basic facts about shapes and heaps -/

@[simp] theorem ptr_nil : Tree.nil.ptr = NULL := rfl

@[simp] theorem ptr_node (a : Ptr) (l r : Tree) (c : Bool) (d : Nat) :
    (Tree.node a l c d r).ptr = a := rfl

@[simp] theorem inorder_nil : Tree.nil.inorder = [] := rfl

@[simp] theorem inorder_node (a : Ptr) (l r : Tree) (c : Bool) (d : Nat) :
    (Tree.node a l c d r).inorder = l.inorder ++ d :: r.inorder := rfl

@[simp] theorem count_nil : Tree.nil.count = 0 := rfl

@[simp] theorem count_node (a : Ptr) (l r : Tree) (c : Bool) (d : Nat) :
    (Tree.node a l c d r).count = l.count + 1 + r.count := rfl

@[simp] theorem addrs_nil : Tree.nil.addrs = [] := rfl

@[simp] theorem addrs_node (a : Ptr) (l r : Tree) (c : Bool) (d : Nat) :
    (Tree.node a l c d r).addrs = l.addrs ++ a :: r.addrs := rfl

@[simp] theorem isRed_nil : Tree.nil.isRed = false := rfl

@[simp] theorem isRed_node (a : Ptr) (l r : Tree) (c : Bool) (d : Nat) :
    (Tree.node a l c d r).isRed = c := rfl

@[simp] theorem rspine_nil : Tree.nil.rspine = 0 := rfl

@[simp] theorem rspine_node (a : Ptr) (l r : Tree) (c : Bool) (d : Nat) :
    (Tree.node a l c d r).rspine = r.rspine + 1 := rfl

theorem rep_node {h : Heap} {a : Ptr} {l r : Tree} {c : Bool} {d : Nat} :
    rep h (Tree.node a l c d r) = true ↔
      a ≠ NULL ∧ h a = some { link0 := l.ptr, link1 := r.ptr, red := c, data := d } ∧
        rep h l = true ∧ rep h r = true := by
  simp [rep, and_assoc]

theorem bst_node {cmp : Nat → Nat → Int} {a : Ptr} {l r : Tree} {c : Bool} {d : Nat} :
    (Tree.node a l c d r).bst cmp = true ↔
      (∀ x ∈ l.inorder, cmp x d < 0) ∧ (∀ x ∈ r.inorder, 0 < cmp x d) ∧
        l.bst cmp = true ∧ r.bst cmp = true := by
  simp [Tree.bst, and_assoc]

theorem load_null (h : Heap) : load h NULL = none := by simp [load]

theorem load_node {h : Heap} {a : Ptr} {l r : Tree} {c : Bool} {d : Nat}
    (hr : rep h (Tree.node a l c d r) = true) :
    load h a = some { link0 := l.ptr, link1 := r.ptr, red := c, data := d } := by
  obtain ⟨ha, hn, -, -⟩ := rep_node.1 hr
  simp [load, ha, hn]

theorem rep_update {h : Heap} {a : Ptr} {v : Option rb_node} :
    ∀ t : Tree, a ∉ t.addrs → rep (Function.update h a v) t = rep h t := by
  intro t
  induction t with
  | nil => intro _; rfl
  | node b l c d r ihl ihr =>
    intro hna
    simp only [addrs_node, List.mem_append, List.mem_cons, not_or] at hna
    obtain ⟨hl, hb, hr⟩ := hna
    simp only [rep, ihl hl, ihr hr, Function.update_noteq (Ne.symm hb)]

theorem load_update_same {h : Heap} {p : Ptr} {n : rb_node} (hp : p ≠ NULL) :
    load (Function.update h p (some n)) p = some n := by
  simp [load, hp]

theorem load_update_ne {h : Heap} {p q : Ptr} {v : Option rb_node} (hne : q ≠ p) :
    load (Function.update h p v) q = load h q := by
  simp [load, Function.update_noteq hne]

theorem getLink_eq {h : Heap} {p : Ptr} {n : rb_node} (hl : load h p = some n) (dir : Bool) :
    getLink h p dir = some (n.link dir) := by
  simp [getLink, hl]

theorem getData_eq {h : Heap} {p : Ptr} {n : rb_node} (hl : load h p = some n) :
    getData h p = some n.data := by
  simp [getData, hl]

theorem getRed_eq {h : Heap} {p : Ptr} {n : rb_node} (hl : load h p = some n) :
    getRed h p = some n.red := by
  simp [getRed, hl]

theorem setLink_eq {h : Heap} {p : Ptr} {n : rb_node} (hl : load h p = some n) (dir : Bool)
    (v : Ptr) : setLink h p dir v = some (Function.update h p (some (n.withLink dir v))) := by
  simp [setLink, store, hl]

theorem setRed_eq {h : Heap} {p : Ptr} {n : rb_node} (hl : load h p = some n) (c : Bool) :
    setRed h p c = some (Function.update h p (some { n with red := c })) := by
  simp [setRed, store, hl]

theorem setData_eq {h : Heap} {p : Ptr} {n : rb_node} (hl : load h p = some n) (d : Nat) :
    setData h p d = some (Function.update h p (some { n with data := d })) := by
  simp [setData, store, hl]

theorem isRed_ptr {h : Heap} : ∀ t : Tree, rep h t = true → IS_RED h t.ptr = some t.isRed := by
  intro t hr
  cases t with
  | nil => simp [IS_RED]
  | node a l c d r =>
    obtain ⟨ha, -, -, -⟩ := rep_node.1 hr
    simp [IS_RED, ha, getRed_eq (load_node hr)]

theorem ptr_eq_null_iff {h : Heap} : ∀ t : Tree, rep h t = true → (t.ptr = NULL ↔ t = Tree.nil) := by
  intro t hr
  cases t with
  | nil => simp
  | node a l c d r =>
    obtain ⟨ha, -, -, -⟩ := rep_node.1 hr
    simp [ha]

theorem rspine_le_count : ∀ t : Tree, t.rspine ≤ t.count := by
  intro t
  induction t with
  | nil => simp
  | node a l c d r _ ihr => simp; omega

theorem eraseAddrs_nil (h : Heap) : eraseAddrs h [] = h := by
  funext x; simp [eraseAddrs]

theorem eraseAddrs_cons (h : Heap) (a : Ptr) (as : List Ptr) :
    eraseAddrs (Function.update h a none) as = eraseAddrs h (a :: as) := by
  funext x
  by_cases hx : x = a
  · subst hx; simp [eraseAddrs]
  · simp [eraseAddrs, Function.update_noteq hx, hx]

theorem cmp3_strictTotal : StrictTotal cmp3 := by
  refine ⟨?_, ?_, ?_⟩
  · intro a b; unfold cmp3; split_ifs <;> simp <;> omega
  · intro a b; unfold cmp3; split_ifs <;> simp <;> omega
  · intro a b c; unfold cmp3; split_ifs <;> simp <;> omega

/-! ## Teardown -/

theorem free_loop_spec : ∀ (n : Nat) (t : Tree) (l : FreeLoc),
    2 * t.count - t.rspine ≤ n → l.iter = t.ptr → rep l.h t = true → t.addrs.Nodup →
    l.size < 18446744073709551616 → l.size1 < 18446744073709551616 →
    ∀ fuel, n + 1 ≤ fuel →
      free_loop fuel l = some
        { h := eraseAddrs l.h t.addrs, iter := NULL,
          size := (l.size + t.count * 18446744073709551615) % 18446744073709551616,
          size1 := (l.size1 + t.count) % 18446744073709551616,
          released := l.released ++ t.inorder } := by
  intro n
  induction n with
  | zero =>
    intro t l hm hi hr hnd hs hs1 fuel hf
    obtain ⟨h, iter, size, size1, rel⟩ := l
    simp only at hi hr hs hs1
    cases t with
    | nil =>
      obtain ⟨k, rfl⟩ : ∃ k, fuel = k + 1 := ⟨fuel - 1, by omega⟩
      simp only [ptr_nil] at hi
      subst hi
      simp [free_loop, free_step, eraseAddrs_nil, Nat.mod_eq_of_lt hs, Nat.mod_eq_of_lt hs1]
    | node a x c d r =>
      have := rspine_le_count r
      simp only [count_node, rspine_node] at hm
      omega
  | succ n ih =>
    intro t l hm hi hr hnd hs hs1 fuel hf
    obtain ⟨h, iter, size, size1, rel⟩ := l
    simp only at hi hr hs hs1
    obtain ⟨k, rfl⟩ : ∃ k, fuel = k + 1 := ⟨fuel - 1, by omega⟩
    cases t with
    | nil =>
      simp only [ptr_nil] at hi
      subst hi
      simp [free_loop, free_step, eraseAddrs_nil, Nat.mod_eq_of_lt hs, Nat.mod_eq_of_lt hs1]
    | node a x c d r =>
      simp only [ptr_node] at hi
      subst hi
      have hld := load_node hr
      obtain ⟨ha, -, hrx, hrr⟩ := rep_node.1 hr
      simp only [addrs_node] at hnd
      have hnd' := List.nodup_append.1 hnd
      obtain ⟨hndx, hndar, hdisj⟩ := hnd'
      have hndr : r.addrs.Nodup := (List.nodup_cons.1 hndar).2
      have har : iter ∉ r.addrs := (List.nodup_cons.1 hndar).1
      have hax : iter ∉ x.addrs := fun hm => hdisj hm (List.mem_cons_self _ _)
      have hrs := rspine_le_count r
      cases x with
      | nil =>
        have hspec := ih r
          { h := Function.update h iter none, iter := r.ptr,
            size := (size + 18446744073709551615) % 18446744073709551616,
            size1 := (size1 + 1) % 18446744073709551616, released := rel ++ [d] }
          (by simp only [count_node, rspine_node, count_nil] at hm; omega) rfl
          (by simp only [rep_update r har, hrr]) hndr
          (Nat.mod_lt _ (by norm_num)) (Nat.mod_lt _ (by norm_num)) k (by omega)
        simp only [free_loop, free_step, if_neg ha, getLink_eq hld, getData_eq hld,
          rb_node.link, ptr_nil, Option.bind_eq_bind, Option.some_bind, if_true,
          Bool.false_eq_true, if_false, pure, hspec]
        simp only [eraseAddrs_cons, addrs_node, addrs_nil, List.nil_append, count_node,
          count_nil, inorder_node, inorder_nil, List.append_assoc, List.singleton_append]
        simp only [Option.some.injEq, FreeLoc.mk.injEq, true_and, and_true]
        constructor <;> omega
      | node b y cb db z =>
        have hldb := load_node hrx
        obtain ⟨hb, -, hry, hrz⟩ := rep_node.1 hrx
        have hbi : b ≠ iter := fun e => hax (by simp [e])
        have hiy : iter ∉ y.addrs := fun hm => hax (by simp [hm])
        have hiz : iter ∉ z.addrs := fun hm => hax (by simp [hm])
        simp only [addrs_node] at hndx
        obtain ⟨hndy, hndbz, hdisj2⟩ := List.nodup_append.1 hndx
        have hby : b ∉ y.addrs := fun hm => hdisj2 hm (List.mem_cons_self _ _)
        have hbz : b ∉ z.addrs := (List.nodup_cons.1 hndbz).1
        have hbr : b ∉ r.addrs := fun hm => hdisj (by simp) (List.mem_cons_of_mem _ hm)
        have hl1 : load (Function.update h iter
            (some { link0 := z.ptr, link1 := r.ptr, red := c, data := d })) b =
            some { link0 := y.ptr, link1 := z.ptr, red := cb, data := db } := by
          rw [load_update_ne hbi]; exact hldb
        have hrep : rep (Function.update (Function.update h iter
            (some { link0 := z.ptr, link1 := r.ptr, red := c, data := d })) b
            (some { link0 := y.ptr, link1 := iter, red := cb, data := db }))
            (Tree.node b y cb db (Tree.node iter z c d r)) = true := by
          refine rep_node.2 ⟨hb, by simp, ?_, rep_node.2 ⟨ha, ?_, ?_, ?_⟩⟩
          · rw [rep_update y hby, rep_update y hiy]; exact hry
          · rw [Function.update_noteq (Ne.symm hbi)]; simp
          · rw [rep_update z hbz, rep_update z hiz]; exact hrz
          · rw [rep_update r hbr, rep_update r har]; exact hrr
        have hspec := ih (Tree.node b y cb db (Tree.node iter z c d r))
          { h := Function.update (Function.update h iter
              (some { link0 := z.ptr, link1 := r.ptr, red := c, data := d })) b
              (some { link0 := y.ptr, link1 := iter, red := cb, data := db }),
            iter := b, size := size, size1 := size1, released := rel }
          (by simp only [count_node, rspine_node] at hm ⊢; omega) rfl hrep
          (by simpa [List.append_assoc] using hnd) hs hs1 k (by omega)
        simp only [free_loop, free_step, if_neg ha, getLink_eq hld, getLink_eq hldb,
          rb_node.link, ptr_node, Option.bind_eq_bind, Option.some_bind, if_neg hb,
          Bool.false_eq_true, if_false, if_true, pure, setLink_eq hld, setLink_eq hl1,
          rb_node.withLink, hspec]
        simp only [addrs_node, count_node, inorder_node, List.append_assoc, List.cons_append,
          Option.some.injEq, FreeLoc.mk.injEq, true_and, and_true]
        refine ⟨?_, by omega, by omega⟩
        funext v
        simp only [eraseAddrs]
        by_cases hv : v ∈ y.addrs ++ b :: (z.addrs ++ iter :: r.addrs)
        · simp [hv]
        · have hv1 : v ≠ b := fun e => hv (by simp [e])
          have hv2 : v ≠ iter := fun e => hv (by simp [e])
          simp [hv, Function.update_noteq hv1, Function.update_noteq hv2]

/-! ## The checker -/

theorem noRedRed_node {a : Ptr} {l r : Tree} {c : Bool} {d : Nat} :
    (Tree.node a l c d r).noRedRed = true ↔
      (c = true → l.isRed = false ∧ r.isRed = false) ∧ l.noRedRed = true ∧
        r.noRedRed = true := by
  cases c <;> simp [Tree.noRedRed, and_assoc]

theorem blackHeight_node {a : Ptr} {l r : Tree} {c : Bool} {d : Nat} {n : Nat} :
    (Tree.node a l c d r).blackHeight = some n ↔
      ∃ m, l.blackHeight = some m ∧ r.blackHeight = some m ∧
        n = if c then m else m + 1 := by
  simp only [Tree.blackHeight]
  cases hl : l.blackHeight <;> cases hr : r.blackHeight <;> simp
  rename_i x y
  by_cases hxy : x = y
  · subst hxy; simp [eq_comm]
  · simp only [hxy, if_false]
    constructor
    · intro h; simp at h
    · rintro ⟨h1, -⟩; exact absurd h1.symm hxy

theorem blackHeight_pow : ∀ (t : Tree) (n : Nat), t.blackHeight = some n →
    1 ≤ n ∧ 2 ^ (n - 1) ≤ t.count + 1 := by
  intro t
  induction t with
  | nil => intro n hn; simp [Tree.blackHeight] at hn; subst hn; simp
  | node a l c d r ihl ihr =>
    intro n hn
    obtain ⟨m, hl, hr, rfl⟩ := blackHeight_node.1 hn
    obtain ⟨hl1, hl2⟩ := ihl m hl
    obtain ⟨hr1, hr2⟩ := ihr m hr
    cases c with
    | true => simp only [if_true, count_node]; exact ⟨hl1, by omega⟩
    | false =>
      simp only [Bool.false_eq_true, if_false, count_node, Nat.add_sub_cancel]
      refine ⟨by omega, ?_⟩
      have : 2 ^ m = 2 * 2 ^ (m - 1) := by
        obtain ⟨k, rfl⟩ : ∃ k, m = k + 1 := ⟨m - 1, by omega⟩
        simp [pow_succ, Nat.mul_comm]
      omega

theorem blackHeight_lt (t : Tree) (n : Nat) (hn : t.blackHeight = some n)
    (hc : t.count < 18446744073709551616) : n < 4294967296 := by
  obtain ⟨h1, h2⟩ := blackHeight_pow t n hn
  by_contra hge
  have h65 : 65 ≤ n - 1 := by omega
  have : 2 ^ 65 ≤ 2 ^ (n - 1) := Nat.pow_le_pow_right (by norm_num) h65
  have h2 : (2:Nat) ^ 65 = 36893488147419103232 := by norm_num
  omega

theorem assert_recur_spec (cmp : Nat → Nat → Int) (h : Heap) :
    ∀ (t : Tree) (n fuel : Nat), rep h t = true → t.bst cmp = true → t.noRedRed = true →
      t.blackHeight = some n → n < 4294967296 → t.count < fuel →
      rb_assert_recur cmp h fuel t.ptr = some n := by
  intro t
  induction t with
  | nil =>
    intro n fuel _ _ _ hn _ hf
    obtain ⟨k, rfl⟩ : ∃ k, fuel = k + 1 := ⟨fuel - 1, by simp at hf; omega⟩
    simp [Tree.blackHeight] at hn
    simp [rb_assert_recur, hn]
  | node a l c d r ihl ihr =>
    intro n fuel hr hb hnr hn hlt hf
    obtain ⟨k, rfl⟩ : ∃ k, fuel = k + 1 := ⟨fuel - 1, by omega⟩
    simp only [count_node] at hf
    have hld := load_node hr
    obtain ⟨ha, -, hrl, hrr⟩ := rep_node.1 hr
    obtain ⟨hlo, hgt, hbl, hbr⟩ := bst_node.1 hb
    obtain ⟨hcol, hnl, hnrr⟩ := noRedRed_node.1 hnr
    obtain ⟨m, hml, hmr, rfl⟩ := blackHeight_node.1 hn
    have hm : m < 4294967296 := by
      cases c <;> simp at hlt <;> omega
    have hloc : assert_local cmp h a l.ptr r.ptr = some c := by
      have hra : IS_RED h a = some c := by simp [IS_RED, ha, getRed_eq hld]
      have hokl : (if l.ptr ≠ NULL then (getData h l.ptr).bind
          (fun ld => some (decide (cmp ld d < 0))) else some true) = some true := by
        cases l with
        | nil => simp
        | node al ll cl dl rl =>
          obtain ⟨hal, -, -, -⟩ := rep_node.1 hrl
          have := hlo dl (by simp)
          simp [hal, getData_eq (load_node hrl), this]
      have hokr : (if r.ptr ≠ NULL then (getData h r.ptr).bind
          (fun rd => some (decide (cmp rd d > 0))) else some true) = some true := by
        cases r with
        | nil => simp
        | node ar lr cr dr rr =>
          obtain ⟨har, -, -, -⟩ := rep_node.1 hrr
          have := hgt dr (by simp)
          simp [har, getData_eq (load_node hrr), this]
      simp only [assert_local, hra, Option.bind_eq_bind, Option.some_bind, pure,
        getData_eq hld, isRed_ptr l hrl, isRed_ptr r hrr, hokl, hokr]
      cases c with
      | true =>
        obtain ⟨h1, h2⟩ := hcol rfl
        simp [h1, h2]
      | false => simp
    simp only [rb_assert_recur, ptr_node, if_neg ha, getLink_eq hld, rb_node.link, if_true,
      Bool.false_eq_true, if_false, hloc, ihl m k hrl hbl hnl hml hm (by omega),
      ihr m k hrr hbr hnrr hmr hm (by omega)]
    cases c with
    | true => simp
    | false =>
      simp only [Bool.false_eq_true, if_false] at hlt
      simp [Nat.mod_eq_of_lt hlt]

/-- C15: for every shape owned by a handle whose size field is the number of nodes, the
teardown loop of `rb_free_core` ends within `2 * count + 1` loop tests, both closing
assertions hold, and `rb_clear` returns the handle (not released) with every node of the
shape freed, the root absent and size 0. -/
theorem rb_clear_empties (s : State) (t : Tree) (ho : Owns s t) (hsz : s.size = t.count)
    (hlt : s.size < 18446744073709551616) (fuel : Nat) (hf : 2 * t.count + 1 ≤ fuel) :
    (∃ l, free_loop fuel
        { h := s.mem, iter := s.root, size := s.size, size1 := 0, released := s.released } =
          some l ∧ l.size1 = s.size ∧ l.size = 0 ∧ l.iter = NULL) ∧
    ∃ rel, rb_clear fuel s = some (false,
      { mem := eraseAddrs s.mem t.addrs, root := NULL, size := 0, released := rel }) := by
  obtain ⟨hroot, hrep, hnd, -, -⟩ := ho
  have hspec := free_loop_spec (2 * t.count) t
    { h := s.mem, iter := s.root, size := s.size, size1 := 0, released := s.released }
    (by omega) hroot hrep hnd hlt (by norm_num) fuel hf
  have e1 : (s.size + t.count * 18446744073709551615) % 18446744073709551616 = 0 := by
    rw [hsz]; omega
  have e2 : (0 + t.count) % 18446744073709551616 = s.size := by
    rw [hsz] at hlt ⊢; omega
  simp only [e1, e2] at hspec
  refine ⟨⟨_, hspec, rfl, rfl, rfl⟩, s.released ++ t.inorder, ?_⟩
  simp [rb_clear, rb_free_core, hspec]

/-- Witness for C15 on an unbalanced four-node shape. -/
theorem rb_clear_empties_witness :
    Owns leftChain.toState leftChain ∧
    ∃ rel, rb_clear 9 leftChain.toState = some (false,
      { mem := eraseAddrs leftChain.toState.mem leftChain.addrs, root := NULL, size := 0,
        released := rel }) :=
  ⟨by decide, (rb_clear_empties leftChain.toState leftChain (by decide) (by decide)
    (by decide) 9 (by decide)).2⟩

/-- C16: for every shape owned by a handle, the release calls made by the teardown loop
are exactly the stored elements, one call per node, in in-order; `rb_clear` and `rb_free`
return with that trace when the size field is the number of nodes. -/
theorem teardown_releases_each_once (s : State) (t : Tree) (ho : Owns s t)
    (hlt : s.size < 18446744073709551616) (fuel : Nat) (hf : 2 * t.count + 1 ≤ fuel) :
    (free_loop fuel
        { h := s.mem, iter := s.root, size := s.size, size1 := 0,
          released := s.released }).map (fun l => l.released) =
      some (s.released ++ t.inorder) ∧
    (s.size = t.count →
      (rb_clear fuel s).map (fun r => r.2.released) = some (s.released ++ t.inorder) ∧
      (rb_free fuel s).map (fun r => r.2.released) = some (s.released ++ t.inorder)) := by
  obtain ⟨hroot, hrep, hnd, -, -⟩ := ho
  have hspec := free_loop_spec (2 * t.count) t
    { h := s.mem, iter := s.root, size := s.size, size1 := 0, released := s.released }
    (by omega) hroot hrep hnd hlt (by norm_num) fuel hf
  refine ⟨by simp [hspec], fun hsz => ?_⟩
  have e1 : (s.size + t.count * 18446744073709551615) % 18446744073709551616 = 0 := by
    rw [hsz]; omega
  have e2 : (0 + t.count) % 18446744073709551616 = s.size := by
    rw [hsz] at hlt ⊢; omega
  simp only [e1, e2] at hspec
  constructor <;> simp [rb_clear, rb_free, rb_free_core, hspec]

/-- Witness for C16 on the tree built from 5, 3, 8, 1, 4. -/
theorem teardown_releases_each_once_witness :
    Owns fiveTree.toState fiveTree ∧
    (rb_free 11 fiveTree.toState).map (fun r => r.2.released) = some [1, 3, 4, 5, 8] :=
  ⟨by decide, ((teardown_releases_each_once fiveTree.toState fiveTree (by decide) (by decide)
    11 (by decide)).2 (by decide)).2⟩

/-- C18: for every shape laid out in the heap that is strictly ordered, has no red-red
adjacency and a uniform black-height `n`, `rb_assert_recur` fails no assertion and returns
`n` (the absent link counted as 1); `rb_assert` passes on a handle owning such a shape whose
size field is the number of nodes, and passes on the empty tree without visiting a node. -/
theorem rb_assert_accepts_valid (cmp : Nat → Nat → Int) (s : State) (t : Tree) (n : Nat)
    (ho : Owns s t) (hb : t.bst cmp = true) (hnr : t.noRedRed = true)
    (hbh : t.blackHeight = some n) (hsz : s.size = t.count)
    (hlt : s.size < 18446744073709551616) (fuel : Nat) (hf : t.count < fuel) :
    rb_assert_recur cmp s.mem fuel s.root = some n ∧ rb_assert fuel cmp s = some () ∧
      (t = Tree.nil → rb_assert 0 cmp s = some ()) := by
  obtain ⟨hroot, hrep, -, -, -⟩ := ho
  have hn : n < 4294967296 := blackHeight_lt t n hbh (by omega)
  have hrec := assert_recur_spec cmp s.mem t n fuel hrep hb hnr hbh hn hf
  rw [← hroot] at hrec
  refine ⟨hrec, ?_, ?_⟩
  · unfold rb_assert
    by_cases h0 : s.root = NULL
    · have ht : t = Tree.nil := (ptr_eq_null_iff t hrep).1 (hroot ▸ h0)
      subst ht
      simp [h0, hsz]
    · simp [h0, hrec]
  · intro ht
    subst ht
    simp [rb_assert, hroot, hsz]

/-- Witness for C18 on the tree built from 5, 3, 8, 1, 4 (black-height 3). -/
theorem rb_assert_accepts_valid_witness :
    Owns fiveTree.toState fiveTree ∧
    rb_assert_recur _rb_raw_data_cmp fiveTree.toState.mem 6 fiveTree.toState.root = some 3 :=
  ⟨by decide, (rb_assert_accepts_valid _rb_raw_data_cmp fiveTree.toState fiveTree 3 (by decide)
    (by decide) (by decide) (by decide) (by decide) (by decide) 6 (by decide)).1⟩

/-! ## Lookup -/

theorem get_loop_correct (cmp : Nat → Nat → Int) (hc : StrictTotal cmp) (h : Heap) (k : Nat) :
    ∀ (t : Tree) (fuel : Nat), rep h t = true → t.bst cmp = true → t.count < fuel →
      get_loop cmp h k fuel t.ptr = some (if k ∈ t.inorder then some k else none) := by
  intro t
  induction t with
  | nil =>
    intro fuel _ _ hf
    cases fuel with
    | zero => simp at hf
    | succ n => simp [get_loop]
  | node a l c d r ihl ihr =>
    intro fuel hr hb hf
    cases fuel with
    | zero => simp at hf
    | succ n =>
      have hld := load_node hr
      obtain ⟨ha, -, hrl, hrr⟩ := rep_node.1 hr
      obtain ⟨hlt, hgt, hbl, hbr⟩ := bst_node.1 hb
      simp only [count_node] at hf
      simp only [get_loop, ptr_node, if_neg ha, getData, getLink, hld, Option.map_some',
        Option.bind_eq_bind, Option.some_bind, inorder_node, rb_node.link]
      by_cases h0 : cmp k d = 0
      · have hkd : k = d := (hc.eq_zero k d).1 h0
        simp only [h0, if_true]
        simp [hkd]
      · have hkd : k ≠ d := fun e => h0 ((hc.eq_zero k d).2 e)
        simp only [if_neg h0]
        by_cases hpos : cmp k d > 0
        · have hnl : k ∉ l.inorder := fun hm => by
            have := hlt k hm; omega
          simp only [hpos, decide_True, if_true]
          rw [ihr n hrr hbr (by omega)]
          simp [hnl, hkd]
        · have hnr : k ∉ r.inorder := fun hm => by
            have := hgt k hm; omega
          simp only [hpos, decide_False]
          simp only [Bool.false_eq_true, if_false]
          rw [ihl n hrl hbl (by omega)]
          simp [hnr, hkd]

/-- Outside the contract of `rb_insert`, which leaves storing the marker undefined
(rbtree.c:186): with the marker `rb_not_found` at the word 77, a tree that stores the
element 77 answers `rb_find` of 77 with 0. -/
theorem rb_find_misses_stored_marker :
    Valid cmp3 markerTree.toState markerTree ∧ 77 ∈ markerTree.inorder ∧
      rb_find 2 cmp3 77 markerTree.toState 77 = some 0 := by
  decide

/-- Lookup under a strict total order: on every strictly ordered tree and for every key,
`rb_get_unsafe` returns the stored element equal to the key when there is one and the marker
otherwise, and `rb_find` returns 1 exactly when the key is stored and is not the marker
word itself. -/
theorem lookup_correct (cmp : Nat → Nat → Int) (hc : StrictTotal cmp) (nf : Nat) (s : State)
    (t : Tree) (ho : Owns s t) (hb : t.bst cmp = true) (k fuel : Nat) (hf : t.count < fuel) :
    rb_get_unsafe fuel cmp nf s k = some (if k ∈ t.inorder then k else nf) ∧
      rb_find fuel cmp nf s k = some (if k ∈ t.inorder ∧ k ≠ nf then 1 else 0) := by
  obtain ⟨hroot, hrep, -, -, -⟩ := ho
  have hg := get_loop_correct cmp hc s.mem k t fuel hrep hb hf
  rw [← hroot] at hg
  have h1 : rb_get_unsafe fuel cmp nf s k = some (if k ∈ t.inorder then k else nf) := by
    simp only [ rb_get_unsafe, hg, Option.map_some']
    split_ifs <;> rfl
  refine ⟨h1, ?_⟩
  simp only [rb_find, h1, Option.map_some']
  by_cases hk : k ∈ t.inorder <;> by_cases hn : k = nf <;> simp [hk, hn]

/-- Lookup of the stored 4 and of the absent 9 on the tree built from 5, 3, 8, 1, 4. -/
theorem lookup_correct_witness :
    Owns fiveTree.toState fiveTree ∧
      rb_get_unsafe 6 cmp3 77 fiveTree.toState 4 = some 4 ∧
      rb_find 6 cmp3 77 fiveTree.toState 9 = some 0 :=
  ⟨by decide,
    (lookup_correct cmp3 cmp3_strictTotal 77 fiveTree.toState fiveTree (by decide) (by decide)
      4 6 (by decide)).1,
    (lookup_correct cmp3 cmp3_strictTotal 77 fiveTree.toState fiveTree (by decide) (by decide)
      9 6 (by decide)).2⟩

/-- C20: `rb_assert` passes on a shape whose in-order sequence 3, 7, 5, 8 is not ascending
(each node is ordered against its two children only), and it passes on a handle whose root
is red and whose size field (5) is not the number of nodes (1). -/
theorem rb_assert_not_full_oracle :
    rb_assert 4 _rb_raw_data_cmp crossTree.toState = some () ∧
      crossTree.inorder = [3, 7, 5, 8] ∧ crossTree.bst _rb_raw_data_cmp = false ∧
      rb_assert 2 _rb_raw_data_cmp redRootState = some () ∧
      toTree redRootState.mem 2 redRootState.root =
        some (Tree.node 2 Tree.nil true 1 Tree.nil) ∧ redRootState.size = 5 := by
  decide

/-! ## The operations on concrete trees -/

/-- C1: with the default comparator the one-node tree 0 satisfies the invariants and the
word 2^31 orders after 0, yet `rb_insert` (its `int dir` keeps the low 32 bits of the
comparator result) links the new node on the lesser side: the result is not strictly
ordered. -/
theorem rb_insert_breaks_order :
    Valid _rb_raw_data_cmp oneNode.toState oneNode ∧ 0 < _rb_raw_data_cmp 2147483648 0 ∧
      observe 3 (rb_insert 3 _rb_raw_data_cmp 3 oneNode.toState 2147483648) =
        some (0, 2, some (Tree.node 2 (Tree.node 3 Tree.nil true 2147483648 Tree.nil) false 0
          Tree.nil), []) ∧
      (Tree.node 2 (Tree.node 3 Tree.nil true 2147483648 Tree.nil) false 0
        Tree.nil).bst _rb_raw_data_cmp = false := by
  decide

/-- C2: on a valid five-node tree, `rb_remove` of the root key 2^31+100 walks to the minimum
3 of the lesser subtree (the truncated comparator result is negative there) and copies it
into the root: 10 and 20 are then on the lesser side of 3. -/
theorem rb_remove_breaks_order :
    Valid _rb_raw_data_cmp wideTree.toState wideTree ∧
      observe 4 (rb_remove 4 _rb_raw_data_cmp wideTree.toState 2147483748) =
        some (0, 4, some (Tree.node 2
          (Tree.node 3 Tree.nil false 10 (Tree.node 6 Tree.nil true 20 Tree.nil))
          false 3 (Tree.node 4 Tree.nil false 2147483848 Tree.nil)), [3]) ∧
      (Tree.node 2
          (Tree.node 3 Tree.nil false 10 (Tree.node 6 Tree.nil true 20 Tree.nil))
          false 3 (Tree.node 4 Tree.nil false 2147483848 Tree.nil)).bst _rb_raw_data_cmp =
        false := by
  decide

/-- C3: the word 2^32 is not in the one-node tree 0, yet `rb_insert` of it returns `EEXIST`
and adds nothing; the scenario 5, 3, 8, 1, 4 of the claim gives traversal 1, 3, 4, 5, 8 and
size 5. -/
theorem rb_insert_rejects_new_key :
    Valid _rb_raw_data_cmp oneNode.toState oneNode ∧ 4294967296 ∉ oneNode.inorder ∧
      observe 3 (rb_insert 3 _rb_raw_data_cmp 3 oneNode.toState 4294967296) =
        some (EEXIST, 1, some oneNode, []) ∧
      (runOps 6 _rb_raw_data_cmp
          [Op.insert 5 2, Op.insert 3 3, Op.insert 8 4, Op.insert 1 5, Op.insert 4 6]
          emptyState).map
        (fun r => (r.1, r.2.size, (toTree r.2.mem 6 r.2.root).map Tree.inorder)) =
        some ([0, 0, 0, 0, 0], 5, some [1, 3, 4, 5, 8]) := by
  decide

/-- C4: `rb_remove` of the stored key 2^32 from the tree 0, 2^32 returns 0 but takes the
element 0 out; 2^32 is still stored and still found.  On the tree of the claim's scenario
removing 3 gives traversal 1, 4, 5, 8 and size 4. -/
theorem rb_remove_takes_other_element :
    Valid _rb_raw_data_cmp twoWide.toState twoWide ∧ 4294967296 ∈ twoWide.inorder ∧
      observe 3 (rb_remove 3 _rb_raw_data_cmp twoWide.toState 4294967296) =
        some (0, 1, some (Tree.node 3 Tree.nil false 4294967296 Tree.nil), [0]) ∧
      ((rb_remove 3 _rb_raw_data_cmp twoWide.toState 4294967296).bind
        (fun r => rb_find 3 _rb_raw_data_cmp 77 r.2 4294967296)) = some 1 ∧
      (rb_remove 6 _rb_raw_data_cmp fiveTree.toState 3).map
        (fun r => (r.1, r.2.size, (toTree r.2.mem 6 r.2.root).map Tree.inorder)) =
        some (0, 4, some [1, 4, 5, 8]) := by
  decide

/-- C6: the key 2^31 is stored in the tree 0, 2^31, yet `rb_insert` of it returns 0, stores
it a second time on the lesser side of 0 and raises the size to 3; on the claim's scenario
(5, then 5 again) the second call returns `EEXIST` with size 1. -/
theorem rb_insert_accepts_duplicate :
    Valid _rb_raw_data_cmp twoWide31.toState twoWide31 ∧ 2147483648 ∈ twoWide31.inorder ∧
      observe 3 (rb_insert 3 _rb_raw_data_cmp 4 twoWide31.toState 2147483648) =
        some (0, 3, some (Tree.node 2 (Tree.node 4 Tree.nil true 2147483648 Tree.nil) false 0
          (Tree.node 3 Tree.nil true 2147483648 Tree.nil)), []) ∧
      (runOps 3 _rb_raw_data_cmp [Op.insert 5 2, Op.insert 5 3] emptyState).map
        (fun r => (r.1, r.2.size)) = some ([0, EEXIST], 1) := by
  decide

/-- C7: the key 2^32 is not in the one-node tree 0, yet `rb_remove` of it returns 0, takes
the element 0 out and leaves the tree empty with size 0. -/
theorem rb_remove_absent_key_succeeds :
    Valid _rb_raw_data_cmp oneNode.toState oneNode ∧ 4294967296 ∉ oneNode.inorder ∧
      observe 3 (rb_remove 3 _rb_raw_data_cmp oneNode.toState 4294967296) =
        some (0, 0, some Tree.nil, [0]) := by
  decide

/-- C8: removing 3 from the tree built from 5, 3, 8, 1, 4 (3 has the lesser child 1) makes
one release call, on the element 1, which is still stored afterwards at the node that held
3; the element 3 is not released. -/
theorem rb_remove_releases_kept_element :
    Valid _rb_raw_data_cmp fiveTree.toState fiveTree ∧
      observe 4 (rb_remove 4 _rb_raw_data_cmp fiveTree.toState 3) =
        some (0, 4, some (Tree.node 2
          (Tree.node 3 Tree.nil false 1 (Tree.node 6 Tree.nil true 4 Tree.nil))
          false 5 (Tree.node 4 Tree.nil false 8 Tree.nil)), [1]) := by
  decide

/-- C9: inserting 1 into a valid seven-node tree flips colours at 3 and rotates at the root
10 during the descent; when the allocation then fails, `rb_insert` returns `ENOMEM` with the
root reference still at the node 10, now red and below the new top 5: three of the seven
nodes are reachable from the handle while the size field says 7. -/
theorem rb_insert_enomem_corrupts :
    Valid _rb_raw_data_cmp sevenTree.toState sevenTree ∧
      observe 5 (rb_insert 5 _rb_raw_data_cmp 0 sevenTree.toState 1) =
        some (ENOMEM, 7, some (Tree.node 2 (Tree.node 6 Tree.nil false 7 Tree.nil) true 10
          (Tree.node 4 Tree.nil false 15 Tree.nil)), []) := by
  decide

/-- C12: the comparator results 2^32 and 2^31 are non-zero and positive, and
`rb_get_unsafe` reads them so (2^32 is not found in the tree 0; 2^31 is found on the greater
link), but `rb_insert` takes 2^32 for an equal key (`EEXIST`) and 2^31 for the lesser side,
and `rb_remove` takes 2^32 for a match. -/
theorem ordering_read_differently :
    _rb_raw_data_cmp 4294967296 0 = 4294967296 ∧ _rb_raw_data_cmp 2147483648 0 = 2147483648 ∧
      rb_get_unsafe 3 _rb_raw_data_cmp 77 oneNode.toState 4294967296 = some 77 ∧
      rb_get_unsafe 3 _rb_raw_data_cmp 77 twoWide31.toState 2147483648 = some 2147483648 ∧
      (rb_insert 3 _rb_raw_data_cmp 3 oneNode.toState 4294967296).map (fun r => r.1) =
        some EEXIST ∧
      ((rb_insert 3 _rb_raw_data_cmp 3 oneNode.toState 2147483648).bind
        (fun r => getLink r.2.mem r.2.root false)) = some 3 ∧
      (rb_remove 3 _rb_raw_data_cmp oneNode.toState 4294967296).map (fun r => r.1) =
        some 0 := by
  decide

/-- C14: for the two distinct keys 0 and 2^32 the second `rb_insert` returns `EEXIST`, and
the `rb_remove` of 2^32 after that of 0 returns `ENOENT`. -/
theorem round_trip_wide_keys :
    (runOps 3 _rb_raw_data_cmp
        [Op.insert 0 2, Op.insert 4294967296 3, Op.remove 0, Op.remove 4294967296]
        emptyState).map (fun r => (r.1, r.2.size, r.2.root)) =
      some ([0, EEXIST, 0, ENOENT], 0, NULL) := by
  decide

theorem insert_top_noflip {h : Heap} {a : Ptr} {l r : Tree} {c : Bool} {d : Nat}
    (hr : rep h (Tree.node a l c d r) = true) (hnf : (l.isRed && r.isRed) = false)
    (m : Ptr) (k : Nat) (p : Ptr) (dir : Bool) :
    insert_top m k h p a dir = some (h, a, false, false) := by
  have hld := load_node hr
  obtain ⟨ha, -, hrl, hrr⟩ := rep_node.1 hr
  simp only [insert_top, if_neg ha, getLink_eq hld, rb_node.link, Option.bind_eq_bind,
    Option.some_bind, isRed_ptr l hrl, isRed_ptr r hrr, if_true, Bool.false_eq_true, if_false,
    pure]
  cases hl : l.isRed <;> cases hrd : r.isRed <;> simp_all

theorem insert_fix_noviol {h : Heap} {p q : Ptr} {rq rp : Bool} (hq : IS_RED h q = some rq)
    (hp : IS_RED h p = some rp) (hnv : (rq && rp) = false) (t g : Ptr) (last : Bool) :
    insert_fix h t g p q last = some h := by
  simp only [insert_fix, hq, hp, Option.bind_eq_bind, Option.some_bind, pure]
  cases rq <;> cases rp <;> simp_all

theorem insert_loop_dup (cmp : Nat → Nat → Int) (k : Nat) (m : Ptr) (h : Heap)
    (hc : StrictTotal cmp) :
    ∀ (sub : Tree) (fuel : Nat) (t g p : Ptr) (dir last : Bool) (rp : Bool),
      rep h sub = true → sub.bst cmp = true → sub.noRedRed = true → k ∈ sub.inorder →
      sub.noFlipTo cmp k = true → Fits32 cmp k sub → IS_RED h p = some rp →
      (rp && sub.isRed) = false → sub.count < fuel →
      insert_loop cmp m k fuel
        { h := h, t := t, g := g, p := p, q := sub.ptr, dir := dir, last := last } =
        some (InsExit.done h false) := by
  intro sub
  induction sub with
  | nil => intro fuel t g p dir last rp _ _ _ hk; simp at hk
  | node a l c d r ihl ihr =>
    intro fuel t g p dir last rp hr hb hnr hk hnf hfit hp hcol hf
    obtain ⟨n, rfl⟩ : ∃ n, fuel = n + 1 := ⟨fuel - 1, by omega⟩
    simp only [count_node] at hf
    have hld := load_node hr
    obtain ⟨ha, -, hrl, hrr⟩ := rep_node.1 hr
    obtain ⟨hlo, hgt, hbl, hbr⟩ := bst_node.1 hb
    obtain ⟨hcc, hnl, hnrr⟩ := noRedRed_node.1 hnr
    simp only [Tree.noFlipTo, Bool.and_eq_true, Bool.not_eq_true'] at hnf
    obtain ⟨hnf1, hnf2⟩ := hnf
    have hqa : IS_RED h a = some c := by simp [IS_RED, ha, getRed_eq hld]
    have hfd : toInt32 (cmp k d) = cmp k d := hfit d (by simp)
    simp only [isRed_node] at hcol
    have hstep : insert_step cmp m k
        { h := h, t := t, g := g, p := p, q := a, dir := dir, last := last } =
        some (if cmp k d = 0 then Sum.inl (InsExit.done h false)
          else Sum.inr { h := h, t := if g ≠ NULL then g else t, g := p, p := a,
                         q := if cmp k d > 0 then r.ptr else l.ptr,
                         dir := decide (cmp k d > 0), last := dir }) := by
      simp only [insert_step, insert_top_noflip hr hnf1, Option.bind_eq_bind, Option.some_bind,
        insert_fix_noviol hqa hp (by rw [Bool.and_comm]; exact hcol), getData_eq hld, hfd,
        getLink_eq hld, rb_node.link, Bool.false_eq_true, if_false, pure]
      by_cases h0 : cmp k d = 0
      · simp [h0]
      · by_cases hpos : cmp k d > 0 <;> simp [h0, hpos]
    simp only [insert_loop, ptr_node, hstep]
    by_cases h0 : cmp k d = 0
    · simp [h0]
    · simp only [if_neg h0]
      have hkd : k ≠ d := fun e => h0 ((hc.eq_zero k d).2 e)
      simp only [if_neg h0] at hnf2
      by_cases hpos : cmp k d > 0
      · simp only [hpos, if_true, decide_True] at hnf2 ⊢
        have hkr : k ∈ r.inorder := by
          simp only [inorder_node, List.mem_append, List.mem_cons] at hk
          rcases hk with hk | hk | hk
          · have := hlo k hk; omega
          · exact absurd hk hkd
          · exact hk
        exact ihr n _ p a true dir c hrr hbr hnrr hkr hnf2
          (fun x hx => hfit x (by simp [hx])) hqa
          (by cases c <;> simp; exact (hcc rfl).2) (by omega)
      · simp only [hpos, if_false, decide_False] at hnf2 ⊢
        have hkl : k ∈ l.inorder := by
          simp only [inorder_node, List.mem_append, List.mem_cons] at hk
          rcases hk with hk | hk | hk
          · exact hk
          · exact absurd hk hkd
          · have := hgt k hk; omega
        exact ihl n _ p a false dir c hrl hbl hnl hkl hnf2
          (fun x hx => hfit x (by simp [hx])) hqa
          (by cases c <;> simp; exact (hcc rfl).1) (by omega)

theorem update_none_cancel {h : Heap} {a : Ptr} {v w : Option rb_node} (ha : h a = w) :
    Function.update (Function.update h a v) a w = h := by
  rw [Function.update_idem, ← ha, Function.update_eq_self]

theorem head_frame {s : State} {t : Tree} (ho : Owns s t) :
    setLink (Function.update s.mem HEAD (some headInit)) HEAD true s.root =
        some (Function.update s.mem HEAD
          (some { link0 := NULL, link1 := s.root, red := false, data := 0 })) ∧
      rep (Function.update s.mem HEAD
          (some { link0 := NULL, link1 := s.root, red := false, data := 0 })) t = true ∧
      load (Function.update s.mem HEAD
          (some { link0 := NULL, link1 := s.root, red := false, data := 0 })) HEAD =
        some { link0 := NULL, link1 := s.root, red := false, data := 0 } := by
  obtain ⟨-, hrep, -, hH, -⟩ := ho
  have hne : HEAD ≠ NULL := by decide
  refine ⟨?_, ?_, load_update_same hne⟩
  · rw [setLink_eq (load_update_same hne), Function.update_idem]
    rfl
  · rw [rep_update t hH]; exact hrep

theorem remove_push_quiet {h : Heap} {q : Ptr} {x y : Tree} {c : Bool} {d : Nat}
    (hr : rep h (Tree.node q x c d y) = true) (dir : Bool)
    (hq : (c || (if dir then y else x).isRed) = true) (g p : Ptr) (last : Bool) :
    remove_push h g p q dir last = some (h, p) := by
  have hld := load_node hr
  obtain ⟨ha, -, hrx, hry⟩ := rep_node.1 hr
  have hqa : IS_RED h q = some c := by simp [IS_RED, ha, getRed_eq hld]
  simp only [remove_push, hqa, Option.bind_eq_bind, Option.some_bind, getLink_eq hld,
    rb_node.link, pure]
  cases c with
  | true => simp
  | false =>
    cases dir with
    | true =>
      simp only [Bool.false_or, if_true] at hq
      simp [isRed_ptr y hry, hq]
    | false =>
      simp only [Bool.false_or, Bool.false_eq_true, if_false] at hq
      simp [isRed_ptr x hrx, hq]

theorem remove_loop_absent (cmp : Nat → Nat → Int) (k : Nat) (h : Heap)
    (hc : StrictTotal cmp) :
    ∀ (sub : Tree) (fuel : Nat) (g p q f : Ptr) (dir : Bool),
      getLink h q dir = some sub.ptr → rep h sub = true → k ∉ sub.inorder →
      sub.noPushBelow cmp k = true → Fits32 cmp k sub → sub.count < fuel →
      ∃ e, remove_loop cmp k fuel { h := h, g := g, p := p, q := q, f := f, dir := dir } =
        some e ∧ e.h = h ∧ e.f = f := by
  intro sub
  induction sub with
  | nil =>
    intro fuel g p q f dir hlk _ _ _ _ hf
    obtain ⟨n, rfl⟩ : ∃ n, fuel = n + 1 := ⟨fuel - 1, by simp at hf; omega⟩
    simp only [ptr_nil] at hlk
    exact ⟨{ h := h, g := g, p := p, q := q, f := f, dir := dir },
      by simp [remove_loop, remove_step, hlk], rfl, rfl⟩
  | node a x c d y ihx ihy =>
    intro fuel g p q f dir hlk hr hk hnp hfit hf
    obtain ⟨n, rfl⟩ : ∃ n, fuel = n + 1 := ⟨fuel - 1, by omega⟩
    simp only [count_node] at hf
    simp only [ptr_node] at hlk
    have hld := load_node hr
    obtain ⟨ha, -, hrx, hry⟩ := rep_node.1 hr
    have hfd : toInt32 (cmp k d) = cmp k d := hfit d (by simp)
    have hkd : cmp k d ≠ 0 := fun e => hk (by simp [(hc.eq_zero k d).1 e])
    simp only [inorder_node, List.mem_append, List.mem_cons, not_or] at hk
    obtain ⟨hkx, -, hky⟩ := hk
    by_cases hpos : cmp k d > 0
    · simp only [Tree.noPushBelow, hpos, if_true, Bool.and_eq_true] at hnp
      obtain ⟨hq, hnp2⟩ := hnp
      obtain ⟨e, he, he1, he2⟩ := ihy n p q a f true
        (by simp [getLink_eq hld, rb_node.link]) hry hky hnp2
        (fun z hz => hfit z (by simp [hz])) (by omega)
      refine ⟨e, ?_, he1, he2⟩
      simp only [remove_loop, remove_step, hlk, Option.bind_eq_bind, Option.some_bind,
        if_neg ha, getData_eq hld, hfd, hpos, decide_True, if_neg hkd,
        remove_push_quiet hr true (by simpa using hq), pure]
      exact he
    · simp only [Tree.noPushBelow, hpos, if_false, Bool.and_eq_true] at hnp
      obtain ⟨hq, hnp2⟩ := hnp
      obtain ⟨e, he, he1, he2⟩ := ihx n p q a f false
        (by simp [getLink_eq hld, rb_node.link]) hrx hkx hnp2
        (fun z hz => hfit z (by simp [hz])) (by omega)
      refine ⟨e, ?_, he1, he2⟩
      simp only [remove_loop, remove_step, hlk, Option.bind_eq_bind, Option.some_bind,
        if_neg ha, getData_eq hld, hfd, hpos, decide_False, if_neg hkd,
        remove_push_quiet hr false (by simpa using hq), pure]
      exact he

theorem remove_push_root {h : Heap} {q : Ptr} {x y : Tree} {c : Bool} {d : Nat} {v : Ptr}
    (hr : rep h (Tree.node q x c d y) = true)
    (hh : load h HEAD = some { link0 := NULL, link1 := v, red := false, data := 0 })
    (dir : Bool)
    (hq : (c || (if dir then y else x).isRed || !(if dir then x else y).isRed) = true)
    (g : Ptr) : remove_push h g HEAD q dir true = some (h, HEAD) := by
  by_cases hquiet : (c || (if dir then y else x).isRed) = true
  · exact remove_push_quiet hr dir hquiet g HEAD true
  · have hld := load_node hr
    obtain ⟨ha, -, hrx, hry⟩ := rep_node.1 hr
    have hqa : IS_RED h q = some c := by simp [IS_RED, ha, getRed_eq hld]
    simp only [Bool.or_eq_true, not_or, Bool.not_eq_true] at hquiet
    obtain ⟨hc0, hch⟩ := hquiet
    subst hc0
    simp only [Bool.false_or, hch, Bool.not_eq_true', Bool.false_or] at hq
    have hsib : remove_sibling h g HEAD q true = some h := by
      simp [remove_sibling, getLink_eq hh, rb_node.link]
    cases dir with
    | true =>
      simp only [if_true, Bool.false_eq_true, if_false] at hch hq
      simp [remove_push, hqa, getLink_eq hld, rb_node.link, isRed_ptr y hry, isRed_ptr x hrx,
        hch, hq, hsib]
    | false =>
      simp only [if_true, Bool.false_eq_true, if_false] at hch hq
      simp [remove_push, hqa, getLink_eq hld, rb_node.link, isRed_ptr y hry, isRed_ptr x hrx,
        hch, hq, hsib]

/-- One iteration of the descent of `rb_remove`: when the loop steps to a node with element
`d`, the node becomes the found reference and the next link is the lesser one when the
comparator result (as an `int`) is 0, and otherwise the found reference is kept and the
next link is the greater one exactly when the result is positive. -/
theorem remove_step_direction (cmp : Nat → Nat → Int) (k : Nat) (l e : RemLoc)
    (hs : remove_step cmp k l = some (Sum.inr e)) :
    ∃ d, getLink l.h l.q l.dir = some e.q ∧ getData l.h e.q = some d ∧ e.g = l.p ∧
      e.dir = decide (toInt32 (cmp k d) > 0) ∧
      (toInt32 (cmp k d) = 0 → e.f = e.q ∧ e.dir = false) ∧
      (toInt32 (cmp k d) ≠ 0 → e.f = l.f) := by
  unfold remove_step at hs
  cases hlk : getLink l.h l.q l.dir with
  | none => simp [hlk] at hs
  | some nx =>
    simp only [hlk, Option.bind_eq_bind, Option.some_bind] at hs
    by_cases hnx : nx = NULL
    · simp [hnx] at hs
    · simp only [if_neg hnx] at hs
      cases hd : getData l.h nx with
      | none => simp [hd] at hs
      | some d =>
        simp only [hd, Option.some_bind] at hs
        cases hp : remove_push l.h l.p l.q nx (decide (toInt32 (cmp k d) > 0)) l.dir with
        | none => simp [hp] at hs
        | some hp2 =>
          simp only [hp, Option.some_bind, pure, Option.some.injEq, Sum.inr.injEq] at hs
          subst hs
          refine ⟨d, rfl, hd, rfl, rfl, ?_, ?_⟩
          · intro h0
            simp [h0]
          · intro h0
            simp [h0]

/-- The first iteration of `rb_remove` of 5 on the tree built from 5, 3, 8, 1, 4 steps to
the root, matches it and turns to the lesser link. -/
theorem remove_step_direction_witness :
    ∃ d, getLink (Function.update fiveTree.toState.mem HEAD
          (some { link0 := NULL, link1 := 2, red := false, data := 0 })) HEAD true = some 2 ∧
      getData (Function.update fiveTree.toState.mem HEAD
          (some { link0 := NULL, link1 := 2, red := false, data := 0 })) 2 = some d ∧
      NULL = NULL ∧ false = decide (toInt32 (cmp3 5 d) > 0) ∧
      (toInt32 (cmp3 5 d) = 0 → (2 : Ptr) = 2 ∧ false = false) ∧
      (toInt32 (cmp3 5 d) ≠ 0 → (2 : Ptr) = NULL) :=
  remove_step_direction cmp3 5
    { h := Function.update fiveTree.toState.mem HEAD
        (some { link0 := NULL, link1 := 2, red := false, data := 0 }),
      g := NULL, p := NULL, q := HEAD, f := NULL, dir := true }
    { h := Function.update fiveTree.toState.mem HEAD
        (some { link0 := NULL, link1 := 2, red := false, data := 0 }),
      g := NULL, p := HEAD, q := 2, f := 2, dir := false }
    rfl

/-! ## Paths into a shape -/

@[simp] theorem fill_ptr (f : Frame) (t : Tree) : (f.fill t).ptr = f.addr := by
  unfold Frame.fill; split <;> rfl

theorem rep_fill {h : Heap} {f : Frame} {t : Tree} :
    rep h (f.fill t) = true ↔
      f.addr ≠ NULL ∧ h f.addr = some (f.record t.ptr) ∧ rep h f.sib = true ∧
        rep h t = true := by
  unfold Frame.fill Frame.record
  split <;> rw [rep_node] <;> try tauto

theorem fill_addrs_perm (f : Frame) (t : Tree) :
    (f.fill t).addrs.Perm (f.addr :: f.sib.addrs ++ t.addrs) := by
  unfold Frame.fill
  split
  · simp only [addrs_node, List.cons_append]
    exact List.perm_middle
  · simp only [addrs_node, List.cons_append]
    refine (List.perm_middle).trans (List.Perm.cons _ List.perm_append_comm)

theorem plug_addrs_perm : ∀ (c : List Frame) (t : Tree),
    (plug c t).addrs.Perm (ctxAddrs c ++ t.addrs) := by
  intro c
  induction c with
  | nil => intro t; simp [plug, ctxAddrs]
  | cons f c ih =>
    intro t
    simp only [plug, ctxAddrs]
    refine (ih (f.fill t)).trans ?_
    refine (List.Perm.append_left _ (fill_addrs_perm f t)).trans ?_
    simp only [List.cons_append, List.append_assoc]
    refine (List.perm_middle).trans (List.Perm.cons _ ?_)
    rw [← List.append_assoc, ← List.append_assoc]
    exact List.Perm.append_right _ List.perm_append_comm

theorem rep_plug {h : Heap} : ∀ (c : List Frame) (t : Tree),
    rep h (plug c t) = true ↔ repCtx h c t.ptr ∧ rep h t = true := by
  intro c
  induction c with
  | nil => intro t; simp [plug, repCtx]
  | cons f c ih =>
    intro t
    simp only [plug, repCtx, ih, rep_fill, fill_ptr]
    tauto

theorem rep_agree {h h2 : Heap} {as : List Ptr} (hag : Agree h h2 as) :
    ∀ t : Tree, (∀ a ∈ t.addrs, a ∉ as) → rep h2 t = rep h t := by
  intro t
  induction t with
  | nil => intro _; rfl
  | node b l c d r ihl ihr =>
    intro hd
    have hb : h2 b = h b := hag b (hd b (by simp))
    simp only [rep, hb, ihl (fun a ha => hd a (by simp [ha])),
      ihr (fun a ha => hd a (by simp [ha]))]

theorem repCtx_agree {h h2 : Heap} {as : List Ptr} (hag : Agree h h2 as) :
    ∀ (c : List Frame) (p : Ptr), (∀ a ∈ ctxAddrs c, a ∉ as) → repCtx h c p →
      repCtx h2 c p := by
  intro c
  induction c with
  | nil => intro p _ _; trivial
  | cons f c ih =>
    intro p hd hr
    obtain ⟨h1, h2', h3, h4⟩ := hr
    refine ⟨h1, ?_, ?_, ih f.addr (fun a ha => hd a (by simp [ctxAddrs, ha])) h4⟩
    · rw [hag f.addr (hd f.addr (by simp [ctxAddrs]))]; exact h2'
    · rw [rep_agree hag f.sib (fun a ha => hd a (by simp [ctxAddrs, ha]))]; exact h3

theorem repCtx_hole {h h2 : Heap} {as : List Ptr} (hag : Agree h h2 as) (f : Frame)
    (c : List Frame) (p p2 : Ptr) (hd : ∀ a ∈ f.sib.addrs ++ ctxAddrs c, a ∉ as)
    (hf : h2 f.addr = some (f.record p2)) (hr : repCtx h (f :: c) p) :
    repCtx h2 (f :: c) p2 := by
  obtain ⟨h1, -, h3, h4⟩ := hr
  refine ⟨h1, hf, ?_, repCtx_agree hag c f.addr (fun a ha => hd a (by simp [ha])) h4⟩
  rw [rep_agree hag f.sib (fun a ha => hd a (by simp [ha]))]; exact h3

theorem agree_refl (h : Heap) (as : List Ptr) : Agree h h as := fun _ _ => rfl

theorem agree_update {h h2 : Heap} {as : List Ptr} (hag : Agree h h2 as) (a : Ptr)
    (v : Option rb_node) (ha : a ∈ as) : Agree h (Function.update h2 a v) as := by
  intro z hz
  have : z ≠ a := fun e => hz (e ▸ ha)
  rw [Function.update_noteq this]; exact hag z hz

theorem agree_mono {h h2 : Heap} {as bs : List Ptr} (hag : Agree h h2 as)
    (hsub : ∀ a ∈ as, a ∈ bs) : Agree h h2 bs :=
  fun z hz => hag z (fun hm => hz (hsub z hm))

/-! ## Rotations on the heap -/

@[simp] theorem record_link_dir (f : Frame) (p : Ptr) : (f.record p).link f.dir = p := by
  unfold Frame.record rb_node.link; cases f.dir <;> simp

@[simp] theorem record_link_other (f : Frame) (p : Ptr) :
    (f.record p).link (!f.dir) = f.sib.ptr := by
  unfold Frame.record rb_node.link; cases f.dir <;> simp

@[simp] theorem record_red (f : Frame) (p : Ptr) : (f.record p).red = f.red := by
  unfold Frame.record; cases f.dir <;> simp

@[simp] theorem record_data (f : Frame) (p : Ptr) : (f.record p).data = f.data := by
  unfold Frame.record; cases f.dir <;> simp

theorem record_withLink_dir (f : Frame) (p v : Ptr) :
    (f.record p).withLink f.dir v = f.record v := by
  unfold Frame.record rb_node.withLink; cases f.dir <;> simp

theorem record_withLink_other (f : Frame) (p : Ptr) (s : Tree) :
    (f.record p).withLink (!f.dir) s.ptr = ({ f with sib := s } : Frame).record p := by
  unfold Frame.record rb_node.withLink; cases f.dir <;> simp

theorem record_setRed (f : Frame) (p : Ptr) (c : Bool) :
    ({ f.record p with red := c } : rb_node) = ({ f with red := c } : Frame).record p := by
  unfold Frame.record; cases f.dir <;> simp

theorem record_setData (f : Frame) (p : Ptr) (d : Nat) :
    ({ f.record p with data := d } : rb_node) = ({ f with data := d } : Frame).record p := by
  unfold Frame.record; cases f.dir <;> simp

theorem load_some_ne_null {h : Heap} {p : Ptr} {n : rb_node} (hl : load h p = some n) :
    p ≠ NULL := by
  intro e; rw [e, load_null] at hl; cases hl

theorem load_eq {h : Heap} {p : Ptr} (hp : p ≠ NULL) : load h p = h p := by
  simp [load, hp]

theorem rot_once_spec {h : Heap} {fa fb : Frame} {bi : Ptr} {dir : Bool}
    (hla : load h fa.addr = some (fa.record fb.addr))
    (hlb : load h fb.addr = some (fb.record bi)) (hda : fa.dir = !dir) (hdb : fb.dir = dir)
    (hne : fa.addr ≠ fb.addr) :
    rot_once h fa.addr dir = some (rotHeap h fa fb bi, fb.addr) := by
  subst hdb
  have hna := load_some_ne_null hla
  have hnb := load_some_ne_null hlb
  have e1 : getLink h fa.addr (!fb.dir) = some fb.addr := by
    rw [getLink_eq hla, ← hda, record_link_dir]
  have e2 : getLink h fb.addr fb.dir = some bi := by
    rw [getLink_eq hlb, record_link_dir]
  have e3 : setLink h fa.addr (!fb.dir) bi =
      some (Function.update h fa.addr (some (fa.record bi))) := by
    rw [setLink_eq hla, ← hda, record_withLink_dir]
  have l4 : load (Function.update h fa.addr (some (fa.record bi))) fb.addr =
      some (fb.record bi) := by
    rw [load_update_ne (Ne.symm hne)]; exact hlb
  have e4 := setLink_eq l4 fb.dir fa.addr
  rw [record_withLink_dir] at e4
  have l5 : load (Function.update (Function.update h fa.addr (some (fa.record bi))) fb.addr
      (some (fb.record fa.addr))) fa.addr = some (fa.record bi) := by
    rw [load_update_ne hne]; exact load_update_same hna
  have e5 := setRed_eq l5 true
  rw [record_setRed] at e5
  have l6 : load (Function.update (Function.update (Function.update h fa.addr
      (some (fa.record bi))) fb.addr (some (fb.record fa.addr))) fa.addr
      (some (({ fa with red := true } : Frame).record bi))) fb.addr =
      some (fb.record fa.addr) := by
    rw [load_update_ne (Ne.symm hne)]; exact load_update_same hnb
  have e6 := setRed_eq l6 false
  rw [record_setRed] at e6
  simp only [rot_once, e1, e2, e3, Option.bind_eq_bind, Option.some_bind]
  rw [e4]
  simp only [Option.some_bind]
  rw [e5]
  simp only [Option.some_bind]
  rw [e6]
  simp only [Option.some_bind, pure, Option.some.injEq, Prod.mk.injEq, and_true]
  funext z
  unfold rotHeap
  by_cases hz : z = fb.addr
  · subst hz; simp
  · by_cases hz2 : z = fa.addr
    · subst hz2; simp [hz]
    · simp [hz, hz2]

theorem rotHeap_agree (h : Heap) (fa fb : Frame) (bi : Ptr) :
    Agree h (rotHeap h fa fb bi) [fa.addr, fb.addr] := by
  intro z hz
  simp only [List.mem_cons, List.mem_singleton, not_or, List.not_mem_nil, or_false] at hz
  simp [rotHeap, hz.1, hz.2]

theorem rotHeap_a {h : Heap} {fa fb : Frame} {bi : Ptr} (hne : fa.addr ≠ fb.addr) :
    rotHeap h fa fb bi fa.addr = some (({ fa with red := true } : Frame).record bi) := by
  simp [rotHeap, hne]

theorem rotHeap_b (h : Heap) (fa fb : Frame) (bi : Ptr) :
    rotHeap h fa fb bi fb.addr = some (({ fb with red := false } : Frame).record fa.addr) := by
  simp [rotHeap]

/-! ## Colours along a path -/

@[simp] theorem child_node_true (a : Ptr) (l r : Tree) (c : Bool) (d : Nat) :
    (Tree.node a l c d r).child true = r := rfl

@[simp] theorem child_node_false (a : Ptr) (l r : Tree) (c : Bool) (d : Nat) :
    (Tree.node a l c d r).child false = l := rfl

@[simp] theorem child_nil (dir : Bool) : Tree.nil.child dir = Tree.nil := rfl

@[simp] theorem isRed_fill (f : Frame) (t : Tree) : (f.fill t).isRed = f.red := by
  unfold Frame.fill; split <;> rfl

@[simp] theorem child_fill_dir (f : Frame) (t : Tree) : (f.fill t).child f.dir = t := by
  unfold Frame.fill; cases f.dir <;> simp

@[simp] theorem child_fill_other (f : Frame) (t : Tree) : (f.fill t).child (!f.dir) = f.sib := by
  unfold Frame.fill; cases f.dir <;> simp

theorem count_fill (f : Frame) (t : Tree) : (f.fill t).count = t.count + f.sib.count + 1 := by
  unfold Frame.fill; split <;> simp <;> omega

theorem noRedRed_fill {f : Frame} {t : Tree} :
    (f.fill t).noRedRed = true ↔
      (f.red = true → t.isRed = false ∧ f.sib.isRed = false) ∧ f.sib.noRedRed = true ∧
        t.noRedRed = true := by
  unfold Frame.fill
  split <;> rw [noRedRed_node] <;> tauto

theorem blackHeight_fill {f : Frame} {t : Tree} {n : Nat} :
    (f.fill t).blackHeight = some n ↔
      ∃ m, t.blackHeight = some m ∧ f.sib.blackHeight = some m ∧
        n = if f.red then m else m + 1 := by
  unfold Frame.fill
  split <;> rw [blackHeight_node] <;> constructor <;> rintro ⟨m, h1, h2, h3⟩ <;>
    exact ⟨m, h2, h1, h3⟩

theorem blackHeight_fill_congr (f : Frame) {t t2 : Tree} (h : t.blackHeight = t2.blackHeight) :
    (f.fill t).blackHeight = (f.fill t2).blackHeight := by
  unfold Frame.fill
  split <;> simp only [Tree.blackHeight, h]

theorem blackHeight_plug_congr : ∀ (c : List Frame) {t t2 : Tree},
    t.blackHeight = t2.blackHeight → (plug c t).blackHeight = (plug c t2).blackHeight := by
  intro c
  induction c with
  | nil => intro t t2 h; exact h
  | cons f c ih => intro t t2 h; exact ih (blackHeight_fill_congr f h)

theorem noRedRed_plug_sub : ∀ (c : List Frame) {t : Tree},
    (plug c t).noRedRed = true → t.noRedRed = true := by
  intro c
  induction c with
  | nil => intro t h; exact h
  | cons f c ih => intro t h; exact (noRedRed_fill.1 (ih h)).2.2

theorem blackHeight_plug_sub : ∀ (c : List Frame) {t : Tree},
    (plug c t).blackHeight.isSome = true → t.blackHeight.isSome = true := by
  intro c
  induction c with
  | nil => intro t h; exact h
  | cons f c ih =>
    intro t h
    obtain ⟨n, hn⟩ := Option.isSome_iff_exists.1 (ih h)
    obtain ⟨m, hm, -, -⟩ := blackHeight_fill.1 hn
    simp [hm]

theorem noRedRed_plug_congr : ∀ (c : List Frame) {t t2 : Tree},
    (plug c t).noRedRed = true → t2.noRedRed = true → (t2.isRed = true → t.isRed = true) →
      (plug c t2).noRedRed = true := by
  intro c
  induction c with
  | nil => intro t t2 _ h2 _; exact h2
  | cons f c ih =>
    intro t t2 h h2 hcol
    refine ih h ?_ (by simp)
    obtain ⟨h3, h4, -⟩ := noRedRed_fill.1 (noRedRed_plug_sub c h)
    refine noRedRed_fill.2 ⟨fun hf => ⟨?_, (h3 hf).2⟩, h4, h2⟩
    cases ht2 : t2.isRed
    · rfl
    · have := (h3 hf).1; rw [hcol ht2] at this; cases this

theorem count_plug_congr : ∀ (c : List Frame) {t t2 : Tree} (k : Nat),
    t2.count + k = t.count → (plug c t2).count + k = (plug c t).count := by
  intro c
  induction c with
  | nil => intro t t2 k h; exact h
  | cons f c ih =>
    intro t t2 k h
    exact ih k (by rw [count_fill, count_fill]; omega)

theorem plug_append (c d : List Frame) (t : Tree) : plug (c ++ d) t = plug d (plug c t) := by
  induction c generalizing t with
  | nil => rfl
  | cons f c ih => simp [plug, ih]

theorem fill_swap (f : Frame) (t : Tree) :
    f.fill t = ({ f with dir := !f.dir, sib := t } : Frame).fill f.sib := by
  unfold Frame.fill; cases f.dir <;> simp

theorem node_eq_fill (a : Ptr) (l r : Tree) (c : Bool) (d : Nat) (dir : Bool) :
    Tree.node a l c d r =
      ({ addr := a, red := c, data := d, dir := dir, sib := if dir then l else r } : Frame).fill
        (if dir then r else l) := by
  unfold Frame.fill; cases dir <;> simp

@[simp] theorem setRed_isRed_node (a : Ptr) (l r : Tree) (c c2 : Bool) (d : Nat) :
    ((Tree.node a l c d r).setRed c2).isRed = c2 := rfl

@[simp] theorem setRed_ptr (t : Tree) (c : Bool) : (t.setRed c).ptr = t.ptr := by
  cases t <;> rfl

@[simp] theorem setRed_addrs (t : Tree) (c : Bool) : (t.setRed c).addrs = t.addrs := by
  cases t <;> rfl

@[simp] theorem setRed_count (t : Tree) (c : Bool) : (t.setRed c).count = t.count := by
  cases t <;> rfl

@[simp] theorem setRed_inorder (t : Tree) (c : Bool) : (t.setRed c).inorder = t.inorder := by
  cases t <;> rfl

/-! ## Rewriting below a path -/

theorem ctx_nodup_split {c : List Frame} {w : Tree} (hnd : (plug c w).addrs.Nodup) :
    (ctxAddrs c).Nodup ∧ w.addrs.Nodup ∧ ∀ a ∈ ctxAddrs c, a ∉ w.addrs := by
  have h1 := (plug_addrs_perm c w).nodup_iff.1 hnd
  obtain ⟨h2, h3, h4⟩ := List.nodup_append.1 h1
  exact ⟨h2, h3, fun a ha hw => h4 ha hw⟩

theorem rep_plug_replace {h h2 : Heap} {f : Frame} {c : List Frame} {w w2 : Tree}
    (hr : rep h (plug (f :: c) w) = true) (hnd : (plug (f :: c) w).addrs.Nodup)
    (hag : Agree h h2 (f.addr :: w.addrs)) (hw : rep h2 w2 = true)
    (hf : h2 f.addr = some (f.record w2.ptr)) (hnd2 : w2.addrs.Nodup)
    (hsub : ∀ a ∈ w2.addrs, a ∉ ctxAddrs (f :: c)) :
    rep h2 (plug (f :: c) w2) = true ∧ (plug (f :: c) w2).addrs.Nodup := by
  obtain ⟨hc1, hc2, hc3⟩ := ctx_nodup_split hnd
  obtain ⟨hrc, -⟩ := (rep_plug (f :: c) w).1 hr
  constructor
  · refine (rep_plug (f :: c) w2).2 ⟨?_, hw⟩
    refine repCtx_hole hag f c w.ptr w2.ptr ?_ hf hrc
    intro a ha
    have hmem : a ∈ ctxAddrs (f :: c) := by
      simp only [ctxAddrs, List.cons_append, List.mem_cons]
      exact Or.inr ha
    simp only [ctxAddrs, List.cons_append, List.nodup_cons] at hc1
    simp only [List.mem_cons, not_or]
    exact ⟨fun e => hc1.1 (e ▸ ha), hc3 a hmem⟩
  · refine (plug_addrs_perm (f :: c) w2).nodup_iff.2 (List.nodup_append.2 ⟨hc1, hnd2, ?_⟩)
    intro a ha hw2
    exact hsub a hw2 ha

theorem window_facts {h : Heap} {fP fQ : Frame} {t : Tree}
    (hr : rep h (fP.fill (fQ.fill t)) = true) :
    fP.addr ≠ NULL ∧ fQ.addr ≠ NULL ∧ h fP.addr = some (fP.record fQ.addr) ∧
      h fQ.addr = some (fQ.record t.ptr) ∧ rep h fP.sib = true ∧ rep h fQ.sib = true ∧
      rep h t = true := by
  obtain ⟨h1, h2, h3, h4⟩ := rep_fill.1 hr
  obtain ⟨h5, h6, h7, h8⟩ := rep_fill.1 h4
  rw [fill_ptr] at h2
  exact ⟨h1, h5, h2, h6, h3, h7, h8⟩

theorem fill_addrs_nodup {f : Frame} {t : Tree} (hnd : (f.fill t).addrs.Nodup) :
    f.addr ∉ f.sib.addrs ∧ f.addr ∉ t.addrs ∧ f.sib.addrs.Nodup ∧ t.addrs.Nodup ∧
      ∀ a ∈ f.sib.addrs, a ∉ t.addrs := by
  have h1 := (fill_addrs_perm f t).nodup_iff.1 hnd
  simp only [List.cons_append, List.nodup_cons, List.mem_append, not_or] at h1
  obtain ⟨⟨h2, h3⟩, h4⟩ := h1
  obtain ⟨h5, h6, h7⟩ := List.nodup_append.1 h4
  exact ⟨h2, h3, h5, h6, fun a ha hb => h7 ha hb⟩

theorem ptr_not_mem_of_rep {h : Heap} {t : Tree} {a : Ptr} (hr : rep h t = true)
    (ha : a ∉ t.addrs) (h0 : a ≠ NULL) : t.ptr ≠ a := by
  cases t with
  | nil => exact fun e => h0 e.symm
  | node b l c d r => exact fun e => ha (by simp at e; simp [e])

theorem ptr_mem_or_null (t : Tree) : t.ptr = NULL ∨ t.ptr ∈ t.addrs := by
  cases t with
  | nil => exact Or.inl rfl
  | node b l c d r => exact Or.inr (by simp)

/-! ## The rebalancing step of `rb_remove` on a window -/

theorem mem_fill {f : Frame} {t : Tree} {a : Ptr} :
    a ∈ (f.fill t).addrs ↔ a = f.addr ∨ a ∈ f.sib.addrs ∨ a ∈ t.addrs := by
  rw [(fill_addrs_perm f t).mem_iff]; simp

theorem nodup_fill {f : Frame} {t : Tree} :
    (f.fill t).addrs.Nodup ↔ f.addr ∉ f.sib.addrs ∧ f.addr ∉ t.addrs ∧ f.sib.addrs.Nodup ∧
      t.addrs.Nodup ∧ ∀ a ∈ f.sib.addrs, a ∉ t.addrs := by
  rw [(fill_addrs_perm f t).nodup_iff]
  simp only [List.cons_append, List.nodup_cons, List.mem_append, not_or, List.nodup_append,
    List.Disjoint]
  constructor
  · rintro ⟨⟨h1, h2⟩, h3, h4, h5⟩; exact ⟨h1, h2, h3, h4, fun a ha hb => h5 ha hb⟩
  · rintro ⟨h1, h2, h3, h4, h5⟩; exact ⟨⟨h1, h2⟩, h3, h4, fun a ha hb => h5 a ha hb⟩

theorem mem_node {a b : Ptr} {l r : Tree} {c : Bool} {d : Nat} :
    a ∈ (Tree.node b l c d r).addrs ↔ a = b ∨ a ∈ l.addrs ∨ a ∈ r.addrs := by
  simp only [addrs_node, List.mem_append, List.mem_cons]; tauto

theorem nodup_node {b : Ptr} {l r : Tree} {c : Bool} {d : Nat} :
    (Tree.node b l c d r).addrs.Nodup ↔ b ∉ l.addrs ∧ b ∉ r.addrs ∧ l.addrs.Nodup ∧
      r.addrs.Nodup ∧ ∀ a ∈ l.addrs, a ∉ r.addrs := by
  have h := nodup_fill (f := { addr := b, red := c, data := d, dir := true, sib := l }) (t := r)
  simpa [Frame.fill] using h

theorem push_flip_local {h : Heap} {fP fQ : Frame} {Q2 : Tree} {sa : Ptr} {sl sr : Tree}
    {sc : Bool} {sd : Nat} (hS : fP.sib = Tree.node sa sl sc sd sr)
    (hr : rep h (fP.fill (fQ.fill Q2)) = true) (hnd : (fP.fill (fQ.fill Q2)).addrs.Nodup)
    (hq : fQ.red = false) (hq2 : Q2.isRed = false) (ho : fQ.sib.isRed = false)
    (hsl : sl.isRed = false) (hsr : sr.isRed = false) (g : Ptr) :
    ∃ h2, remove_push h g fP.addr fQ.addr fQ.dir fP.dir = some (h2, fP.addr) ∧
      Agree h h2 (fP.fill (fQ.fill Q2)).addrs ∧
      rep h2 (({ fP with red := false, sib := Tree.node sa sl true sd sr } : Frame).fill
        (({ fQ with red := true } : Frame).fill Q2)) = true := by
  obtain ⟨hp0, hq0, hP, hQ, hrS, hrO, hrQ2⟩ := window_facts hr
  obtain ⟨n1, n2, n3, n4, n5⟩ := fill_addrs_nodup hnd
  obtain ⟨m1, m2, m3, m4, m5⟩ := fill_addrs_nodup n4
  rw [hS] at hrS n1 n3 n5
  obtain ⟨hs0, hSn, hrsl, hrsr⟩ := rep_node.1 hrS
  have hps : fP.addr ≠ sa := fun e => n1 (by simp [e])
  have hpq : fP.addr ≠ fQ.addr := fun e => n2 (by
    rw [e]; exact (fill_addrs_perm fQ Q2).mem_iff.2 (by simp))
  have hqs : fQ.addr ≠ sa := fun e => n5 sa (by simp) (by
    rw [← e]; exact (fill_addrs_perm fQ Q2).mem_iff.2 (by simp))
  have e1 : IS_RED h fQ.addr = some false := by
    simp [IS_RED, hq0, getRed, load, hQ, hq]
  have e2 : getLink h fQ.addr fQ.dir = some Q2.ptr := by
    simp [getLink, load, hq0, hQ]
  have e3 : getLink h fQ.addr (!fQ.dir) = some fQ.sib.ptr := by
    simp [getLink, load, hq0, hQ]
  have e4 : getLink h fP.addr (!fP.dir) = some sa := by
    simp [getLink, load, hp0, hP, hS]
  have e5 : bothNotRed h sa (!fP.dir) fP.dir = some true := by
    have : load h sa = some { link0 := sl.ptr, link1 := sr.ptr, red := sc, data := sd } := by
      simp [load, hs0, hSn]
    simp only [bothNotRed, getLink_eq this, rb_node.link, Option.bind_eq_bind,
      Option.some_bind]
    cases fP.dir <;> simp [isRed_ptr sl hrsl, isRed_ptr sr hrsr, hsl, hsr]
  refine ⟨Function.update (Function.update (Function.update h fP.addr
      (some (({ fP with red := false } : Frame).record fQ.addr))) sa
      (some { link0 := sl.ptr, link1 := sr.ptr, red := true, data := sd })) fQ.addr
      (some (({ fQ with red := true } : Frame).record Q2.ptr)), ?_, ?_, ?_⟩
  · simp only [remove_push, e1, e2, e3, e4, e5, isRed_ptr Q2 hrQ2, isRed_ptr fQ.sib hrO, hq2, ho,
      Option.bind_eq_bind, Option.some_bind, Bool.false_eq_true, if_false, Bool.not_false,
      if_true, pure, remove_sibling, if_neg hs0, remove_flip]
    rw [setRed_eq (n := fP.record fQ.addr) (by simp [load, hp0, hP]), Option.some_bind,
      record_setRed]
    rw [setRed_eq (n := { link0 := sl.ptr, link1 := sr.ptr, red := sc, data := sd })
      (by simp [load, hs0, hSn, Function.update_apply, Ne.symm hps]), Option.some_bind]
    rw [setRed_eq (n := fQ.record Q2.ptr) (by
      simp [load, hq0, hQ, Function.update_apply, hqs, Ne.symm hpq]), record_setRed]
    rfl
  · have hps2 : sa ∈ (fP.fill (fQ.fill Q2)).addrs :=
      (fill_addrs_perm fP _).mem_iff.2 (by simp [hS])
    have hpp : fP.addr ∈ (fP.fill (fQ.fill Q2)).addrs :=
      (fill_addrs_perm fP _).mem_iff.2 (by simp)
    have hqq : fQ.addr ∈ (fP.fill (fQ.fill Q2)).addrs :=
      (fill_addrs_perm fP _).mem_iff.2 (by
        simp only [List.cons_append, List.mem_cons, List.mem_append]
        exact Or.inr (Or.inr ((fill_addrs_perm fQ Q2).mem_iff.2 (by simp))))
    exact agree_update (agree_update (agree_update (agree_refl h _) _ _ hpp) _ _ hps2) _ _ hqq
  · have hag : Agree h (Function.update (Function.update (Function.update h fP.addr
        (some (({ fP with red := false } : Frame).record fQ.addr))) sa
        (some { link0 := sl.ptr, link1 := sr.ptr, red := true, data := sd })) fQ.addr
        (some (({ fQ with red := true } : Frame).record Q2.ptr))) [fP.addr, sa, fQ.addr] :=
      agree_update (agree_update (agree_update (agree_refl h _) _ _ (by simp)) _ _ (by simp))
        _ _ (by simp)
    have hqO : fQ.addr ∉ fQ.sib.addrs := m1
    have hsO : sa ∉ fQ.sib.addrs := fun hm => n5 sa (by simp)
      ((fill_addrs_perm fQ Q2).mem_iff.2 (by simp [hm]))
    have hpO : fP.addr ∉ fQ.sib.addrs := fun hm => n2
      ((fill_addrs_perm fQ Q2).mem_iff.2 (by simp [hm]))
    have hsQ2 : sa ∉ Q2.addrs := fun hm => n5 sa (by simp)
      ((fill_addrs_perm fQ Q2).mem_iff.2 (by simp [hm]))
    have hpQ2 : fP.addr ∉ Q2.addrs := fun hm => n2
      ((fill_addrs_perm fQ Q2).mem_iff.2 (by simp [hm]))
    simp only [addrs_node, List.mem_append, List.mem_cons, not_or] at n1
    simp only [addrs_node] at n3
    obtain ⟨k1, k2, k3⟩ := List.nodup_append.1 n3
    have hssl : sa ∉ sl.addrs := fun hm => k3 hm (List.mem_cons_self _ _)
    have hssr : sa ∉ sr.addrs := (List.nodup_cons.1 k2).1
    have hqsl : fQ.addr ∉ sl.addrs := fun hm => n5 fQ.addr (by simp [hm])
      ((fill_addrs_perm fQ Q2).mem_iff.2 (by simp))
    have hqsr : fQ.addr ∉ sr.addrs := fun hm => n5 fQ.addr (by simp [hm])
      ((fill_addrs_perm fQ Q2).mem_iff.2 (by simp))
    refine rep_fill.2 ⟨hp0, ?_, rep_node.2 ⟨hs0, ?_, ?_, ?_⟩, rep_fill.2 ⟨hq0, ?_, ?_, ?_⟩⟩
    · simp [Function.update_apply, hpq, hps, Frame.record, hS]
    · simp [Function.update_apply, Ne.symm hqs]
    · rw [rep_agree hag sl (by intro a ha; simp; exact ⟨fun e => n1.1 (e ▸ ha),
        fun e => hssl (e ▸ ha), fun e => hqsl (e ▸ ha)⟩)]; exact hrsl
    · rw [rep_agree hag sr (by intro a ha; simp; exact ⟨fun e => n1.2.2 (e ▸ ha),
        fun e => hssr (e ▸ ha), fun e => hqsr (e ▸ ha)⟩)]; exact hrsr
    · simp [Function.update_apply]
    · rw [rep_agree hag fQ.sib (by intro a ha; simp; exact ⟨fun e => hpO (e ▸ ha),
        fun e => hsO (e ▸ ha), fun e => hqO (e ▸ ha)⟩)]; exact hrO
    · rw [rep_agree hag Q2 (by intro a ha; simp; exact ⟨fun e => hpQ2 (e ▸ ha),
        fun e => hsQ2 (e ▸ ha), fun e => m2 (e ▸ ha)⟩)]; exact hrQ2

theorem rep_keep {h h2 : Heap} {as : List Ptr} {t : Tree} (hag : Agree h h2 as)
    (hr : rep h t = true) (hd : ∀ a ∈ as, a ∉ t.addrs) : rep h2 t = true := by
  rw [rep_agree hag t (fun a ha hm => hd a hm ha)]; exact hr

theorem record_swap (f : Frame) (t : Tree) :
    ({ f with dir := !f.dir, sib := t } : Frame).record f.sib.ptr = f.record t.ptr := by
  unfold Frame.record; cases f.dir <;> simp

theorem mem_fill_addr (f : Frame) (t : Tree) : f.addr ∈ (f.fill t).addrs :=
  (fill_addrs_perm f t).mem_iff.2 (by simp)

theorem mem_fill_sib {f : Frame} {t : Tree} {a : Ptr} (ha : a ∈ f.sib.addrs) :
    a ∈ (f.fill t).addrs :=
  (fill_addrs_perm f t).mem_iff.2 (by simp [ha])

theorem mem_fill_sub {f : Frame} {t : Tree} {a : Ptr} (ha : a ∈ t.addrs) :
    a ∈ (f.fill t).addrs :=
  (fill_addrs_perm f t).mem_iff.2 (by simp [ha])

theorem push_rot_local {h : Heap} {fP fQ fr : Frame} {Q2 ri : Tree}
    (hO : fQ.sib = fr.fill ri) (hdr : fr.dir = fQ.dir)
    (hr : rep h (fP.fill (fQ.fill Q2)) = true) (hnd : (fP.fill (fQ.fill Q2)).addrs.Nodup)
    (hq : fQ.red = false) (hq2 : Q2.isRed = false) (hrr : fr.red = true) (g : Ptr) :
    ∃ h2, remove_push h g fP.addr fQ.addr fQ.dir fP.dir = some (h2, fr.addr) ∧
      Agree h h2 (fP.fill (fQ.fill Q2)).addrs ∧
      rep h2 (fP.fill (({ fr with red := false } : Frame).fill
        (({ fQ with red := true, sib := ri } : Frame).fill Q2))) = true := by
  obtain ⟨hp0, hq0, hP, hQ, hrS, hrO, hrQ2⟩ := window_facts hr
  obtain ⟨n1, n2, n3, n4, n5⟩ := fill_addrs_nodup hnd
  obtain ⟨m1, m2, m3, m4, m5⟩ := fill_addrs_nodup n4
  rw [hO] at hrO m1 m3 m5
  obtain ⟨hr0, hR, hrro, hrri⟩ := rep_fill.1 hrO
  obtain ⟨k1, k2, k3, k4, k5⟩ := fill_addrs_nodup m3
  have hpq : fP.addr ≠ fQ.addr := fun e => n2 (e ▸ mem_fill_addr fQ Q2)
  have hqr : fQ.addr ≠ fr.addr := fun e => m1 (e ▸ mem_fill_addr fr ri)
  have hpr : fP.addr ≠ fr.addr := fun e => n2 (mem_fill_sib (by
    rw [hO, e]; exact mem_fill_addr fr ri))
  have e1 : IS_RED h fQ.addr = some false := by
    simp [IS_RED, hq0, getRed, load, hQ, hq]
  have e2 : getLink h fQ.addr fQ.dir = some Q2.ptr := by
    simp [getLink, load, hq0, hQ]
  have e3 : getLink h fQ.addr (!fQ.dir) = some fr.addr := by
    simp [getLink, load, hq0, hQ, hO]
  have e4 : IS_RED h fr.addr = some true := by
    simp [IS_RED, hr0, getRed, load, hR, hrr]
  have hla : load h fQ.addr =
      some (({ fQ with dir := !fQ.dir, sib := Q2 } : Frame).record fr.addr) := by
    have := record_swap fQ Q2
    rw [hO, fill_ptr] at this
    rw [this]; simp [load, hq0, hQ]
  have hlb : load h fr.addr = some (fr.record ri.ptr) := by simp [load, hr0, hR]
  have hrot := @rot_once_spec h ({ fQ with dir := !fQ.dir, sib := Q2 } : Frame) fr ri.ptr fQ.dir
    hla hlb rfl hdr hqr
  simp only at hrot
  have hlp : load (rotHeap h ({ fQ with dir := !fQ.dir, sib := Q2 } : Frame) fr ri.ptr) fP.addr =
      some (fP.record fQ.addr) := by
    rw [load_eq hp0, rotHeap_agree h _ fr ri.ptr fP.addr (by simp [hpq, hpr])]; exact hP
  refine ⟨Function.update (rotHeap h ({ fQ with dir := !fQ.dir, sib := Q2 } : Frame) fr ri.ptr)
    fP.addr (some (fP.record fr.addr)), ?_, ?_, ?_⟩
  · simp only [remove_push, e1, e2, e3, e4, isRed_ptr Q2 hrQ2, hq2, Option.bind_eq_bind,
      Option.some_bind, Bool.false_eq_true, if_false, Bool.not_false, if_true, pure, hrot,
      setLink_eq hlp, record_withLink_dir]
  · refine agree_update (agree_mono (rotHeap_agree h _ fr ri.ptr) ?_) _ _ (mem_fill_addr fP _)
    intro a ha
    simp only [List.mem_cons, List.mem_singleton, List.not_mem_nil, or_false] at ha
    rcases ha with rfl | rfl
    · exact mem_fill_sub (mem_fill_addr fQ Q2)
    · exact mem_fill_sub (mem_fill_sib (by rw [hO]; exact mem_fill_addr fr ri))
  · have hag : Agree h (Function.update (rotHeap h
        ({ fQ with dir := !fQ.dir, sib := Q2 } : Frame) fr ri.ptr) fP.addr
        (some (fP.record fr.addr))) [fP.addr, fQ.addr, fr.addr] :=
      agree_update (agree_mono (rotHeap_agree h _ fr ri.ptr) (by simp)) _ _ (by simp)
    have hrQ : fr.addr ∉ Q2.addrs := fun hm => m5 fr.addr (mem_fill_addr fr ri) hm
    have hpQ2 : fP.addr ∉ Q2.addrs := fun hm => n2 (mem_fill_sub hm)
    have hpS : fP.addr ∉ fP.sib.addrs := n1
    have hqS : fQ.addr ∉ fP.sib.addrs := fun hm => n5 _ hm (mem_fill_addr fQ Q2)
    have hrS2 : fr.addr ∉ fP.sib.addrs := fun hm => n5 _ hm
      (mem_fill_sib (by rw [hO]; exact mem_fill_addr fr ri))
    have hpro : fP.addr ∉ fr.sib.addrs := fun hm => n2
      (mem_fill_sib (by rw [hO]; exact mem_fill_sib hm))
    have hqro : fQ.addr ∉ fr.sib.addrs := fun hm => m1 (mem_fill_sib hm)
    have hpri : fP.addr ∉ ri.addrs := fun hm => n2
      (mem_fill_sib (by rw [hO]; exact mem_fill_sub hm))
    have hqri : fQ.addr ∉ ri.addrs := fun hm => m1 (mem_fill_sub hm)
    refine rep_fill.2 ⟨hp0, ?_, ?_, rep_fill.2 ⟨hr0, ?_, ?_, rep_fill.2 ⟨hq0, ?_, ?_, ?_⟩⟩⟩
    · simp
    · exact rep_keep hag hrS (by simp [hpS, hqS, hrS2])
    · simp only [fill_ptr]
      rw [Function.update_noteq (Ne.symm hpr), rotHeap_b]
    · exact rep_keep hag hrro (by simp [hpro, hqro, k1])
    · rw [Function.update_noteq (Ne.symm hpq),
        @rotHeap_a _ ({ fQ with dir := !fQ.dir, sib := Q2 } : Frame) _ _ hqr]
      have := record_swap ({ fQ with red := true, sib := ri } : Frame) Q2
      simp only at this
      rw [← this]
    · exact rep_keep hag hrri (by simp [hpri, hqri, k2])
    · exact rep_keep hag hrQ2 (by simp [hpQ2, m2, hrQ])

theorem recolor_spec {h : Heap} {g q x x0 x1 : Ptr} {dir2 : Bool} {ng nx nq n0 n1 : rb_node}
    (hg : load h g = some ng) (hgx : ng.link dir2 = x) (hx : load h x = some nx)
    (hq : load h q = some nq) (hx0 : nx.link false = x0) (hx1 : nx.link true = x1)
    (h0 : load h x0 = some n0) (h1 : load h x1 = some n1)
    (dgx : g ≠ x) (dgq : g ≠ q) (dg0 : g ≠ x0) (dg1 : g ≠ x1) (dxq : x ≠ q) (dx0 : x ≠ x0)
    (dx1 : x ≠ x1) (dq0 : q ≠ x0) (dq1 : q ≠ x1) (d01 : x0 ≠ x1) :
    remove_recolor h g q dir2 = some
      (Function.update (Function.update (Function.update (Function.update h x
        (some { nx with red := true })) q (some { nq with red := true })) x0
        (some { n0 with red := false })) x1 (some { n1 with red := false })) := by
  have hxn := load_some_ne_null hx
  have hqn := load_some_ne_null hq
  have h0n := load_some_ne_null h0
  have h1n := load_some_ne_null h1
  have hx0' : ({ nx with red := true } : rb_node).link false = x0 := by
    rw [← hx0]; rfl
  have hx1' : ({ nx with red := true } : rb_node).link true = x1 := by
    rw [← hx1]; rfl
  simp only [remove_recolor, getLink, setRed, store, load_update_ne, load_update_same, hg, hx,
    hq, h0, h1, hgx, hx0', hx1', hxn, hqn, h0n, h1n, dgx, dgq, dg0, dg1, dxq, dx0, dx1, dq0, dq1,
    d01, Ne.symm dgx, Ne.symm dgq, Ne.symm dg0, Ne.symm dg1, Ne.symm dxq, Ne.symm dx0,
    Ne.symm dx1, Ne.symm dq0, Ne.symm dq1, Ne.symm d01, ne_eq, not_false_eq_true,
    Option.map_some', Option.bind_eq_bind, Option.some_bind]

theorem recolor_post {h : Heap} {g q x x0 x1 : Ptr} {dir2 : Bool} {ng nx nq n0 n1 : rb_node}
    (hg : load h g = some ng) (hgx : ng.link dir2 = x) (hx : load h x = some nx)
    (hq : load h q = some nq) (hx0 : nx.link false = x0) (hx1 : nx.link true = x1)
    (h0 : load h x0 = some n0) (h1 : load h x1 = some n1)
    (dgx : g ≠ x) (dgq : g ≠ q) (dg0 : g ≠ x0) (dg1 : g ≠ x1) (dxq : x ≠ q) (dx0 : x ≠ x0)
    (dx1 : x ≠ x1) (dq0 : q ≠ x0) (dq1 : q ≠ x1) (d01 : x0 ≠ x1) :
    ∃ h2, remove_recolor h g q dir2 = some h2 ∧ Agree h h2 [x, q, x0, x1] ∧
      h2 x = some { nx with red := true } ∧ h2 q = some { nq with red := true } ∧
      h2 x0 = some { n0 with red := false } ∧ h2 x1 = some { n1 with red := false } := by
  refine ⟨_, recolor_spec hg hgx hx hq hx0 hx1 h0 h1 dgx dgq dg0 dg1 dxq dx0 dx1 dq0 dq1 d01,
    ?_, ?_, ?_, ?_, ?_⟩
  · exact agree_update (agree_update (agree_update (agree_update (agree_refl h _) _ _
      (by simp)) _ _ (by simp)) _ _ (by simp)) _ _ (by simp)
  · simp [Function.update_apply, dxq, dx0, dx1]
  · simp [Function.update_apply, dq0, dq1]
  · simp [Function.update_apply, d01]
  · simp [Function.update_apply]

theorem dir2_eq {h : Heap} {fG : Frame} {p : Ptr} (hG : load h fG.addr = some (fG.record p))
    (hgs : fG.sib.ptr ≠ p) :
    ∃ gl, getLink h fG.addr true = some gl ∧ decide (gl = p) = fG.dir := by
  refine ⟨_, getLink_eq hG true, ?_⟩
  unfold Frame.record rb_node.link
  cases hd : fG.dir <;> simp [hgs]

theorem agree_trans {h h2 h3 : Heap} {as bs : List Ptr} (h12 : Agree h h2 as)
    (h23 : Agree h2 h3 bs) : Agree h h3 (as ++ bs) := by
  intro z hz
  simp only [List.mem_append, not_or] at hz
  rw [h23 z hz.2, h12 z hz.1]

theorem push_single_local {h : Heap} {fG fP fQ fS : Frame} {Q2 near : Tree} {fa : Ptr}
    {fl fr : Tree} {fd : Nat} (hS : fP.sib = fS.fill near) (hds : fS.dir = fP.dir)
    (hfar : fS.sib = Tree.node fa fl true fd fr)
    (hG : h fG.addr = some (fG.record fP.addr)) (hg0 : fG.addr ≠ NULL)
    (hgw : fG.addr ∉ (fP.fill (fQ.fill Q2)).addrs) (hgs : fG.sib.ptr ≠ fP.addr)
    (hr : rep h (fP.fill (fQ.fill Q2)) = true) (hnd : (fP.fill (fQ.fill Q2)).addrs.Nodup)
    (hq : fQ.red = false) (hq2 : Q2.isRed = false) (ho : fQ.sib.isRed = false)
    (hnear : near.isRed = false) :
    ∃ h2, remove_push h fG.addr fP.addr fQ.addr fQ.dir fP.dir = some (h2, fP.addr) ∧
      Agree h h2 (fG.addr :: (fP.fill (fQ.fill Q2)).addrs) ∧
      h2 fG.addr = some (fG.record fS.addr) ∧
      rep h2 (({ fS with red := true, sib := Tree.node fa fl false fd fr } : Frame).fill
        (({ fP with red := false, sib := near } : Frame).fill
          (({ fQ with red := true } : Frame).fill Q2))) = true := by
  obtain ⟨hp0, hq0, hP, hQ, hrS, hrO, hrQ2⟩ := window_facts hr
  rw [hS] at hrS
  obtain ⟨hs0, hSn, hrfar, hrnear⟩ := rep_fill.1 hrS
  rw [hfar] at hrfar
  obtain ⟨hf0, hFn, hrfl, hrfr⟩ := rep_node.1 hrfar
  simp only [nodup_fill, mem_fill, nodup_node, mem_node, hS, hfar, not_or, forall_eq_or_imp,
    or_imp, forall_and, forall_eq, List.forall_mem_ne'] at hnd hgw
  obtain ⟨⟨dps, ⟨dpf, dpfl, dpfr⟩, dpn⟩, ⟨dpq, dpO, dpQ2⟩,
    ⟨⟨dsf, dsfl, dsfr⟩, dsn, ⟨dffl, dffr, -⟩, -, dfn, -⟩,
    ⟨dqO, dqQ2, -⟩, ⟨dsq, ⟨dfq, dqfl, dqfr⟩, dqn⟩, ⟨dsO, ⟨dfO, -⟩, -⟩, dsQ2, ⟨dfQ2, -⟩, -⟩ := hnd
  obtain ⟨dgp, ⟨dgs, ⟨dgf, dgfl, dgfr⟩, dgn⟩, dgq, dgO, dgQ2⟩ := hgw
  -- reads before the rotation
  have lQ : load h fQ.addr = some (fQ.record Q2.ptr) := by rw [load_eq hq0]; exact hQ
  have lP : load h fP.addr = some (fP.record fQ.addr) := by rw [load_eq hp0]; exact hP
  have lS : load h fS.addr = some (fS.record near.ptr) := by rw [load_eq hs0]; exact hSn
  have lG : load h fG.addr = some (fG.record fP.addr) := by rw [load_eq hg0]; exact hG
  have lF : load h fa = some { link0 := fl.ptr, link1 := fr.ptr, red := true, data := fd } := by
    rw [load_eq hf0]; exact hFn
  have e1 : IS_RED h fQ.addr = some false := by simp [IS_RED, hq0, getRed_eq lQ, hq]
  have e2 : getLink h fQ.addr fQ.dir = some Q2.ptr := by simp [getLink_eq lQ]
  have e3 : getLink h fQ.addr (!fQ.dir) = some fQ.sib.ptr := by simp [getLink_eq lQ]
  have e4 : getLink h fP.addr (!fP.dir) = some fS.addr := by simp [getLink_eq lP, hS]
  have e5 : getLink h fS.addr (!fP.dir) = some fa := by
    rw [← hds]; simp [getLink_eq lS, hfar]
  have e6 : getLink h fS.addr fP.dir = some near.ptr := by
    rw [← hds]; simp [getLink_eq lS]
  have e7 : IS_RED h fa = some true := by simp [IS_RED, hf0, getRed_eq lF]
  have e8 : bothNotRed h fS.addr (!fP.dir) fP.dir = some false := by
    simp [bothNotRed, e5, e7]
  obtain ⟨gl, e9, e10⟩ := dir2_eq lG hgs
  have e11 : IS_RED h near.ptr = some false := by rw [isRed_ptr near hrnear, hnear]
  -- the rotation
  have hla : load h fP.addr =
      some (({ fP with dir := !fP.dir, sib := fQ.fill Q2 } : Frame).record fS.addr) := by
    have := record_swap fP (fQ.fill Q2)
    rw [hS, fill_ptr, fill_ptr] at this
    rw [this]; exact lP
  have hrot := @rot_once_spec h ({ fP with dir := !fP.dir, sib := fQ.fill Q2 } : Frame) fS near.ptr
    fP.dir hla lS rfl hds dps
  simp only at hrot
  have a1 := rotHeap_agree h ({ fP with dir := !fP.dir, sib := fQ.fill Q2 } : Frame) fS near.ptr
  have b1 := @rotHeap_a h ({ fP with dir := !fP.dir, sib := fQ.fill Q2 } : Frame) fS near.ptr dps
  have b2 := rotHeap_b h ({ fP with dir := !fP.dir, sib := fQ.fill Q2 } : Frame) fS near.ptr
  simp only at a1 b1 b2
  generalize rotHeap h ({ fP with dir := !fP.dir, sib := fQ.fill Q2 } : Frame) fS near.ptr = H1
    at hrot a1 b1 b2
  have lG1 : load H1 fG.addr = some (fG.record fP.addr) := by
    rw [load_eq hg0, a1 fG.addr (by simp [dgp, dgs])]; exact hG
  have hset := setLink_eq lG1 fG.dir fS.addr
  rw [record_withLink_dir] at hset
  -- the heap before the recolouring
  have a2 : Agree h (Function.update H1 fG.addr (some (fG.record fS.addr)))
      [fG.addr, fP.addr, fS.addr] :=
    agree_update (agree_mono a1 (by simp)) _ _ (by simp)
  have c1 : load (Function.update H1 fG.addr (some (fG.record fS.addr))) fG.addr =
      some (fG.record fS.addr) := load_update_same hg0
  have c2 : load (Function.update H1 fG.addr (some (fG.record fS.addr))) fS.addr =
      some (({ fS with red := false } : Frame).record fP.addr) := by
    rw [load_update_ne (Ne.symm dgs), load_eq hs0]; exact b2
  have c3 : load (Function.update H1 fG.addr (some (fG.record fS.addr))) fQ.addr =
      some (fQ.record Q2.ptr) := by
    rw [load_update_ne (Ne.symm dgq), load_eq hq0, a1 fQ.addr (by simp [Ne.symm dpq, Ne.symm dsq])]
    exact hQ
  have c4 : load (Function.update H1 fG.addr (some (fG.record fS.addr))) fP.addr =
      some (({ fP with red := true, dir := !fP.dir, sib := fQ.fill Q2 } : Frame).record
        near.ptr) := by
    rw [load_update_ne (Ne.symm dgp), load_eq hp0]; exact b1
  have c5 : load (Function.update H1 fG.addr (some (fG.record fS.addr))) fa =
      some { link0 := fl.ptr, link1 := fr.ptr, red := true, data := fd } := by
    rw [load_update_ne (Ne.symm dgf), load_eq hf0, a1 fa (by simp [Ne.symm dpf, Ne.symm dsf])]
    exact hFn
  have hpush : ∀ h3, remove_recolor (Function.update H1 fG.addr (some (fG.record fS.addr)))
      fG.addr fQ.addr fG.dir = some h3 →
      remove_push h fG.addr fP.addr fQ.addr fQ.dir fP.dir = some (h3, fP.addr) := by
    intro h3 hh3
    simp only [remove_push, e1, e2, e3, e4, e8, isRed_ptr Q2 hrQ2, isRed_ptr fQ.sib hrO, hq2, ho,
      Option.bind_eq_bind, Option.some_bind, Bool.false_eq_true, if_false, Bool.not_false,
      if_true, pure, remove_sibling, if_neg hs0, remove_rotate, e9, e10, e6, e11, hrot, hset,
      hh3]
  have hrec : ∃ h3, remove_recolor (Function.update H1 fG.addr (some (fG.record fS.addr)))
      fG.addr fQ.addr fG.dir = some h3 ∧
      Agree (Function.update H1 fG.addr (some (fG.record fS.addr))) h3
        [fS.addr, fQ.addr, fP.addr, fa] ∧
      h3 fS.addr = some (({ fS with red := true } : Frame).record fP.addr) ∧
      h3 fQ.addr = some (({ fQ with red := true } : Frame).record Q2.ptr) ∧
      h3 fP.addr = some (({ fP with red := false, dir := !fP.dir, sib := fQ.fill Q2 } :
        Frame).record near.ptr) ∧
      h3 fa = some { link0 := fl.ptr, link1 := fr.ptr, red := false, data := fd } := by
    cases hd : fP.dir with
    | true =>
      have hsd : fS.dir = true := by rw [hds, hd]
      obtain ⟨h3, r1, r2, r3, r4, r5, r6⟩ := @recolor_post _ _ _ _ fa fP.addr fG.dir _ _ _ _ _ c1
        (record_link_dir fG fS.addr) c2 c3
        (by simp [Frame.record, rb_node.link, hsd, hfar])
        (by simp [Frame.record, rb_node.link, hsd]) c5 c4
        dgs dgq dgf dgp dsq dsf (Ne.symm dps) (Ne.symm dfq) (Ne.symm dpq) (Ne.symm dpf)
      refine ⟨h3, r1, agree_mono r2 (by simp <;> tauto), ?_, ?_, ?_, ?_⟩
      · rw [r3, record_setRed]
      · rw [r4, record_setRed]
      · rw [r6, record_setRed, hd]
      · rw [r5]
    | false =>
      have hsd : fS.dir = false := by rw [hds, hd]
      obtain ⟨h3, r1, r2, r3, r4, r5, r6⟩ := @recolor_post _ _ _ _ fP.addr fa fG.dir _ _ _ _ _ c1
        (record_link_dir fG fS.addr) c2 c3
        (by simp [Frame.record, rb_node.link, hsd])
        (by simp [Frame.record, rb_node.link, hsd, hfar]) c4 c5
        dgs dgq dgp dgf dsq (Ne.symm dps) dsf (Ne.symm dpq) (Ne.symm dfq) dpf
      refine ⟨h3, r1, agree_mono r2 (by simp <;> tauto), ?_, ?_, ?_, ?_⟩
      · rw [r3, record_setRed]
      · rw [r4, record_setRed]
      · rw [r5, record_setRed, hd]
      · rw [r6]
  obtain ⟨h3, r1, r2, r3, r4, r5, r6⟩ := hrec
  have a3 : Agree h h3 [fG.addr, fP.addr, fS.addr, fQ.addr, fa] :=
    agree_mono (agree_trans a2 r2) (by simp <;> tauto)
  refine ⟨h3, hpush h3 r1, agree_mono a3 ?_, ?_, ?_⟩
  · intro a ha
    simp only [List.mem_cons, List.mem_singleton, List.not_mem_nil, or_false] at ha
    simp only [List.mem_cons, mem_fill, hS, hfar, mem_node]
    rcases ha with rfl | rfl | rfl | rfl | rfl <;> simp
  · rw [r2 fG.addr (by simp [dgs, dgq, dgp, dgf])]; simp
  · refine rep_fill.2 ⟨hs0, ?_, rep_node.2 ⟨hf0, r6, ?_, ?_⟩,
      rep_fill.2 ⟨hp0, ?_, ?_, rep_fill.2 ⟨hq0, ?_, ?_, ?_⟩⟩⟩
    · rw [r3]; simp [Frame.record, hfar]
    · exact rep_keep a3 hrfl (by simp [dgfl, dpfl, dsfl, dqfl, dffl])
    · exact rep_keep a3 hrfr (by simp [dgfr, dpfr, dsfr, dqfr, dffr])
    · rw [r5]
      have := record_swap ({ fP with red := false, sib := near } : Frame) (fQ.fill Q2)
      simp only [fill_ptr] at this
      rw [this, fill_ptr]
    · exact rep_keep a3 hrnear (by simp [dgn, dpn, dsn, dqn, dfn])
    · rw [r4]
    · exact rep_keep a3 hrO (by simp [dgO, dpO, dsO, dqO, dfO])
    · exact rep_keep a3 hrQ2 (by simp [dgQ2, dpQ2, dsQ2, dqQ2, dfQ2])

theorem push_double_local {h : Heap} {fG fP fQ fS fM : Frame} {Q2 ml : Tree}
    (hS : fP.sib = fS.fill (fM.fill ml)) (hds : fS.dir = fP.dir) (hdm : fM.dir = fP.dir)
    (hG : h fG.addr = some (fG.record fP.addr)) (hg0 : fG.addr ≠ NULL)
    (hgw : fG.addr ∉ (fP.fill (fQ.fill Q2)).addrs) (hgs : fG.sib.ptr ≠ fP.addr)
    (hr : rep h (fP.fill (fQ.fill Q2)) = true) (hnd : (fP.fill (fQ.fill Q2)).addrs.Nodup)
    (hq : fQ.red = false) (hq2 : Q2.isRed = false) (ho : fQ.sib.isRed = false)
    (hmr : fM.red = true) :
    ∃ h2, remove_push h fG.addr fP.addr fQ.addr fQ.dir fP.dir = some (h2, fP.addr) ∧
      Agree h h2 (fG.addr :: (fP.fill (fQ.fill Q2)).addrs) ∧
      h2 fG.addr = some (fG.record fM.addr) ∧
      rep h2 (({ fM with red := true, sib := ({ fS with red := false } : Frame).fill fM.sib } :
          Frame).fill
        (({ fP with red := false, sib := ml } : Frame).fill
          (({ fQ with red := true } : Frame).fill Q2))) = true := by
  obtain ⟨hp0, hq0, hP, hQ, hrS, hrO, hrQ2⟩ := window_facts hr
  rw [hS] at hrS
  obtain ⟨hs0, hSn, hrfar, hrnear⟩ := rep_fill.1 hrS
  obtain ⟨hm0, hMn, hrmr, hrml⟩ := rep_fill.1 hrnear
  simp only [nodup_fill, mem_fill, hS, not_or, forall_eq_or_imp,
    or_imp, forall_and, forall_eq, List.forall_mem_ne'] at hnd hgw
  obtain ⟨⟨dps, dpF, dpm, dpR, dpL⟩, ⟨dpq, dpO, dpQ2⟩,
    ⟨dsF, ⟨dsm, dsR, dsL⟩, -, ⟨dmR, dmL, -, -, -⟩, dmF, -, -⟩,
    ⟨dqO, dqQ2, -⟩, ⟨dsq, dqF, dmq, dqR, dqL⟩, ⟨dsO, -, dmO, -, -⟩, dsQ2, -, dmQ2, -, -⟩ := hnd
  obtain ⟨dgp, ⟨dgs, dgF, dgm, dgR, dgL⟩, dgq, dgO, dgQ2⟩ := hgw
  rw [fill_ptr] at hSn
  -- reads before the rotation
  have lQ : load h fQ.addr = some (fQ.record Q2.ptr) := by rw [load_eq hq0]; exact hQ
  have lP : load h fP.addr = some (fP.record fQ.addr) := by rw [load_eq hp0]; exact hP
  have lS : load h fS.addr = some (fS.record fM.addr) := by rw [load_eq hs0]; exact hSn
  have lM : load h fM.addr = some (fM.record ml.ptr) := by rw [load_eq hm0]; exact hMn
  have lG : load h fG.addr = some (fG.record fP.addr) := by rw [load_eq hg0]; exact hG
  have e1 : IS_RED h fQ.addr = some false := by simp [IS_RED, hq0, getRed_eq lQ, hq]
  have e2 : getLink h fQ.addr fQ.dir = some Q2.ptr := by simp [getLink_eq lQ]
  have e3 : getLink h fQ.addr (!fQ.dir) = some fQ.sib.ptr := by simp [getLink_eq lQ]
  have e4 : getLink h fP.addr (!fP.dir) = some fS.addr := by simp [getLink_eq lP, hS]
  have e5 : getLink h fS.addr (!fP.dir) = some fS.sib.ptr := by
    rw [← hds]; simp [getLink_eq lS]
  have e6 : getLink h fS.addr fP.dir = some fM.addr := by
    rw [← hds]; simp [getLink_eq lS]
  have e7 : IS_RED h fM.addr = some true := by simp [IS_RED, hm0, getRed_eq lM, hmr]
  have e8 : bothNotRed h fS.addr (!fP.dir) fP.dir = some false := by
    cases hc : fS.sib.isRed <;> simp [bothNotRed, e5, e6, e7, isRed_ptr fS.sib hrfar, hc]
  obtain ⟨gl, e9, e10⟩ := dir2_eq lG hgs
  -- the first rotation, about the sibling
  have hlb : load h fM.addr =
      some (({ fM with dir := !fM.dir, sib := ml } : Frame).record fM.sib.ptr) := by
    rw [record_swap fM ml]; exact lM
  have hrot1 := @rot_once_spec h fS ({ fM with dir := !fM.dir, sib := ml } : Frame) fM.sib.ptr
    (!fP.dir) lS hlb (by simp [hds]) (by simp [hdm]) dsm
  simp only at hrot1
  have a1 := rotHeap_agree h fS ({ fM with dir := !fM.dir, sib := ml } : Frame) fM.sib.ptr
  have b1 := @rotHeap_a h fS ({ fM with dir := !fM.dir, sib := ml } : Frame) fM.sib.ptr dsm
  have b2 := rotHeap_b h fS ({ fM with dir := !fM.dir, sib := ml } : Frame) fM.sib.ptr
  simp only at a1 b1 b2
  generalize rotHeap h fS ({ fM with dir := !fM.dir, sib := ml } : Frame) fM.sib.ptr = H1
    at hrot1 a1 b1 b2
  -- the link of `p` to the result
  have lP1 : load H1 fP.addr =
      some (({ fP with dir := !fP.dir, sib := fQ.fill Q2 } : Frame).record fS.addr) := by
    rw [load_eq hp0, a1 fP.addr (by simp [dps, dpm])]
    have := record_swap fP (fQ.fill Q2)
    rw [hS, fill_ptr, fill_ptr] at this
    rw [this]; exact hP
  have hset1 := setLink_eq lP1 (!fP.dir) fM.addr
  have hw := record_withLink_dir ({ fP with dir := !fP.dir, sib := fQ.fill Q2 } : Frame)
    fS.addr fM.addr
  simp only at hw
  rw [hw] at hset1
  -- the second rotation, about `p`
  have lP2 : load (Function.update H1 fP.addr
      (some (({ fP with dir := !fP.dir, sib := fQ.fill Q2 } : Frame).record fM.addr))) fP.addr =
      some (({ fP with dir := !fP.dir, sib := fQ.fill Q2 } : Frame).record fM.addr) :=
    load_update_same hp0
  have lM2 : load (Function.update H1 fP.addr
      (some (({ fP with dir := !fP.dir, sib := fQ.fill Q2 } : Frame).record fM.addr))) fM.addr =
      some (({ fM with red := false, sib := ({ fS with red := true } : Frame).fill fM.sib } :
        Frame).record ml.ptr) := by
    rw [load_update_ne (Ne.symm dpm), load_eq hm0, b2]
    have := record_swap
      ({ fM with red := false, sib := ({ fS with red := true } : Frame).fill fM.sib } : Frame) ml
    simp only [fill_ptr] at this
    rw [← this]
  have hrot2 := @rot_once_spec _ ({ fP with dir := !fP.dir, sib := fQ.fill Q2 } : Frame)
    ({ fM with red := false, sib := ({ fS with red := true } : Frame).fill fM.sib } : Frame)
    ml.ptr fP.dir lP2 lM2 rfl hdm dpm
  simp only at hrot2
  have a2 : Agree h (Function.update H1 fP.addr
      (some (({ fP with dir := !fP.dir, sib := fQ.fill Q2 } : Frame).record fM.addr)))
      [fP.addr, fS.addr, fM.addr] :=
    agree_update (agree_mono a1 (by simp)) _ _ (by simp)
  have b3 : (Function.update H1 fP.addr
      (some (({ fP with dir := !fP.dir, sib := fQ.fill Q2 } : Frame).record fM.addr))) fS.addr =
      some (({ fS with red := true } : Frame).record fM.sib.ptr) := by
    rw [Function.update_noteq (Ne.symm dps)]; exact b1
  generalize (Function.update H1 fP.addr
      (some (({ fP with dir := !fP.dir, sib := fQ.fill Q2 } : Frame).record fM.addr))) = H2
    at hset1 hrot2 a2 b3
  have a3 := rotHeap_agree H2 ({ fP with dir := !fP.dir, sib := fQ.fill Q2 } : Frame)
    ({ fM with red := false, sib := ({ fS with red := true } : Frame).fill fM.sib } : Frame)
    ml.ptr
  have b4 := @rotHeap_a H2 ({ fP with dir := !fP.dir, sib := fQ.fill Q2 } : Frame)
    ({ fM with red := false, sib := ({ fS with red := true } : Frame).fill fM.sib } : Frame)
    ml.ptr dpm
  have b5 := rotHeap_b H2 ({ fP with dir := !fP.dir, sib := fQ.fill Q2 } : Frame)
    ({ fM with red := false, sib := ({ fS with red := true } : Frame).fill fM.sib } : Frame)
    ml.ptr
  simp only at a3 b4 b5
  generalize rotHeap H2 ({ fP with dir := !fP.dir, sib := fQ.fill Q2 } : Frame)
    ({ fM with red := false, sib := ({ fS with red := true } : Frame).fill fM.sib } : Frame)
    ml.ptr = H3 at hrot2 a3 b4 b5
  have a4 : Agree h H3 [fP.addr, fS.addr, fM.addr] :=
    agree_mono (agree_trans a2 a3) (by simp)
  have htw : rot_twice h fP.addr fP.dir = some (H3, fM.addr) := by
    simp only [rot_twice, e4, hrot1, hset1, hrot2, Option.bind_eq_bind, Option.some_bind]
  -- the link of `g` to the result
  have lG3 : load H3 fG.addr = some (fG.record fP.addr) := by
    rw [load_eq hg0, a4 fG.addr (by simp [dgp, dgs, dgm])]; exact hG
  have hset := setLink_eq lG3 fG.dir fM.addr
  rw [record_withLink_dir] at hset
  have a5 : Agree h (Function.update H3 fG.addr (some (fG.record fM.addr)))
      [fG.addr, fP.addr, fS.addr, fM.addr] :=
    agree_update (agree_mono a4 (by simp)) _ _ (by simp)
  have c1 : load (Function.update H3 fG.addr (some (fG.record fM.addr))) fG.addr =
      some (fG.record fM.addr) := load_update_same hg0
  have c2 : load (Function.update H3 fG.addr (some (fG.record fM.addr))) fM.addr =
      some (({ fM with red := false, sib := ({ fS with red := true } : Frame).fill fM.sib } :
        Frame).record fP.addr) := by
    rw [load_update_ne (Ne.symm dgm), load_eq hm0]; exact b5
  have c3 : load (Function.update H3 fG.addr (some (fG.record fM.addr))) fQ.addr =
      some (fQ.record Q2.ptr) := by
    rw [load_update_ne (Ne.symm dgq), load_eq hq0,
      a4 fQ.addr (by simp [Ne.symm dpq, Ne.symm dsq, Ne.symm dmq])]
    exact hQ
  have c4 : load (Function.update H3 fG.addr (some (fG.record fM.addr))) fP.addr =
      some (({ fP with red := true, dir := !fP.dir, sib := fQ.fill Q2 } : Frame).record
        ml.ptr) := by
    rw [load_update_ne (Ne.symm dgp), load_eq hp0]; exact b4
  have c5 : load (Function.update H3 fG.addr (some (fG.record fM.addr))) fS.addr =
      some (({ fS with red := true } : Frame).record fM.sib.ptr) := by
    rw [load_update_ne (Ne.symm dgs), load_eq hs0,
      a3 fS.addr (by simp [Ne.symm dps, dsm])]
    exact b3
  have hpush : ∀ h3, remove_recolor (Function.update H3 fG.addr (some (fG.record fM.addr)))
      fG.addr fQ.addr fG.dir = some h3 →
      remove_push h fG.addr fP.addr fQ.addr fQ.dir fP.dir = some (h3, fP.addr) := by
    intro h3 hh3
    simp only [remove_push, e1, e2, e3, e4, e8, isRed_ptr Q2 hrQ2, isRed_ptr fQ.sib hrO, hq2, ho,
      Option.bind_eq_bind, Option.some_bind, Bool.false_eq_true, if_false, Bool.not_false,
      if_true, pure, remove_sibling, if_neg hs0, remove_rotate, e9, e10, e6, e7, htw, hset,
      hh3]
  have hrec : ∃ h3, remove_recolor (Function.update H3 fG.addr (some (fG.record fM.addr)))
      fG.addr fQ.addr fG.dir = some h3 ∧
      Agree (Function.update H3 fG.addr (some (fG.record fM.addr))) h3
        [fM.addr, fQ.addr, fP.addr, fS.addr] ∧
      h3 fM.addr = some (({ fM with red := true,
                                    sib := ({ fS with red := true } : Frame).fill fM.sib } :
        Frame).record fP.addr) ∧
      h3 fQ.addr = some (({ fQ with red := true } : Frame).record Q2.ptr) ∧
      h3 fP.addr = some (({ fP with red := false, dir := !fP.dir, sib := fQ.fill Q2 } :
        Frame).record ml.ptr) ∧
      h3 fS.addr = some (({ fS with red := false } : Frame).record fM.sib.ptr) := by
    cases hd : fP.dir with
    | true =>
      have hmd : fM.dir = true := by rw [hdm, hd]
      obtain ⟨h3, r1, r2, r3, r4, r5, r6⟩ := @recolor_post _ _ _ _ fS.addr fP.addr fG.dir
        _ _ _ _ _ c1 (record_link_dir fG fM.addr) c2 c3
        (by simp [Frame.record, rb_node.link, hmd])
        (by simp [Frame.record, rb_node.link, hmd]) c5 c4
        dgm dgq dgs dgp dmq (Ne.symm dsm) (Ne.symm dpm) (Ne.symm dsq) (Ne.symm dpq)
        (Ne.symm dps)
      refine ⟨h3, r1, agree_mono r2 (by simp <;> tauto), ?_, ?_, ?_, ?_⟩
      · rw [r3, record_setRed]
      · rw [r4, record_setRed]
      · rw [r6, record_setRed, hd]
      · rw [r5, record_setRed]
    | false =>
      have hmd : fM.dir = false := by rw [hdm, hd]
      obtain ⟨h3, r1, r2, r3, r4, r5, r6⟩ := @recolor_post _ _ _ _ fP.addr fS.addr fG.dir
        _ _ _ _ _ c1 (record_link_dir fG fM.addr) c2 c3
        (by simp [Frame.record, rb_node.link, hmd])
        (by simp [Frame.record, rb_node.link, hmd]) c4 c5
        dgm dgq dgp dgs dmq (Ne.symm dpm) (Ne.symm dsm) (Ne.symm dpq) (Ne.symm dsq)
        dps
      refine ⟨h3, r1, agree_mono r2 (by simp <;> tauto), ?_, ?_, ?_, ?_⟩
      · rw [r3, record_setRed]
      · rw [r4, record_setRed]
      · rw [r5, record_setRed, hd]
      · rw [r6, record_setRed]
  obtain ⟨h3, r1, r2, r3, r4, r5, r6⟩ := hrec
  have a6 : Agree h h3 [fG.addr, fP.addr, fS.addr, fM.addr, fQ.addr] :=
    agree_mono (agree_trans a5 r2) (by simp <;> tauto)
  refine ⟨h3, hpush h3 r1, agree_mono a6 ?_, ?_, ?_⟩
  · intro a ha
    simp only [List.mem_cons, List.mem_singleton, List.not_mem_nil, or_false] at ha
    simp only [List.mem_cons, mem_fill, hS]
    rcases ha with rfl | rfl | rfl | rfl | rfl <;> simp
  · rw [r2 fG.addr (by simp [dgs, dgq, dgp, dgm])]; simp
  · refine rep_fill.2 ⟨hm0, ?_, rep_fill.2 ⟨hs0, r6, ?_, ?_⟩,
      rep_fill.2 ⟨hp0, ?_, ?_, rep_fill.2 ⟨hq0, ?_, ?_, ?_⟩⟩⟩
    · rw [r3]; simp [Frame.record]
    · exact rep_keep a6 hrfar (by simp [dgF, dpF, dsF, dmF, dqF])
    · exact rep_keep a6 hrmr (by simp [dgR, dpR, dsR, dmR, dqR])
    · rw [r5]
      have := record_swap ({ fP with red := false, sib := ml } : Frame) (fQ.fill Q2)
      simp only [fill_ptr] at this
      rw [this, fill_ptr]
    · exact rep_keep a6 hrml (by simp [dgL, dpL, dsL, dmL, dqL])
    · rw [r4]
    · exact rep_keep a6 hrO (by simp [dgO, dpO, dsO, dmO, dqO])
    · exact rep_keep a6 hrQ2 (by simp [dgQ2, dpQ2, dsQ2, dmQ2, dqQ2])

/-! ## Addresses and colours of the rebalanced windows -/

theorem count_fill_addrs (f : Frame) (t : Tree) (a : Ptr) :
    (f.fill t).addrs.count a = [f.addr].count a + f.sib.addrs.count a + t.addrs.count a := by
  unfold Frame.fill
  split <;> simp only [addrs_node, List.count_append, List.count_cons, List.count_nil] <;> omega

theorem count_node_addrs (b : Ptr) (l r : Tree) (c : Bool) (d : Nat) (a : Ptr) :
    (Tree.node b l c d r).addrs.count a = [b].count a + l.addrs.count a + r.addrs.count a := by
  simp only [addrs_node, List.count_append, List.count_cons, List.count_nil]; omega

theorem perm_flip {fP fQ : Frame} {Q2 : Tree} {sa : Ptr} {sl sr : Tree} {sc : Bool} {sd : Nat}
    (hS : fP.sib = Tree.node sa sl sc sd sr) :
    (({ fP with red := false, sib := Tree.node sa sl true sd sr } : Frame).fill
      (({ fQ with red := true } : Frame).fill Q2)).addrs.Perm (fP.fill (fQ.fill Q2)).addrs := by
  rw [List.perm_iff_count]
  intro a
  simp only [count_fill_addrs, count_node_addrs, hS]

theorem perm_rot {fP fQ fr : Frame} {Q2 ri : Tree} (hO : fQ.sib = fr.fill ri) :
    (fP.fill (({ fr with red := false } : Frame).fill
      (({ fQ with red := true, sib := ri } : Frame).fill Q2))).addrs.Perm
      (fP.fill (fQ.fill Q2)).addrs := by
  rw [List.perm_iff_count]
  intro a
  simp only [count_fill_addrs, count_node_addrs, hO]
  omega

theorem perm_single {fP fQ fS : Frame} {Q2 near : Tree} {fa : Ptr} {fl fr : Tree} {fd : Nat}
    (hS : fP.sib = fS.fill near) (hfar : fS.sib = Tree.node fa fl true fd fr) :
    (({ fS with red := true, sib := Tree.node fa fl false fd fr } : Frame).fill
      (({ fP with red := false, sib := near } : Frame).fill
        (({ fQ with red := true } : Frame).fill Q2))).addrs.Perm
      (fP.fill (fQ.fill Q2)).addrs := by
  rw [List.perm_iff_count]
  intro a
  simp only [count_fill_addrs, count_node_addrs, hS, hfar]
  omega

theorem perm_double {fP fQ fS fM : Frame} {Q2 ml : Tree} (hS : fP.sib = fS.fill (fM.fill ml)) :
    (({ fM with red := true, sib := ({ fS with red := false } : Frame).fill fM.sib } :
        Frame).fill
      (({ fP with red := false, sib := ml } : Frame).fill
        (({ fQ with red := true } : Frame).fill Q2))).addrs.Perm
      (fP.fill (fQ.fill Q2)).addrs := by
  rw [List.perm_iff_count]
  intro a
  simp only [count_fill_addrs, count_node_addrs, hS]
  omega

theorem rb_fill {f : Frame} {t : Tree} {n : Nat} :
    (f.fill t).rb n ↔ ∃ m, t.rb m ∧ f.sib.rb m ∧
      (f.red = true → t.isRed = false ∧ f.sib.isRed = false) ∧
      n = if f.red then m else m + 1 := by
  unfold Tree.rb
  rw [noRedRed_fill, blackHeight_fill]
  constructor
  · rintro ⟨⟨h1, h2, h3⟩, m, h4, h5, h6⟩
    exact ⟨m, ⟨h3, h4⟩, ⟨h2, h5⟩, h1, h6⟩
  · rintro ⟨m, ⟨h3, h4⟩, ⟨h2, h5⟩, h1, h6⟩
    exact ⟨⟨h1, h2, h3⟩, m, h4, h5, h6⟩

theorem rb_at_node {a : Ptr} {l r : Tree} {c : Bool} {d : Nat} {n : Nat} :
    (Tree.node a l c d r).rb n ↔ ∃ m, l.rb m ∧ r.rb m ∧
      (c = true → l.isRed = false ∧ r.isRed = false) ∧ n = if c then m else m + 1 := by
  unfold Tree.rb
  rw [noRedRed_node, blackHeight_node]
  constructor
  · rintro ⟨⟨h1, h2, h3⟩, m, h4, h5, h6⟩
    exact ⟨m, ⟨h2, h4⟩, ⟨h3, h5⟩, h1, h6⟩
  · rintro ⟨m, ⟨h2, h4⟩, ⟨h3, h5⟩, h1, h6⟩
    exact ⟨⟨h1, h2, h3⟩, m, h4, h5, h6⟩

theorem rb_nil {n : Nat} : Tree.nil.rb n ↔ n = 1 := by
  simp [Tree.rb, Tree.noRedRed, Tree.blackHeight, eq_comm]

theorem rb_unique {t : Tree} {n m : Nat} (h1 : t.rb n) (h2 : t.rb m) : n = m := by
  have := h1.2.symm.trans h2.2
  exact Option.some.inj this

theorem rb_pos {t : Tree} {n : Nat} (h : t.rb n) : 1 ≤ n := (blackHeight_pow t n h.2).1

theorem rbOK_rb {t : Tree} (h : t.rbOK) : ∃ n, t.rb n := by
  obtain ⟨n, hn⟩ := Option.isSome_iff_exists.1 h.2
  exact ⟨n, h.1, hn⟩

theorem rb_rbOK {t : Tree} {n : Nat} (h : t.rb n) : t.rbOK := ⟨h.1, by simp [h.2]⟩

theorem rbOK_plug_sub {c : List Frame} {t : Tree} (h : (plug c t).rbOK) : t.rbOK :=
  ⟨noRedRed_plug_sub c h.1, blackHeight_plug_sub c h.2⟩

theorem rb_lift {c : List Frame} {w w2 : Tree} {n n2 : Nat} (hT : (plug c w).rbOK)
    (hw : w.rb n) (hw2 : w2.rb n2)
    (hc : ((w2.isRed = true → w.isRed = true) ∧ n2 = n) ∨ c = []) : (plug c w2).rbOK := by
  rcases hc with ⟨h1, rfl⟩ | rfl
  · refine ⟨noRedRed_plug_congr c hT.1 hw2.1 h1, ?_⟩
    rw [blackHeight_plug_congr c (hw2.2.trans hw.2.symm)]
    exact hT.2
  · exact rb_rbOK hw2

theorem rb_rot {fQ fr : Frame} {Q2 ri : Tree} {n : Nat} (hO : fQ.sib = fr.fill ri)
    (hV : (fQ.fill Q2).rb n) (hq : fQ.red = false) (hq2 : Q2.isRed = false)
    (hrr : fr.red = true) :
    ((({ fr with red := false } : Frame).fill
      (({ fQ with red := true, sib := ri } : Frame).fill Q2))).rb n := by
  obtain ⟨m, hQ2, hsib, -, rfl⟩ := rb_fill.1 hV
  rw [hO] at hsib
  obtain ⟨k, hri, hfrs, hcol, hm⟩ := rb_fill.1 hsib
  simp only [hrr, if_true] at hm
  subst hm
  refine rb_fill.2 ⟨m, rb_fill.2 ⟨m, hQ2, hri, fun _ => ⟨hq2, (hcol hrr).1⟩, by simp⟩, hfrs,
    by simp, by simp [hq]⟩

theorem sib_black {fP fQ : Frame} {Q2 : Tree} {n : Nat} (hW : (fP.fill (fQ.fill Q2)).rb n)
    (hq : fQ.red = false) (hs : fP.sib.isRed = false) :
    ∃ a l d r, fP.sib = Tree.node a l false d r := by
  obtain ⟨m, hQ, hS, -, -⟩ := rb_fill.1 hW
  obtain ⟨k, hQ2, -, -, hm⟩ := rb_fill.1 hQ
  have hk := rb_pos hQ2
  simp only [hq, Bool.false_eq_true, if_false] at hm
  cases hsib : fP.sib with
  | nil =>
    rw [hsib] at hS
    have := rb_nil.1 hS
    omega
  | node a l c d r =>
    rw [hsib] at hs
    simp only [isRed_node] at hs
    subst hs
    exact ⟨a, l, d, r, rfl⟩

theorem rb_flip {fP fQ : Frame} {Q2 : Tree} {sa : Ptr} {sl sr : Tree} {sd : Nat} {n : Nat}
    (hS : fP.sib = Tree.node sa sl false sd sr) (hW : (fP.fill (fQ.fill Q2)).rb n)
    (hq : fQ.red = false) (hq2 : Q2.isRed = false) (ho : fQ.sib.isRed = false)
    (hsl : sl.isRed = false) (hsr : sr.isRed = false) :
    ∃ n2, (({ fP with red := false, sib := Tree.node sa sl true sd sr } : Frame).fill
        (({ fQ with red := true } : Frame).fill Q2)).rb n2 ∧ (fP.red = true → n2 = n) := by
  obtain ⟨m, hQ, hSb, -, hn⟩ := rb_fill.1 hW
  obtain ⟨k, hQ2, hO, -, hm⟩ := rb_fill.1 hQ
  simp only [hq, Bool.false_eq_true, if_false] at hm
  subst hm
  rw [hS] at hSb
  obtain ⟨j, hl, hr, -, hj⟩ := rb_at_node.1 hSb
  simp only [Bool.false_eq_true, if_false, add_left_inj] at hj
  subst hj
  refine ⟨k + 1, rb_fill.2 ⟨k, rb_fill.2 ⟨k, hQ2, hO, fun _ => ⟨hq2, ho⟩, by simp⟩,
    rb_at_node.2 ⟨k, hl, hr, fun _ => ⟨hsl, hsr⟩, by simp⟩, by simp, by simp⟩, ?_⟩
  intro hp
  simp [hn, hp]

theorem rb_single {fP fQ fS : Frame} {Q2 near : Tree} {fa : Ptr} {fl fr : Tree} {fd : Nat}
    {n : Nat} (hS : fP.sib = fS.fill near) (hfar : fS.sib = Tree.node fa fl true fd fr)
    (hW : (fP.fill (fQ.fill Q2)).rb n) (hsb : fS.red = false)
    (hq : fQ.red = false) (hq2 : Q2.isRed = false) (ho : fQ.sib.isRed = false) :
    ∃ n2, (({ fS with red := true, sib := Tree.node fa fl false fd fr } : Frame).fill
        (({ fP with red := false, sib := near } : Frame).fill
          (({ fQ with red := true } : Frame).fill Q2))).rb n2 ∧ (fP.red = true → n2 = n) := by
  obtain ⟨m, hQ, hSb, -, hn⟩ := rb_fill.1 hW
  obtain ⟨k, hQ2, hO, -, hm⟩ := rb_fill.1 hQ
  simp only [hq, Bool.false_eq_true, if_false] at hm
  subst hm
  rw [hS] at hSb
  obtain ⟨j, hne, hfa, -, hj⟩ := rb_fill.1 hSb
  simp only [hsb, Bool.false_eq_true, if_false, add_left_inj] at hj
  subst hj
  rw [hfar] at hfa
  obtain ⟨i, hfl, hfr, hfc, hi⟩ := rb_at_node.1 hfa
  simp only [if_true] at hi
  subst hi
  refine ⟨k + 1, rb_fill.2 ⟨k + 1, rb_fill.2 ⟨k, rb_fill.2 ⟨k, hQ2, hO, fun _ => ⟨hq2, ho⟩,
    by simp⟩, hne, by simp, by simp⟩, rb_at_node.2 ⟨k, hfl, hfr, by simp, by simp⟩,
    by simp, by simp⟩, ?_⟩
  intro hp
  simp [hn, hp]

theorem rb_double {fP fQ fS fM : Frame} {Q2 ml : Tree} {n : Nat}
    (hS : fP.sib = fS.fill (fM.fill ml))
    (hW : (fP.fill (fQ.fill Q2)).rb n) (hsb : fS.red = false)
    (hq : fQ.red = false) (hq2 : Q2.isRed = false) (ho : fQ.sib.isRed = false)
    (hmr : fM.red = true) :
    ∃ n2, (({ fM with red := true, sib := ({ fS with red := false } : Frame).fill fM.sib } :
          Frame).fill
        (({ fP with red := false, sib := ml } : Frame).fill
          (({ fQ with red := true } : Frame).fill Q2))).rb n2 ∧ (fP.red = true → n2 = n) := by
  obtain ⟨m, hQ, hSb, -, hn⟩ := rb_fill.1 hW
  obtain ⟨k, hQ2, hO, -, hm⟩ := rb_fill.1 hQ
  simp only [hq, Bool.false_eq_true, if_false] at hm
  subst hm
  rw [hS] at hSb
  obtain ⟨j, hne, hfa, -, hj⟩ := rb_fill.1 hSb
  simp only [hsb, Bool.false_eq_true, if_false, add_left_inj] at hj
  subst hj
  obtain ⟨i, hml, hmrr, hmc, hi⟩ := rb_fill.1 hne
  simp only [hmr, if_true] at hi
  subst hi
  refine ⟨k + 1, rb_fill.2 ⟨k + 1, rb_fill.2 ⟨k, rb_fill.2 ⟨k, hQ2, hO, fun _ => ⟨hq2, ho⟩,
    by simp⟩, hml, by simp, by simp⟩, rb_fill.2 ⟨k, hmrr, hfa, by simp, by simp⟩,
    by simp, by simp⟩, ?_⟩
  intro hp
  simp [hn, hp]

theorem plug_perm {c : List Frame} {w w2 : Tree} (hp : w2.addrs.Perm w.addrs) :
    (plug c w2).addrs.Perm (plug c w).addrs :=
  ((plug_addrs_perm c w2).trans (List.Perm.append_left _ hp)).trans (plug_addrs_perm c w).symm

theorem plug_replace_perm {h h2 : Heap} {f : Frame} {c : List Frame} {w w2 : Tree}
    (hr : rep h (plug (f :: c) w) = true) (hnd : (plug (f :: c) w).addrs.Nodup)
    (hag : Agree h h2 (f.addr :: w.addrs)) (hw : rep h2 w2 = true)
    (hf : h2 f.addr = some (f.record w2.ptr)) (hp : w2.addrs.Perm w.addrs) :
    rep h2 (plug (f :: c) w2) = true ∧ (plug (f :: c) w2).addrs.Nodup := by
  obtain ⟨-, hc2, hc3⟩ := ctx_nodup_split hnd
  refine rep_plug_replace hr hnd hag hw hf (hp.nodup_iff.2 hc2) ?_
  intro a ha hca
  exact hc3 a hca (hp.mem_iff.1 ha)

theorem plug_same_perm {h h2 : Heap} {c : List Frame} {w w2 : Tree}
    (hr : rep h (plug c w) = true) (hnd : (plug c w).addrs.Nodup)
    (hag : Agree h h2 w.addrs) (hw : rep h2 w2 = true) (hptr : w2.ptr = w.ptr)
    (hp : w2.addrs.Perm w.addrs) :
    rep h2 (plug c w2) = true ∧ (plug c w2).addrs.Nodup := by
  cases c with
  | nil =>
    simp only [plug] at hnd ⊢
    exact ⟨hw, hp.nodup_iff.2 hnd⟩
  | cons f c =>
    obtain ⟨-, -, hc3⟩ := ctx_nodup_split hnd
    obtain ⟨hrc, -⟩ := (rep_plug (f :: c) w).1 hr
    obtain ⟨-, hf, -, -⟩ := hrc
    have hfw : f.addr ∉ w.addrs := hc3 f.addr (by simp [ctxAddrs])
    refine plug_replace_perm hr hnd (agree_mono hag (fun a ha => List.mem_cons_of_mem _ ha)) hw ?_ hp
    rw [hag f.addr hfw, hptr]; exact hf

/-! ## In-order sequences along a path -/

@[simp] theorem pairs_nil : Tree.nil.pairs = [] := rfl

@[simp] theorem pairs_node (a : Ptr) (l r : Tree) (c : Bool) (d : Nat) :
    (Tree.node a l c d r).pairs = l.pairs ++ (a, d) :: r.pairs := rfl

theorem pairs_fill (f : Frame) (t : Tree) :
    (f.fill t).pairs = (if f.dir then f.sib.pairs ++ [(f.addr, f.data)] else []) ++ t.pairs ++
      (if f.dir then [] else (f.addr, f.data) :: f.sib.pairs) := by
  unfold Frame.fill
  cases f.dir <;> simp

theorem pairs_plug : ∀ (K : List Frame) (X : Tree),
    (plug K X).pairs = ctxLeft K ++ X.pairs ++ ctxRight K := by
  intro K
  induction K with
  | nil => intro X; simp [plug, ctxLeft, ctxRight]
  | cons f K ih =>
    intro X
    simp only [plug, ih, pairs_fill, ctxLeft, ctxRight, List.append_assoc]

theorem pairs_fst (t : Tree) : t.pairs.map Prod.fst = t.addrs := by
  induction t with
  | nil => rfl
  | node a l c d r ihl ihr => simp [ihl, ihr]

theorem pairs_snd (t : Tree) : t.pairs.map Prod.snd = t.inorder := by
  induction t with
  | nil => rfl
  | node a l c d r ihl ihr => simp [ihl, ihr]

theorem ctx_rot {K : List Frame} {fX fr : Frame} {ri : Tree} (hO : fX.sib = fr.fill ri)
    (hdr : fr.dir = fX.dir) :
    ctxLeft (({ fX with red := true, sib := ri } : Frame) ::
        ({ fr with red := false } : Frame) :: K) = ctxLeft (fX :: K) ∧
      ctxRight (({ fX with red := true, sib := ri } : Frame) ::
        ({ fr with red := false } : Frame) :: K) = ctxRight (fX :: K) := by
  simp only [ctxLeft, ctxRight, hO, pairs_fill, hdr]
  cases fX.dir <;> simp

theorem ctx_flip {K0 : List Frame} {fq fX : Frame} {sa : Ptr} {sl sr : Tree} {sc : Bool}
    {sd : Nat} (hS : fq.sib = Tree.node sa sl sc sd sr) :
    ctxLeft (({ fX with red := true } : Frame) ::
        ({ fq with red := false, sib := Tree.node sa sl true sd sr } : Frame) :: K0) =
        ctxLeft (fX :: fq :: K0) ∧
      ctxRight (({ fX with red := true } : Frame) ::
        ({ fq with red := false, sib := Tree.node sa sl true sd sr } : Frame) :: K0) =
        ctxRight (fX :: fq :: K0) := by
  simp only [ctxLeft, ctxRight, hS, pairs_node]
  exact ⟨trivial, trivial⟩

theorem ctx_single {K0 : List Frame} {fq fX fS : Frame} {near : Tree} {fa : Ptr}
    {fl fr : Tree} {fd : Nat} (hS : fq.sib = fS.fill near) (hds : fS.dir = fq.dir)
    (hfar : fS.sib = Tree.node fa fl true fd fr) :
    ctxLeft (({ fX with red := true } : Frame) ::
        ({ fq with red := false, sib := near } : Frame) ::
        ({ fS with red := true, sib := Tree.node fa fl false fd fr } : Frame) :: K0) =
        ctxLeft (fX :: fq :: K0) ∧
      ctxRight (({ fX with red := true } : Frame) ::
        ({ fq with red := false, sib := near } : Frame) ::
        ({ fS with red := true, sib := Tree.node fa fl false fd fr } : Frame) :: K0) =
        ctxRight (fX :: fq :: K0) := by
  simp only [ctxLeft, ctxRight, hS, pairs_fill, hds, hfar, pairs_node]
  cases fq.dir <;> cases fX.dir <;> simp

theorem ctx_double {K0 : List Frame} {fq fX fS fM : Frame} {ml : Tree}
    (hS : fq.sib = fS.fill (fM.fill ml)) (hds : fS.dir = fq.dir) (hdm : fM.dir = fq.dir) :
    ctxLeft (({ fX with red := true } : Frame) ::
        ({ fq with red := false, sib := ml } : Frame) ::
        ({ fM with red := true, sib := ({ fS with red := false } : Frame).fill fM.sib } :
          Frame) :: K0) = ctxLeft (fX :: fq :: K0) ∧
      ctxRight (({ fX with red := true } : Frame) ::
        ({ fq with red := false, sib := ml } : Frame) ::
        ({ fM with red := true, sib := ({ fS with red := false } : Frame).fill fM.sib } :
          Frame) :: K0) = ctxRight (fX :: fq :: K0) := by
  simp only [ctxLeft, ctxRight, hS, pairs_fill, hds, hdm]
  cases fq.dir <;> cases fX.dir <;> simp

/-! ## The descent of `rb_remove` -/

theorem ctx_head (K : List Frame) : ∃ c0, K ++ [headFrame] = topFrame K :: c0 := by
  cases K with
  | nil => exact ⟨[], rfl⟩
  | cons f K => exact ⟨K ++ [headFrame], rfl⟩

theorem plug_snoc (K : List Frame) (f : Frame) (t : Tree) :
    plug (K ++ [f]) t = f.fill (plug K t) := by
  rw [plug_append]; rfl

theorem mem_plug_snoc {K : List Frame} {t : Tree} {a : Ptr} (ha : a ∈ (plug K t).addrs) :
    a ∈ (plug (K ++ [headFrame]) t).addrs := by
  rw [plug_snoc]; exact mem_fill_sub ha

theorem push_case_quiet {h : Heap} {K : List Frame} {fX : Frame} {X2 : Tree}
    (hI : RInv h K (fX.fill X2)) (hq : fX.red = true ∨ X2.isRed = true) (g : Ptr) :
    ∃ r, remove_push h g (topFrame K).addr fX.addr fX.dir (topFrame K).dir = some r ∧
      StepPost h K fX X2 r := by
  obtain ⟨hrc, hrx⟩ := (rep_plug (K ++ [headFrame]) (fX.fill X2)).1 hI.hrep
  refine ⟨(h, (topFrame K).addr), ?_, fX, K, ⟨hI.hrep, hI.hnd, hI.hcol⟩, ?_, rfl, rfl, rfl,
    List.Perm.refl _, agree_refl _ _, rfl, rfl, rfl⟩
  · have hfx : fX.fill X2 = Tree.node fX.addr (if fX.dir then fX.sib else X2) fX.red fX.data
        (if fX.dir then X2 else fX.sib) := by
      unfold Frame.fill; cases fX.dir <;> simp
    rw [hfx] at hrx
    refine remove_push_quiet hrx fX.dir ?_ g _ _
    cases hd : fX.dir <;> simp [hd] <;> tauto
  · rcases hq with hq | hq
    · exact Or.inl hq
    · exact Or.inr (Or.inl hq)

theorem push_case_rot {h : Heap} {K : List Frame} {fX fr : Frame} {X2 ri : Tree}
    (hI : RInv h K (fX.fill X2)) (hO : fX.sib = fr.fill ri) (hdr : fr.dir = fX.dir)
    (hq : fX.red = false) (hq2 : X2.isRed = false) (hrr : fr.red = true) (g : Ptr) :
    ∃ r, remove_push h g (topFrame K).addr fX.addr fX.dir (topFrame K).dir = some r ∧
      StepPost h K fX X2 r := by
  obtain ⟨c0, hc0⟩ := ctx_head K
  have hrep := hI.hrep
  have hnd := hI.hnd
  rw [hc0] at hrep hnd
  simp only [plug] at hrep hnd
  obtain ⟨-, hrw⟩ := (rep_plug c0 _).1 hrep
  obtain ⟨-, hndw, -⟩ := ctx_nodup_split hnd
  obtain ⟨h2, hpush, hag, hrep2⟩ := push_rot_local hO hdr hrw hndw hq hq2 hrr g
  obtain ⟨hR, hN⟩ := plug_same_perm hrep hnd hag hrep2 (by simp) (perm_rot hO)
  obtain ⟨n, hn⟩ := rbOK_rb (rbOK_plug_sub hI.hcol)
  have hcol := rb_lift hI.hcol hn (rb_rot hO hn hq hq2 hrr) (Or.inl ⟨by simp, rfl⟩)
  refine ⟨(h2, fr.addr), hpush, ({ fX with red := true, sib := ri } : Frame),
    ({ fr with red := false } : Frame) :: K, ⟨?_, ?_, hcol⟩, Or.inl rfl, rfl, rfl, rfl, ?_, ?_, rfl,
    (ctx_rot hO hdr).1, (ctx_rot hO hdr).2⟩
  · show rep h2 (plug (K ++ [headFrame]) _) = true
    rw [hc0]; exact hR
  · show (plug (K ++ [headFrame]) _).addrs.Nodup
    rw [hc0]; exact hN
  · simp only [plug]
    refine plug_perm ?_
    have := @perm_rot headFrame fX fr X2 ri hO
    rw [List.perm_iff_count] at this ⊢
    intro a
    have := this a
    simp only [count_fill_addrs] at this ⊢
    omega
  · rw [hc0]
    simp only [plug]
    intro z hz
    refine hag z (fun hm => hz ?_)
    exact ((plug_addrs_perm c0 _).mem_iff).2 (List.mem_append_right _ hm)

theorem push_case_head {h : Heap} {fX : Frame} {X2 : Tree}
    (hI : RInv h [] (fX.fill X2)) (ho : fX.sib.isRed = false) (g : Ptr) :
    ∃ r, remove_push h g HEAD fX.addr fX.dir true = some r ∧
      StepPost h [] fX X2 r := by
  obtain ⟨hrc, hrx⟩ := (rep_plug ([] ++ [headFrame]) (fX.fill X2)).1 hI.hrep
  obtain ⟨hh0, hh, -, -⟩ := hrc
  refine ⟨(h, HEAD), ?_, fX, [], ⟨hI.hrep, hI.hnd, hI.hcol⟩, Or.inr (Or.inr ⟨rfl, ho⟩), rfl, rfl,
    rfl, List.Perm.refl _, agree_refl _ _, rfl, rfl, rfl⟩
  have hfx : fX.fill X2 = Tree.node fX.addr (if fX.dir then fX.sib else X2) fX.red fX.data
      (if fX.dir then X2 else fX.sib) := by
    unfold Frame.fill; cases fX.dir <;> simp
  rw [hfx] at hrx
  have hl : load h HEAD = some { link0 := NULL, link1 := fX.addr, red := false, data := 0 } := by
    have hh2 : h HEAD = some (headFrame.record (fX.fill X2).ptr) := hh
    have hh3 : HEAD ≠ NULL := hh0
    rw [load_eq hh3, hh2]; simp [Frame.record, headFrame]
  refine remove_push_root hrx hl fX.dir ?_ g
  cases hd : fX.dir <;> simp [hd, ho]

theorem push_case_flip {h : Heap} {K0 : List Frame} {fq fX : Frame} {X2 : Tree} {sa : Ptr}
    {sl sr : Tree} {sd : Nat} (hI : RInv h (fq :: K0) (fX.fill X2))
    (hok : fq.red = true ∨ K0 = []) (hS : fq.sib = Tree.node sa sl false sd sr)
    (hq : fX.red = false) (hq2 : X2.isRed = false) (ho : fX.sib.isRed = false)
    (hsl : sl.isRed = false) (hsr : sr.isRed = false) (g : Ptr) :
    ∃ r, remove_push h g fq.addr fX.addr fX.dir fq.dir = some r ∧
      StepPost h (fq :: K0) fX X2 r := by
  have hrep : rep h (plug (K0 ++ [headFrame]) (fq.fill (fX.fill X2))) = true := hI.hrep
  have hnd : (plug (K0 ++ [headFrame]) (fq.fill (fX.fill X2))).addrs.Nodup := hI.hnd
  obtain ⟨-, hrw⟩ := (rep_plug (K0 ++ [headFrame]) _).1 hrep
  obtain ⟨-, hndw, -⟩ := ctx_nodup_split hnd
  obtain ⟨h2, hpush, hag, hrep2⟩ := push_flip_local hS hrw hndw hq hq2 ho hsl hsr g
  obtain ⟨hR, hN⟩ := plug_same_perm hrep hnd hag hrep2 (by simp) (perm_flip hS)
  have hc := hI.hcol
  simp only [plug] at hc
  obtain ⟨n, hn⟩ := rbOK_rb (rbOK_plug_sub hc)
  obtain ⟨n2, hn2, hnn⟩ := rb_flip hS hn hq hq2 ho hsl hsr
  have hcol := rb_lift hc hn hn2 (by
    rcases hok with hp | hk
    · exact Or.inl ⟨by simp, hnn hp⟩
    · exact Or.inr hk)
  refine ⟨(h2, fq.addr), hpush, ({ fX with red := true } : Frame),
    ({ fq with red := false, sib := Tree.node sa sl true sd sr } : Frame) :: K0,
    ⟨hR, hN, hcol⟩, Or.inl rfl, rfl, rfl, rfl, plug_perm (perm_flip hS), ?_, rfl,
    (ctx_flip hS).1, (ctx_flip hS).2⟩
  simp only [List.cons_append, plug]
  intro z hz
  refine hag z (fun hm => hz ?_)
  exact ((plug_addrs_perm (K0 ++ [headFrame]) _).mem_iff).2 (List.mem_append_right _ hm)

theorem grand_facts {h : Heap} {K0 : List Frame} {fq : Frame} {V : Tree}
    (hrep : rep h (plug (K0 ++ [headFrame]) (fq.fill V)) = true)
    (hnd : (plug (K0 ++ [headFrame]) (fq.fill V)).addrs.Nodup) :
    ∃ fG c1, K0 ++ [headFrame] = fG :: c1 ∧ fG.addr = (topFrame K0).addr ∧
      h fG.addr = some (fG.record fq.addr) ∧ fG.addr ≠ NULL ∧ fG.addr ∉ (fq.fill V).addrs ∧
      fG.sib.ptr ≠ fq.addr := by
  obtain ⟨c1, hc1⟩ := ctx_head K0
  rw [hc1] at hrep hnd
  obtain ⟨hrc, hrw⟩ := (rep_plug _ _).1 hrep
  obtain ⟨hg0, hG, hgs, -⟩ := hrc
  obtain ⟨-, -, hdis⟩ := ctx_nodup_split hnd
  rw [fill_ptr] at hG
  refine ⟨topFrame K0, c1, hc1, rfl, hG, hg0, hdis _ (by simp [ctxAddrs]), ?_⟩
  have hq0 := (rep_fill.1 hrw).1
  have hqm : fq.addr ∈ (fq.fill V).addrs := mem_fill_addr fq V
  rcases ptr_mem_or_null (topFrame K0).sib with h0 | hm
  · rw [h0]; exact Ne.symm hq0
  · intro e
    exact hdis _ (by simp [ctxAddrs, hm]) (e ▸ hqm)

theorem push_case_single {h : Heap} {K0 : List Frame} {fq fX fS : Frame} {X2 near : Tree}
    {fa : Ptr} {fl fr : Tree} {fd : Nat} (hI : RInv h (fq :: K0) (fX.fill X2))
    (hok : fq.red = true ∨ K0 = []) (hS : fq.sib = fS.fill near) (hds : fS.dir = fq.dir)
    (hfar : fS.sib = Tree.node fa fl true fd fr) (hsb : fS.red = false)
    (hq : fX.red = false) (hq2 : X2.isRed = false) (ho : fX.sib.isRed = false)
    (hnear : near.isRed = false) :
    ∃ r, remove_push h (topFrame K0).addr fq.addr fX.addr fX.dir fq.dir = some r ∧
      StepPost h (fq :: K0) fX X2 r := by
  have hrep : rep h (plug (K0 ++ [headFrame]) (fq.fill (fX.fill X2))) = true := hI.hrep
  have hnd : (plug (K0 ++ [headFrame]) (fq.fill (fX.fill X2))).addrs.Nodup := hI.hnd
  obtain ⟨fG, c1, hc1, hga, hG, hg0, hgw, hgs⟩ := grand_facts hrep hnd
  rw [hc1] at hrep hnd
  obtain ⟨-, hrw⟩ := (rep_plug _ _).1 hrep
  obtain ⟨-, hndw, -⟩ := ctx_nodup_split hnd
  obtain ⟨h2, hpush, hag, hG2, hrep2⟩ :=
    push_single_local hS hds hfar hG hg0 hgw hgs hrw hndw hq hq2 ho hnear
  obtain ⟨hR, hN⟩ := plug_replace_perm hrep hnd hag hrep2 (by rw [hG2]; simp)
    (perm_single hS hfar)
  have hc := hI.hcol
  simp only [plug] at hc
  obtain ⟨n, hn⟩ := rbOK_rb (rbOK_plug_sub hc)
  obtain ⟨n2, hn2, hnn⟩ := rb_single hS hfar hn hsb hq hq2 ho
  have hcol := rb_lift hc hn hn2 (by
    rcases hok with hp | hk
    · exact Or.inl ⟨by simp [hp], hnn hp⟩
    · exact Or.inr hk)
  rw [← hga]
  refine ⟨(h2, fq.addr), hpush, ({ fX with red := true } : Frame),
    ({ fq with red := false, sib := near } : Frame) ::
      ({ fS with red := true, sib := Tree.node fa fl false fd fr } : Frame) :: K0,
    ⟨?_, ?_, hcol⟩, Or.inl rfl, rfl, rfl, rfl, plug_perm (perm_single hS hfar), ?_,
    rfl, (ctx_single hS hds hfar).1, (ctx_single hS hds hfar).2⟩
  · show rep h2 (plug (K0 ++ [headFrame]) _) = true
    rw [hc1]; exact hR
  · show (plug (K0 ++ [headFrame]) _).addrs.Nodup
    rw [hc1]; exact hN
  · show Agree h h2 (plug (K0 ++ [headFrame]) _).addrs
    rw [hc1]
    intro z hz
    refine hag z (fun hm => hz ?_)
    refine ((plug_addrs_perm (fG :: c1) _).mem_iff).2 ?_
    rcases List.mem_cons.1 hm with e | hm
    · exact List.mem_append_left _ (by simp [ctxAddrs, e])
    · exact List.mem_append_right _ hm

theorem push_case_double {h : Heap} {K0 : List Frame} {fq fX fS fM : Frame} {X2 ml : Tree}
    (hI : RInv h (fq :: K0) (fX.fill X2))
    (hok : fq.red = true ∨ K0 = []) (hS : fq.sib = fS.fill (fM.fill ml))
    (hds : fS.dir = fq.dir) (hdm : fM.dir = fq.dir) (hsb : fS.red = false)
    (hq : fX.red = false) (hq2 : X2.isRed = false) (ho : fX.sib.isRed = false)
    (hmr : fM.red = true) :
    ∃ r, remove_push h (topFrame K0).addr fq.addr fX.addr fX.dir fq.dir = some r ∧
      StepPost h (fq :: K0) fX X2 r := by
  have hrep : rep h (plug (K0 ++ [headFrame]) (fq.fill (fX.fill X2))) = true := hI.hrep
  have hnd : (plug (K0 ++ [headFrame]) (fq.fill (fX.fill X2))).addrs.Nodup := hI.hnd
  obtain ⟨fG, c1, hc1, hga, hG, hg0, hgw, hgs⟩ := grand_facts hrep hnd
  rw [hc1] at hrep hnd
  obtain ⟨-, hrw⟩ := (rep_plug _ _).1 hrep
  obtain ⟨-, hndw, -⟩ := ctx_nodup_split hnd
  obtain ⟨h2, hpush, hag, hG2, hrep2⟩ :=
    push_double_local hS hds hdm hG hg0 hgw hgs hrw hndw hq hq2 ho hmr
  obtain ⟨hR, hN⟩ := plug_replace_perm hrep hnd hag hrep2 (by rw [hG2]; simp)
    (perm_double hS)
  have hc := hI.hcol
  simp only [plug] at hc
  obtain ⟨n, hn⟩ := rbOK_rb (rbOK_plug_sub hc)
  obtain ⟨n2, hn2, hnn⟩ := rb_double hS hn hsb hq hq2 ho hmr
  have hcol := rb_lift hc hn hn2 (by
    rcases hok with hp | hk
    · exact Or.inl ⟨by simp [hp], hnn hp⟩
    · exact Or.inr hk)
  rw [← hga]
  refine ⟨(h2, fq.addr), hpush, ({ fX with red := true } : Frame),
    ({ fq with red := false, sib := ml } : Frame) ::
      ({ fM with red := true, sib := ({ fS with red := false } : Frame).fill fM.sib } :
        Frame) :: K0,
    ⟨?_, ?_, hcol⟩, Or.inl rfl, rfl, rfl, rfl, plug_perm (perm_double hS), ?_, rfl,
    (ctx_double hS hds hdm).1, (ctx_double hS hds hdm).2⟩
  · show rep h2 (plug (K0 ++ [headFrame]) _) = true
    rw [hc1]; exact hR
  · show (plug (K0 ++ [headFrame]) _).addrs.Nodup
    rw [hc1]; exact hN
  · show Agree h h2 (plug (K0 ++ [headFrame]) _).addrs
    rw [hc1]
    intro z hz
    refine hag z (fun hm => hz ?_)
    refine ((plug_addrs_perm (fG :: c1) _).mem_iff).2 ?_
    rcases List.mem_cons.1 hm with e | hm
    · exact List.mem_append_left _ (by simp [ctxAddrs, e])
    · exact List.mem_append_right _ hm

theorem red_node {t : Tree} (h : t.isRed = true) : ∃ a l d r, t = Tree.node a l true d r := by
  cases t with
  | nil => simp at h
  | node a l c d r =>
    simp only [isRed_node] at h
    subst h
    exact ⟨a, l, d, r, rfl⟩

theorem push_cases {h : Heap} {K : List Frame} {fX : Frame} {X2 : Tree}
    (hI : RInv h K (fX.fill X2)) (hok : pushOK K (fX.fill X2)) (g : Ptr)
    (hg : ∀ f K0, K = f :: K0 → g = (topFrame K0).addr) :
    ∃ r, remove_push h g (topFrame K).addr fX.addr fX.dir (topFrame K).dir = some r ∧
      StepPost h K fX X2 r := by
  by_cases hquiet : fX.red = true ∨ X2.isRed = true
  · exact push_case_quiet hI hquiet g
  simp only [not_or, Bool.not_eq_true] at hquiet
  obtain ⟨hq, hq2⟩ := hquiet
  cases hO : fX.sib.isRed with
  | true =>
    obtain ⟨a, l, d, r, hsib⟩ := red_node hO
    rw [node_eq_fill a l r true d fX.dir] at hsib
    exact push_case_rot hI hsib rfl hq hq2 rfl g
  | false =>
    cases K with
    | nil => exact push_case_head hI hO g
    | cons fq K0 =>
      have hgg := hg fq K0 rfl
      subst hgg
      have hc : (plug K0 (fq.fill (fX.fill X2))).rbOK := hI.hcol
      obtain ⟨n, hn⟩ := rbOK_rb (rbOK_plug_sub hc)
      obtain ⟨m, -, -, hcol, -⟩ := rb_fill.1 hn
      have hok2 : fq.red = true ∨ K0 = [] := by
        rcases hok with h1 | h1 | h1
        · exact Or.inl h1
        · rw [isRed_fill, hq] at h1; cases h1
        · exact Or.inr h1.1
      have hsr : fq.sib.isRed = false := by
        rcases hok with h1 | h1 | h1
        · exact (hcol h1).2
        · rw [isRed_fill, hq] at h1; cases h1
        · exact h1.2
      obtain ⟨sa, sl, sd, sr, hS⟩ := sib_black hn hq hsr
      have hS2 := hS
      rw [node_eq_fill sa sl sr false sd fq.dir] at hS2
      cases hnear : (if fq.dir then sr else sl).isRed with
      | true =>
        obtain ⟨a, l, d, r, hnr⟩ := red_node hnear
        rw [node_eq_fill a l r true d fq.dir] at hnr
        rw [hnr] at hS2
        exact push_case_double hI hok2 hS2 rfl rfl rfl hq hq2 hO rfl
      | false =>
        cases hfar : (if fq.dir then sl else sr).isRed with
        | true =>
          obtain ⟨a, l, d, r, hfr⟩ := red_node hfar
          exact push_case_single hI hok2 hS2 rfl hfr rfl hq hq2 hO hnear
        | false =>
          refine push_case_flip hI hok2 hS hq hq2 hO ?_ ?_ _
          · cases hd : fq.dir <;> simp [hd] at hnear hfar <;> assumption
          · cases hd : fq.dir <;> simp [hd] at hnear hfar <;> assumption

theorem perm_snoc {K K2 : List Frame} {X X2 : Tree} (f : Frame)
    (hp : (plug K2 X2).addrs.Perm (plug K X).addrs) :
    (plug (K2 ++ [f]) X2).addrs.Perm (plug (K ++ [f]) X).addrs := by
  rw [plug_snoc, plug_snoc]
  rw [List.perm_iff_count] at hp ⊢
  intro a
  have := hp a
  simp only [count_fill_addrs]
  omega

theorem mem_plug_of_sub {K : List Frame} {X : Tree} {a : Ptr} (ha : a ∈ X.addrs) :
    a ∈ (plug K X).addrs :=
  ((plug_addrs_perm K X).mem_iff).2 (List.mem_append_right _ ha)

theorem top_link {h : Heap} {K : List Frame} {X : Tree} (hI : RInv h K X) :
    getLink h (topFrame K).addr (topFrame K).dir = some X.ptr := by
  obtain ⟨c0, hc0⟩ := ctx_head K
  have hrep := hI.hrep
  rw [hc0] at hrep
  obtain ⟨⟨h0, hT, -, -⟩, -⟩ := (rep_plug _ _).1 hrep
  have hl : load h (topFrame K).addr = some ((topFrame K).record X.ptr) := by
    rw [load_eq h0]; exact hT
  rw [getLink_eq hl, record_link_dir]

theorem rinv_sub {h : Heap} {K : List Frame} {X : Tree} (hI : RInv h K X) :
    rep h X = true := ((rep_plug _ _).1 hI.hrep).2

theorem remove_step_exit (cmp : Nat → Nat → Int) (data : Nat) {l : RemLoc} {K : List Frame}
    (hI : RInv l.h K Tree.nil) (hloc : RLoc l K) :
    remove_step cmp data l = some (Sum.inl l) := by
  have e1 := top_link hI
  rw [← hloc.1, ← hloc.2.1] at e1
  simp [remove_step, e1]

theorem remove_step_go (cmp : Nat → Nat → Int) (data : Nat) {l : RemLoc} {K : List Frame}
    {X : Tree} (hI : RInv l.h K X) (hok : pushOK K X) (hloc : RLoc l K) (hX : X ≠ Tree.nil) :
    ∃ l2 K2 X2, remove_step cmp data l = some (Sum.inr l2) ∧ RInv l2.h K2 X2 ∧
      pushOK K2 X2 ∧ RLoc l2 K2 ∧ K2 ≠ [] ∧ X2.count < X.count ∧
      (plug K2 X2).addrs.Perm (plug K X).addrs ∧
      Agree l.h l2.h (plug (K ++ [headFrame]) X).addrs ∧
      (l2.f = l.f ∨ l2.f ∈ (plug K X).addrs) ∧
      ∃ fX, X = fX.fill X2 ∧ fX.dir = decide (toInt32 (cmp data fX.data) > 0) ∧
        l2.f = (if toInt32 (cmp data fX.data) = 0 then fX.addr else l.f) ∧
        (topFrame K2).data = fX.data ∧ (topFrame K2).dir = fX.dir ∧
        (topFrame K2).addr = fX.addr ∧ ctxLeft K2 = ctxLeft (fX :: K) ∧
        ctxRight K2 = ctxRight (fX :: K) := by
  cases X with
  | nil => exact absurd rfl hX
  | node a lt c d rt =>
    have e1 := top_link hI
    rw [← hloc.1, ← hloc.2.1] at e1
    have hrx := rinv_sub hI
    have ha0 := (rep_node.1 hrx).1
    have e2 := getData_eq (load_node hrx)
    have hfill := node_eq_fill a lt rt c d (decide (toInt32 (cmp data d) > 0))
    rw [hfill] at hI hok
    obtain ⟨⟨h2, p2⟩, hpush, f1, K1, hI2, hok2, hfa, hfd, htop, hperm, hag, hfx, hcl, hcr⟩ :=
      push_cases hI hok l.p hloc.2.2
    rw [← hloc.1, ← hloc.2.1] at hpush
    simp only at hpush hfa hfd
    refine ⟨{ h := h2, g := l.p, p := p2, q := a,
              f := if toInt32 (cmp data d) = 0 then a else l.f,
              dir := decide (toInt32 (cmp data d) > 0) }, f1 :: K1,
      if decide (toInt32 (cmp data d) > 0) then rt else lt, ?_, hI2, hok2, ?_, by simp, ?_,
      ?_, ?_, ?_, ⟨_, hfill, rfl, rfl, hfx, hfd, hfa, hcl, hcr⟩⟩
    · simp only [remove_step, e1, ptr_node, if_neg ha0, e2, hpush, Option.bind_eq_bind,
        Option.some_bind, pure]
    · refine ⟨hfa.symm, hfd.symm, ?_⟩
      intro f K0 hK
      simp only [List.cons.injEq] at hK
      rw [← hK.2]; exact htop.symm
    · simp only [count_node]; split <;> omega
    · rw [hfill]; exact hperm
    · rw [hfill]; exact hag
    · simp only
      split
      · exact Or.inr (mem_plug_of_sub (by simp))
      · exact Or.inl rfl

theorem agree_perm {h h2 : Heap} {as bs : List Ptr} (hag : Agree h h2 as)
    (hp : as.Perm bs) : Agree h h2 bs :=
  agree_mono hag (fun _ ha => hp.mem_iff.1 ha)

theorem remove_loop_spec (cmp : Nat → Nat → Int) (data : Nat) :
    ∀ (fuel : Nat) (l : RemLoc) (K : List Frame) (X : Tree), X.count < fuel →
      RInv l.h K X → pushOK K X → RLoc l K →
      ∃ l2 K2, remove_loop cmp data fuel l = some l2 ∧ RInv l2.h K2 Tree.nil ∧
        pushOK K2 Tree.nil ∧ RLoc l2 K2 ∧ (K ≠ [] ∨ X ≠ Tree.nil → K2 ≠ []) ∧
        (plug K2 Tree.nil).addrs.Perm (plug K X).addrs ∧
        Agree l.h l2.h (plug (K ++ [headFrame]) X).addrs ∧
        (l2.f = l.f ∨ l2.f ∈ (plug K X).addrs) := by
  intro fuel
  induction fuel with
  | zero => intro l K X hc; omega
  | succ n ih =>
    intro l K X hc hI hok hloc
    by_cases hX : X = Tree.nil
    · subst hX
      refine ⟨l, K, ?_, hI, hok, hloc, ?_, List.Perm.refl _, agree_refl _ _, Or.inl rfl⟩
      · simp only [remove_loop, remove_step_exit cmp data hI hloc]
      · intro hk
        rcases hk with hk | hk
        · exact hk
        · exact absurd rfl hk
    · obtain ⟨l1, K1, X1, hstep, hI1, hok1, hloc1, hK1, hcnt, hperm, hag, hf, -⟩ :=
        remove_step_go cmp data hI hok hloc hX
      obtain ⟨l2, K2, hloop, hI2, hok2, hloc2, hK2, hperm2, hag2, hf2⟩ :=
        ih l1 K1 X1 (by omega) hI1 hok1 hloc1
      refine ⟨l2, K2, ?_, hI2, hok2, hloc2, fun _ => hK2 (Or.inl hK1), hperm2.trans hperm, ?_,
        ?_⟩
      · simp only [remove_loop, hstep, hloop]
      · have := agree_trans hag (agree_perm hag2 (perm_snoc headFrame hperm))
        exact agree_mono this (by simp)
      · rcases hf2 with e | hm
        · rw [e]; exact hf
        · exact Or.inr (hperm.mem_iff.1 hm)

/-! ## Overwriting an element, and the colour of the root -/

@[simp] theorem setData_ptr (t : Tree) (a : Ptr) (d : Nat) : (t.setData a d).ptr = t.ptr := by
  cases t <;> rfl

@[simp] theorem setData_isRed (t : Tree) (a : Ptr) (d : Nat) :
    (t.setData a d).isRed = t.isRed := by
  cases t <;> rfl

@[simp] theorem setData_addrs (t : Tree) (a : Ptr) (d : Nat) :
    (t.setData a d).addrs = t.addrs := by
  induction t with
  | nil => rfl
  | node b l c x r ihl ihr => simp [Tree.setData, ihl, ihr]

@[simp] theorem setData_noRedRed (t : Tree) (a : Ptr) (d : Nat) :
    (t.setData a d).noRedRed = t.noRedRed := by
  induction t with
  | nil => rfl
  | node b l c x r ihl ihr => simp [Tree.setData, Tree.noRedRed, ihl, ihr]

@[simp] theorem setData_blackHeight (t : Tree) (a : Ptr) (d : Nat) :
    (t.setData a d).blackHeight = t.blackHeight := by
  induction t with
  | nil => rfl
  | node b l c x r ihl ihr => simp [Tree.setData, Tree.blackHeight, ihl, ihr]

theorem setData_rbOK {t : Tree} (a : Ptr) (d : Nat) (h : t.rbOK) : (t.setData a d).rbOK := by
  unfold Tree.rbOK at h ⊢
  simpa using h

theorem rep_setData {h : Heap} {a : Ptr} {n : rb_node} (d : Nat) (hl : h a = some n) :
    ∀ t : Tree, rep h t = true →
      rep (Function.update h a (some { n with data := d })) (t.setData a d) = true := by
  intro t
  induction t with
  | nil => intro _; rfl
  | node b l c x r ihl ihr =>
    intro hr
    obtain ⟨hb, hn, hrl, hrr⟩ := rep_node.1 hr
    refine rep_node.2 ⟨hb, ?_, ihl hrl, ihr hrr⟩
    by_cases hba : b = a
    · subst hba
      rw [hn] at hl
      cases hl
      simp
    · rw [Function.update_noteq hba, hn]; simp [hba]

theorem fill_setData (f : Frame) (t : Tree) (a : Ptr) (d : Nat) :
    (f.fill t).setData a d = (f.setData a d).fill (t.setData a d) := by
  unfold Frame.fill Frame.setData
  cases f.dir <;> simp [Tree.setData]

theorem plug_setData (a : Ptr) (d : Nat) : ∀ (K : List Frame) (t : Tree),
    (plug K t).setData a d = plug (K.map (fun f => f.setData a d)) (t.setData a d) := by
  intro K
  induction K with
  | nil => intro t; rfl
  | cons f K ih => intro t; simp only [plug, List.map_cons, ih, fill_setData]

theorem headFrame_setData {a : Ptr} (d : Nat) (ha : a ≠ HEAD) :
    headFrame.setData a d = headFrame := by
  simp [Frame.setData, headFrame, Tree.setData, Ne.symm ha]

theorem count_eq_length (t : Tree) : t.count = t.addrs.length := by
  induction t with
  | nil => rfl
  | node b l c x r ihl ihr => simp [ihl, ihr]; omega

theorem count_of_perm {t t2 : Tree} (hp : t2.addrs.Perm t.addrs) : t2.count = t.count := by
  rw [count_eq_length, count_eq_length, hp.length_eq]

theorem rinv_setData {h : Heap} {K : List Frame} {X : Tree} {a : Ptr} {n : rb_node}
    (d : Nat) (hI : RInv h K X) (hl : h a = some n) (ha : a ≠ HEAD) :
    RInv (Function.update h a (some { n with data := d })) (K.map (fun f => f.setData a d))
      (X.setData a d) := by
  have h1 := rep_setData d hl _ hI.hrep
  have h2 := hI.hnd
  rw [← setData_addrs _ a d] at h2
  rw [plug_setData, List.map_append, List.map_singleton, headFrame_setData d ha] at h1 h2
  refine ⟨h1, h2, ?_⟩
  rw [← plug_setData]
  exact setData_rbOK a d hI.hcol

theorem setRed_rbOK {t : Tree} (h : t.rbOK) : (t.setRed false).rbOK := by
  cases t with
  | nil => exact h
  | node b l c x r =>
    obtain ⟨n, hn⟩ := rbOK_rb h
    obtain ⟨m, hl, hr, -, -⟩ := rb_at_node.1 hn
    exact rb_rbOK (rb_at_node.2 ⟨m, hl, hr, by simp, rfl⟩)

theorem rep_setRed_root {h : Heap} {b : Ptr} {l r : Tree} {c : Bool} {x : Nat}
    (hr : rep h (Tree.node b l c x r) = true) (hnd : (Tree.node b l c x r).addrs.Nodup) :
    ∃ h2, setRed h b false = some h2 ∧ Agree h h2 [b] ∧
      rep h2 (Tree.node b l false x r) = true := by
  obtain ⟨hb, hn, hrl, hrr⟩ := rep_node.1 hr
  obtain ⟨hbl, hbr, -, -, -⟩ := nodup_node.1 hnd
  have hld : load h b = some { link0 := l.ptr, link1 := r.ptr, red := c, data := x } := by
    rw [load_eq hb]; exact hn
  refine ⟨_, setRed_eq hld false, agree_update (agree_refl _ _) _ _ (by simp), ?_⟩
  refine rep_node.2 ⟨hb, by simp, ?_, ?_⟩
  · rw [rep_update l hbl]; exact hrl
  · rw [rep_update r hbr]; exact hrr

/-! ## The end of `rb_remove` -/

theorem rep_mem {h : Heap} : ∀ {t : Tree} {a : Ptr}, rep h t = true → a ∈ t.addrs →
    ∃ n, h a = some n ∧ a ≠ NULL := by
  intro t
  induction t with
  | nil => intro a _ ha; simp at ha
  | node b l c x r ihl ihr =>
    intro a hr ha
    obtain ⟨hb, hn, hrl, hrr⟩ := rep_node.1 hr
    rcases mem_node.1 ha with rfl | hm | hm
    · exact ⟨_, hn, hb⟩
    · exact ihl hrl hm
    · exact ihr hrr hm

theorem rb_one_black {t : Tree} (h : t.rb 1) (hr : t.isRed = false) : t = Tree.nil := by
  cases t with
  | nil => rfl
  | node b l c x r =>
    simp only [isRed_node] at hr
    subst hr
    obtain ⟨m, hl, -, -, hm⟩ := rb_at_node.1 h
    have := rb_pos hl
    simp at hm
    omega

theorem topFrame_map_addr (K : List Frame) (a : Ptr) (d : Nat) :
    (topFrame (K.map (fun f => f.setData a d))).addr = (topFrame K).addr := by
  cases K <;> rfl

theorem head_not_mem {h : Heap} {K : List Frame} {X : Tree} (hI : RInv h K X) :
    HEAD ∉ (plug K X).addrs := by
  have hnd := hI.hnd
  rw [plug_snoc] at hnd
  exact (nodup_fill.1 hnd).2.1

theorem leaf_at_exit {h : Heap} {fq : Frame} {K0 : List Frame}
    (hI : RInv h (fq :: K0) Tree.nil) (hok : pushOK (fq :: K0) Tree.nil) :
    fq.sib = Tree.nil ∧ (fq.red = true ∨ K0 = []) := by
  have hc : (plug K0 (fq.fill Tree.nil)).rbOK := hI.hcol
  obtain ⟨n, hn⟩ := rbOK_rb (rbOK_plug_sub hc)
  obtain ⟨m, hnil, hsib, hcol, -⟩ := rb_fill.1 hn
  have hm := rb_nil.1 hnil
  subst hm
  rcases hok with h1 | h1 | h1
  · exact ⟨rb_one_black hsib (hcol h1).2, Or.inl h1⟩
  · simp at h1
  · exact ⟨rb_one_black hsib h1.2, Or.inr h1.1⟩

theorem unlink_leaf {h : Heap} {fq : Frame} {K0 : List Frame}
    (hI : RInv h (fq :: K0) Tree.nil) (hok : pushOK (fq :: K0) Tree.nil) :
    ∃ h2 h3, getData h fq.addr = some fq.data ∧
      (∃ p1, getLink h (topFrame K0).addr true = some p1 ∧
        setLink h (topFrame K0).addr (decide (p1 = fq.addr)) NULL = some h2) ∧
      getLink h fq.addr false = some NULL ∧ getLink h fq.addr true = some NULL ∧
      getData h2 fq.addr = some fq.data ∧ h3 = Function.update h2 fq.addr none ∧
      rep h3 (headFrame.fill (plug K0 Tree.nil)) = true ∧
      (headFrame.fill (plug K0 Tree.nil)).addrs.Nodup ∧ (plug K0 Tree.nil).rbOK ∧
      (plug K0 Tree.nil).count + 1 = (plug (fq :: K0) Tree.nil).count ∧
      ∀ a ∈ (plug K0 Tree.nil).addrs, a ∈ (plug (fq :: K0) Tree.nil).addrs := by
  obtain ⟨hsib, hk⟩ := leaf_at_exit hI hok
  have hrep : rep h (plug (K0 ++ [headFrame]) (fq.fill Tree.nil)) = true := hI.hrep
  have hnd : (plug (K0 ++ [headFrame]) (fq.fill Tree.nil)).addrs.Nodup := hI.hnd
  obtain ⟨fG, c1, hc1, hga, hG, hg0, hgw, hgs⟩ := grand_facts hrep hnd
  rw [hc1] at hrep hnd
  obtain ⟨-, hrw⟩ := (rep_plug _ _).1 hrep
  obtain ⟨hq0, hQ, -, -⟩ := rep_fill.1 hrw
  have hgq : fG.addr ≠ fq.addr := fun e => hgw (e ▸ mem_fill_addr fq Tree.nil)
  have lQ : load h fq.addr = some (fq.record NULL) := by rw [load_eq hq0]; exact hQ
  have lG : load h fG.addr = some (fG.record fq.addr) := by rw [load_eq hg0]; exact hG
  obtain ⟨p1, e1, e2⟩ := dir2_eq lG hgs
  have e3 := setLink_eq lG fG.dir NULL
  rw [record_withLink_dir] at e3
  have e4 : getLink h fq.addr false = some NULL := by
    rw [getLink_eq lQ]; simp [Frame.record, rb_node.link, hsib]
  have e5 : getLink h fq.addr true = some NULL := by
    rw [getLink_eq lQ]; simp [Frame.record, rb_node.link, hsib]
  have e6 : getData (Function.update h fG.addr (some (fG.record NULL))) fq.addr =
      some fq.data := by
    have : load (Function.update h fG.addr (some (fG.record NULL))) fq.addr =
        some (fq.record NULL) := by rw [load_update_ne (Ne.symm hgq)]; exact lQ
    rw [getData_eq this, record_data]
  have hag : Agree h (Function.update (Function.update h fG.addr (some (fG.record NULL)))
      fq.addr none) (fG.addr :: (fq.fill Tree.nil).addrs) :=
    agree_update (agree_update (agree_refl _ _) _ _ (by simp)) _ _
      (List.mem_cons_of_mem _ (mem_fill_addr fq Tree.nil))
  obtain ⟨hR, hN⟩ := @rep_plug_replace _ _ _ _ _ Tree.nil hrep hnd hag rfl
    (by rw [Function.update_noteq hgq]; simp) (by simp) (by simp)
  rw [← hc1, plug_snoc] at hR hN
  have hc : (plug K0 (fq.fill Tree.nil)).rbOK := hI.hcol
  obtain ⟨n, hn⟩ := rbOK_rb (rbOK_plug_sub hc)
  have hcol : (plug K0 Tree.nil).rbOK := by
    refine rb_lift hc hn (rb_nil.2 rfl) ?_
    rcases hk with h1 | h1
    · left
      obtain ⟨m, hnil, -, -, hm⟩ := rb_fill.1 hn
      rw [rb_nil.1 hnil, h1] at hm
      exact ⟨by simp, by simpa using hm.symm⟩
    · exact Or.inr h1
  refine ⟨_, _, ?_, ⟨p1, ?_, ?_⟩, e4, e5, e6, rfl, hR, hN, hcol, ?_, ?_⟩
  · rw [getData_eq lQ, record_data]
  · rw [← hga]; exact e1
  · rw [← hga, e2]; exact e3
  · exact count_plug_congr K0 1 (by rw [count_fill, hsib]; simp)
  · intro a ha
    have := ((plug_addrs_perm K0 Tree.nil).mem_iff).1 ha
    simp only [addrs_nil, List.append_nil] at this
    exact ((plug_addrs_perm K0 (fq.fill Tree.nil)).mem_iff).2 (List.mem_append_left _ this)

theorem setData_count (t : Tree) (a : Ptr) (d : Nat) : (t.setData a d).count = t.count := by
  rw [count_eq_length, count_eq_length, setData_addrs]

theorem splice_found {s : State} {l : RemLoc} {K : List Frame}
    (hI : RInv l.h K Tree.nil) (hok : pushOK K Tree.nil) (hloc : RLoc l K) (hK : K ≠ [])
    (hf : l.f ≠ NULL) (hfm : l.f ∈ (plug K Tree.nil).addrs) :
    ∃ h3 rel T, remove_splice s l =
        some (h3, rel, (s.size + 18446744073709551615) % 18446744073709551616) ∧
      rep h3 (headFrame.fill T) = true ∧ (headFrame.fill T).addrs.Nodup ∧ T.rbOK ∧
      T.count + 1 = (plug K Tree.nil).count ∧
      (∀ a ∈ T.addrs, a ∈ (plug K Tree.nil).addrs) ∧
      ∃ fq K0, K = fq :: K0 ∧ T = (plug K0 Tree.nil).setData l.f fq.data ∧
        h3 fq.addr = none := by
  cases K with
  | nil => exact absurd rfl hK
  | cons fq K0 =>
    obtain ⟨hq, hd, hp⟩ := hloc
    have hp := hp fq K0 rfl
    simp only [topFrame] at hq
    obtain ⟨nf, hnf, hf0⟩ := rep_mem hI.hrep (mem_plug_snoc hfm)
    have hfH : l.f ≠ HEAD := fun e => head_not_mem hI (e ▸ hfm)
    obtain ⟨-, -, e0, -⟩ := unlink_leaf hI hok
    have hI1 : RInv (Function.update l.h l.f (some { nf with data := fq.data }))
        (fq.setData l.f fq.data :: K0.map (fun f : Frame => f.setData l.f fq.data)) Tree.nil :=
      rinv_setData fq.data hI hnf hfH
    have hok1 : pushOK
        (fq.setData l.f fq.data :: K0.map (fun f : Frame => f.setData l.f fq.data))
        Tree.nil := by
      rcases hok with h1 | h1 | h1
      · exact Or.inl h1
      · simp at h1
      · refine Or.inr (Or.inr ⟨?_, ?_⟩)
        · rw [h1.1]; rfl
        · simp only [Frame.setData, setData_isRed]; exact h1.2
    obtain ⟨h2, h3, e1, ⟨p1, e2, e3⟩, e4, e5, e6, rfl, hR, hN, hcol, hcnt, hsub⟩ :=
      unlink_leaf hI1 hok1
    rw [topFrame_map_addr] at e2 e3
    have hld : load l.h l.f = some nf := by rw [load_eq hf0]; exact hnf
    have hpl : (plug (fq.setData l.f fq.data :: K0.map (fun f : Frame => f.setData l.f fq.data))
        Tree.nil) = (plug (fq :: K0) Tree.nil).setData l.f fq.data := by
      rw [plug_setData]; rfl
    have hfa : (fq.setData l.f fq.data).addr = fq.addr := rfl
    rw [hfa] at e1 e3 e4 e5 e6 hR
    refine ⟨Function.update h2 fq.addr none, s.released ++ [(fq.setData l.f fq.data).data],
      plug (K0.map (fun f : Frame => f.setData l.f fq.data)) Tree.nil, ?_, hR, hN, hcol, ?_, ?_,
      ⟨fq, K0, rfl, by rw [plug_setData]; rfl, Function.update_same _ _ _⟩⟩
    · simp only [remove_splice, if_pos hf, hq, hp, e0, setData_eq hld, e2, e3, e4, e5, e6,
        Option.bind_eq_bind, Option.some_bind, pure, decide_True, ne_eq, not_false_eq_true,
        if_true]
    · have := hcnt
      rw [hpl, setData_count] at this
      exact this
    · intro a ha
      have := hsub a ha
      rw [hpl, setData_addrs] at this
      exact this

theorem remove_finish {h : Heap} {T : Tree} (size : Nat) (rel : List Nat)
    (hr : rep h (headFrame.fill T) = true) (hnd : (headFrame.fill T).addrs.Nodup)
    (hs : size = T.count) :
    ∃ h4, getLink h HEAD true = some T.ptr ∧
      (if T.ptr ≠ NULL then setRed h T.ptr false
        else if size ≠ 0 then none else pure h) = some h4 ∧
      Owns { mem := Function.update h4 HEAD none, root := T.ptr, size := size,
             released := rel } (T.setRed false) ∧
      ∀ a, a ∉ T.addrs → h4 a = h a := by
  obtain ⟨hh0, hH, -, hrT⟩ := rep_fill.1 hr
  obtain ⟨-, hHT, -, hndT, -⟩ := nodup_fill.1 hnd
  have hh0 : HEAD ≠ NULL := hh0
  have hH : h HEAD = some (headFrame.record T.ptr) := hH
  have hHT : HEAD ∉ T.addrs := hHT
  have lH : load h HEAD = some (headFrame.record T.ptr) := by rw [load_eq hh0]; exact hH
  have e1 : getLink h HEAD true = some T.ptr := by
    rw [getLink_eq lH]; rfl
  cases T with
  | nil =>
    simp only [count_nil] at hs
    subst hs
    refine ⟨h, e1, by simp, ⟨rfl, rfl, by simp, by simp, by simp⟩, fun _ _ => rfl⟩
  | node b l c x r =>
    obtain ⟨h2, hset, hag, hrep2⟩ := rep_setRed_root hrT hndT
    have hb := (rep_node.1 hrT).1
    refine ⟨h2, e1, by simp [hb, hset], ⟨rfl, ?_, hndT, hHT, by simp⟩, ?_⟩
    · show rep (Function.update h2 HEAD none) (Tree.node b l false x r) = true
      rw [rep_update (Tree.node b l false x r) hHT]; exact hrep2
    · intro a ha
      exact hag a (fun hm => ha (by rw [List.mem_singleton.1 hm]; simp))

theorem setRed_false_isRed (t : Tree) : (t.setRed false).isRed = false := by
  cases t <;> rfl

theorem rinit {s : State} {t : Tree} (ho : Owns s t) (hc : t.rbOK) :
    RInv (Function.update s.mem HEAD
      (some { link0 := NULL, link1 := s.root, red := false, data := 0 })) [] t := by
  obtain ⟨-, hrep0, -⟩ := head_frame ho
  obtain ⟨hroot, -, hnd, hH, -⟩ := ho
  have hne : HEAD ≠ NULL := by decide
  refine ⟨?_, ?_, hc⟩
  · show rep _ (headFrame.fill t) = true
    refine rep_fill.2 ⟨hne, ?_, rfl, hrep0⟩
    show Function.update s.mem HEAD _ HEAD = _
    rw [Function.update_same, hroot]; rfl
  · show (headFrame.fill t).addrs.Nodup
    exact nodup_fill.2 ⟨by simp [headFrame], hH, by simp [headFrame], hnd,
      by simp [headFrame]⟩

/-- On every tree with the colour invariants `rb_remove` returns, and the handle then owns
a tree with the colour invariants, a black root and `size` nodes: one node fewer when it
returns 0, the same number when it returns `ENOENT`. -/
theorem rb_remove_shape (cmp : Nat → Nat → Int) (fuel data : Nat) (s : State) (t : Tree)
    (ho : Owns s t) (hc : t.rbOK) (hs : s.size = t.count)
    (hlt : t.count < 18446744073709551616) (hfuel : t.count < fuel) :
    ∃ c s2 t2, rb_remove fuel cmp s data = some (c, s2) ∧ Owns s2 t2 ∧ t2.rbOK ∧
      t2.isRed = false ∧ s2.size = t2.count ∧
      ((c = 0 ∧ t2.count + 1 = t.count) ∨ (c = ENOENT ∧ t2.count = t.count)) ∧
      ∀ a ∈ t2.addrs, a ∈ t.addrs := by
  have hI0 := rinit ho hc
  obtain ⟨hset, -, -⟩ := head_frame ho
  obtain ⟨hroot, hrep, hnd, hH, hmH⟩ := ho
  by_cases hn : s.root = NULL
  · have ht : t = Tree.nil := (ptr_eq_null_iff t hrep).1 (hroot ▸ hn)
    subst ht
    simp only [count_nil] at hs
    refine ⟨ENOENT, s, Tree.nil, by simp [rb_remove, hn, hs],
      ⟨hroot, hrep, hnd, hH, hmH⟩, hc, rfl, hs, Or.inr ⟨rfl, rfl⟩, fun a ha => ha⟩
  · have htn : t ≠ Tree.nil := fun e => hn (by rw [hroot, e]; rfl)
    obtain ⟨l2, K2, hloop, hI2, hok2, hloc2, hK2, hperm, -, hf2⟩ :=
      remove_loop_spec cmp data fuel
        { h := Function.update s.mem HEAD
            (some { link0 := NULL, link1 := s.root, red := false, data := 0 }),
          g := NULL, p := NULL, q := HEAD, f := NULL, dir := true } [] t hfuel hI0 trivial
        ⟨rfl, rfl, fun f K0 e => by cases e⟩
    have hK2 := hK2 (Or.inr htn)
    have hrepF : rep l2.h (headFrame.fill (plug K2 Tree.nil)) = true := by
      rw [← plug_snoc]; exact hI2.hrep
    have hndF : (headFrame.fill (plug K2 Tree.nil)).addrs.Nodup := by
      rw [← plug_snoc]; exact hI2.hnd
    have hcnt : (plug K2 Tree.nil).count = t.count := count_of_perm hperm
    by_cases hfn : l2.f = NULL
    · obtain ⟨h4, e1, e2, hown, -⟩ := remove_finish s.size s.released hrepF hndF
        (by rw [hs, hcnt])
      refine ⟨ENOENT, _, (plug K2 Tree.nil).setRed false, ?_, hown, setRed_rbOK hI2.hcol,
        setRed_false_isRed _, ?_, Or.inr ⟨rfl, ?_⟩, ?_⟩
      · simp only [rb_remove, if_neg hn, hset, hloop, remove_splice, hfn, ne_eq,
          not_true_eq_false, if_false, Option.bind_eq_bind, Option.some_bind, pure, e1]
        simp only [ne_eq, pure] at e2
        rw [e2]
        rfl
      · simp only [setRed_count]; rw [hs, hcnt]
      · rw [setRed_count, hcnt]
      · intro a ha
        rw [setRed_addrs] at ha
        exact hperm.mem_iff.1 ha
    · have hfm : l2.f ∈ (plug K2 Tree.nil).addrs := by
        rcases hf2 with e | hm
        · exact absurd e hfn
        · exact hperm.mem_iff.2 hm
      obtain ⟨h3, rel, T, hsp, hrT, hnT, hcT, hcntT, hsubT, -⟩ :=
        splice_found (s := s) hI2 hok2 hloc2 hK2 hfn hfm
      have hsz : (s.size + 18446744073709551615) % 18446744073709551616 = T.count := by
        omega
      obtain ⟨h4, e1, e2, hown, -⟩ := remove_finish
        ((s.size + 18446744073709551615) % 18446744073709551616) rel hrT hnT hsz
      refine ⟨0, _, T.setRed false, ?_, hown, setRed_rbOK hcT,
        setRed_false_isRed _, ?_, Or.inl ⟨rfl, ?_⟩, ?_⟩
      · simp only [rb_remove, if_neg hn, hset, hloop, hsp, ne_eq,
          Option.bind_eq_bind, Option.some_bind, pure, e1]
        simp only [ne_eq, pure] at e2
        rw [e2]
        simp [hfn]
      · simp only [setRed_count]; exact hsz
      · rw [setRed_count]; omega
      · intro a ha
        rw [setRed_addrs] at ha
        exact hperm.mem_iff.1 (hsubT a ha)

/-! ## The rotations of `rb_insert` on the heap -/

theorem fix_single_local {h : Heap} {fT fg fp : Frame} {Q : Tree} (hdp : fp.dir = fg.dir)
    (hT : h fT.addr = some (fT.record fg.addr)) (ht0 : fT.addr ≠ NULL)
    (htw : fT.addr ∉ (fg.fill (fp.fill Q)).addrs) (hts : fT.sib.ptr ≠ fg.addr)
    (hr : rep h (fg.fill (fp.fill Q)) = true) (hnd : (fg.fill (fp.fill Q)).addrs.Nodup)
    (hqr : Q.isRed = true) (hpr : fp.red = true) :
    ∃ h2, insert_fix h fT.addr fg.addr fp.addr Q.ptr fg.dir = some h2 ∧
      Agree h h2 (fT.addr :: (fg.fill (fp.fill Q)).addrs) ∧
      h2 fT.addr = some (fT.record fp.addr) ∧
      rep h2 (({ fp with red := false,
                         sib := ({ fg with red := true } : Frame).fill fp.sib } : Frame).fill Q) =
        true := by
  obtain ⟨hg0, hp0, hG, hP, hrU, hrS, hrQ⟩ := window_facts hr
  simp only [nodup_fill, mem_fill, not_or, forall_eq_or_imp,
    or_imp, forall_and, forall_eq, List.forall_mem_ne'] at hnd htw
  obtain ⟨dgU, ⟨dgp, dgS, dgQ⟩, -, ⟨dpS, dpQ, -, -, -⟩, dpU, -, -⟩ := hnd
  obtain ⟨dtg, dtU, dtp, dtS, dtQ⟩ := htw
  have lG : load h fg.addr = some (fg.record fp.addr) := by rw [load_eq hg0]; exact hG
  have lP : load h fp.addr = some (fp.record Q.ptr) := by rw [load_eq hp0]; exact hP
  have lT : load h fT.addr = some (fT.record fg.addr) := by rw [load_eq ht0]; exact hT
  have e1 : IS_RED h Q.ptr = some true := by rw [isRed_ptr Q hrQ, hqr]
  have e2 : IS_RED h fp.addr = some true := by simp [IS_RED, hp0, getRed_eq lP, hpr]
  obtain ⟨tl, e3, e4⟩ := dir2_eq lT hts
  have e5 : getLink h fp.addr fg.dir = some Q.ptr := by
    rw [← hdp]; simp [getLink_eq lP]
  have hlb : load h fp.addr =
      some (({ fp with dir := !fp.dir, sib := Q } : Frame).record fp.sib.ptr) := by
    rw [record_swap fp Q]; exact lP
  have hrot := @rot_once_spec h fg ({ fp with dir := !fp.dir, sib := Q } : Frame) fp.sib.ptr
    (!fg.dir) lG hlb (by simp) (by simp [hdp]) dgp
  simp only at hrot
  have a1 := rotHeap_agree h fg ({ fp with dir := !fp.dir, sib := Q } : Frame) fp.sib.ptr
  have b1 := @rotHeap_a h fg ({ fp with dir := !fp.dir, sib := Q } : Frame) fp.sib.ptr dgp
  have b2 := rotHeap_b h fg ({ fp with dir := !fp.dir, sib := Q } : Frame) fp.sib.ptr
  simp only at a1 b1 b2
  generalize rotHeap h fg ({ fp with dir := !fp.dir, sib := Q } : Frame) fp.sib.ptr = H1
    at hrot a1 b1 b2
  have lT1 : load H1 fT.addr = some (fT.record fg.addr) := by
    rw [load_eq ht0, a1 fT.addr (by simp [dtg, dtp])]; exact hT
  have hset := setLink_eq lT1 fT.dir fp.addr
  rw [record_withLink_dir] at hset
  have a2 : Agree h (Function.update H1 fT.addr (some (fT.record fp.addr)))
      [fT.addr, fg.addr, fp.addr] :=
    agree_update (agree_mono a1 (by simp)) _ _ (by simp)
  refine ⟨Function.update H1 fT.addr (some (fT.record fp.addr)), ?_, agree_mono a2 ?_, by simp,
    ?_⟩
  · simp only [insert_fix, e1, e2, e3, e4, e5, hrot, hset, Option.bind_eq_bind,
      Option.some_bind, if_true]
  · intro a ha
    simp only [List.mem_cons, List.mem_singleton, List.not_mem_nil, or_false] at ha
    simp only [List.mem_cons, mem_fill]
    rcases ha with rfl | rfl | rfl <;> simp
  · refine rep_fill.2 ⟨hp0, ?_, rep_fill.2 ⟨hg0, ?_, ?_, ?_⟩, ?_⟩
    · rw [Function.update_noteq (Ne.symm dtp), b2]
      have := record_swap ({ fp with red := false,
                                     sib := ({ fg with red := true } : Frame).fill fp.sib } :
        Frame) Q
      simp only [fill_ptr] at this
      rw [this]
    · rw [Function.update_noteq (Ne.symm dtg), b1]
    · exact rep_keep a2 hrU (by simp [dtU, dgU, dpU])
    · exact rep_keep a2 hrS (by simp [dtS, dgS, dpS])
    · exact rep_keep a2 hrQ (by simp [dtQ, dgQ, dpQ])

theorem fix_double_local {h : Heap} {fT fg fp fQ : Frame} {qL : Tree}
    (hdp : fp.dir = !fg.dir) (hdq : fQ.dir = fg.dir)
    (hT : h fT.addr = some (fT.record fg.addr)) (ht0 : fT.addr ≠ NULL)
    (htw : fT.addr ∉ (fg.fill (fp.fill (fQ.fill qL))).addrs) (hts : fT.sib.ptr ≠ fg.addr)
    (hr : rep h (fg.fill (fp.fill (fQ.fill qL))) = true)
    (hnd : (fg.fill (fp.fill (fQ.fill qL))).addrs.Nodup)
    (hqr : fQ.red = true) (hpr : fp.red = true) :
    ∃ h2, insert_fix h fT.addr fg.addr fp.addr fQ.addr fg.dir = some h2 ∧
      Agree h h2 (fT.addr :: (fg.fill (fp.fill (fQ.fill qL))).addrs) ∧
      h2 fT.addr = some (fT.record fQ.addr) ∧
      rep h2 (({ fQ with red := false,
                         sib := ({ fg with red := true } : Frame).fill fQ.sib } : Frame).fill
        (({ fp with red := true } : Frame).fill qL)) = true := by
  obtain ⟨hg0, hp0, hG, hP, hrU, hrS, hrQ⟩ := window_facts hr
  obtain ⟨hq0, hQ, hrN, hrL⟩ := rep_fill.1 hrQ
  simp only [nodup_fill, mem_fill, not_or, forall_eq_or_imp,
    or_imp, forall_and, forall_eq, List.forall_mem_ne'] at hnd htw
  obtain ⟨dgU, ⟨dgp, dgS, dgq, dgN, dgL⟩, -, ⟨dpS, ⟨dpq, dpN, dpL⟩, -, ⟨dqN, dqL, -, -, -⟩,
    dqS, -, -⟩, dpU, -, dqU, -, -⟩ := hnd
  obtain ⟨dtg, dtU, dtp, dtS, dtq, dtN, dtL⟩ := htw
  rw [fill_ptr] at hP
  have lG : load h fg.addr = some (fg.record fp.addr) := by rw [load_eq hg0]; exact hG
  have lP : load h fp.addr = some (fp.record fQ.addr) := by rw [load_eq hp0]; exact hP
  have lQ : load h fQ.addr = some (fQ.record qL.ptr) := by rw [load_eq hq0]; exact hQ
  have lT : load h fT.addr = some (fT.record fg.addr) := by rw [load_eq ht0]; exact hT
  have e1 : IS_RED h fQ.addr = some true := by simp [IS_RED, hq0, getRed_eq lQ, hqr]
  have e2 : IS_RED h fp.addr = some true := by simp [IS_RED, hp0, getRed_eq lP, hpr]
  obtain ⟨tl, e3, e4⟩ := dir2_eq lT hts
  have e5 : getLink h fp.addr fg.dir = some fp.sib.ptr := by
    have : fg.dir = !fp.dir := by rw [hdp]; simp
    rw [this]; simp [getLink_eq lP]
  have e6 : fQ.addr ≠ fp.sib.ptr := Ne.symm (ptr_not_mem_of_rep hrS dqS hq0)
  have e7 : getLink h fg.addr fg.dir = some fp.addr := by simp [getLink_eq lG]
  -- the first rotation, about `p`
  have hrot1 := @rot_once_spec h fp fQ qL.ptr fg.dir lP lQ hdp hdq dpq
  have a1 := rotHeap_agree h fp fQ qL.ptr
  have b1 := @rotHeap_a h fp fQ qL.ptr dpq
  have b2 := rotHeap_b h fp fQ qL.ptr
  generalize rotHeap h fp fQ qL.ptr = H1 at hrot1 a1 b1 b2
  have lG1 : load H1 fg.addr = some (fg.record fp.addr) := by
    rw [load_eq hg0, a1 fg.addr (by simp [dgp, dgq])]; exact hG
  have hset1 := setLink_eq lG1 fg.dir fQ.addr
  rw [record_withLink_dir] at hset1
  -- the second rotation, about `g`
  have lG2 : load (Function.update H1 fg.addr (some (fg.record fQ.addr))) fg.addr =
      some (fg.record fQ.addr) := load_update_same hg0
  have lQ2 : load (Function.update H1 fg.addr (some (fg.record fQ.addr))) fQ.addr =
      some (({ fQ with red := false, dir := !fQ.dir,
                       sib := ({ fp with red := true } : Frame).fill qL } : Frame).record
        fQ.sib.ptr) := by
    rw [load_update_ne (Ne.symm dgq), load_eq hq0, b2]
    have := record_swap ({ fQ with red := false } : Frame)
      (({ fp with red := true } : Frame).fill qL)
    simp only [fill_ptr] at this
    rw [this]
  have hrot2 := @rot_once_spec _ fg
    ({ fQ with red := false, dir := !fQ.dir,
               sib := ({ fp with red := true } : Frame).fill qL } : Frame)
    fQ.sib.ptr (!fg.dir) lG2 lQ2 (by simp) (by simp [hdq]) dgq
  simp only at hrot2
  have a2 : Agree h (Function.update H1 fg.addr (some (fg.record fQ.addr)))
      [fg.addr, fp.addr, fQ.addr] :=
    agree_update (agree_mono a1 (by simp)) _ _ (by simp)
  have b3 : (Function.update H1 fg.addr (some (fg.record fQ.addr))) fp.addr =
      some (({ fp with red := true } : Frame).record qL.ptr) := by
    rw [Function.update_noteq (Ne.symm dgp)]; exact b1
  generalize (Function.update H1 fg.addr (some (fg.record fQ.addr))) = H2
    at hset1 hrot2 a2 b3
  have a3 := rotHeap_agree H2 fg
    ({ fQ with red := false, dir := !fQ.dir,
               sib := ({ fp with red := true } : Frame).fill qL } : Frame) fQ.sib.ptr
  have b4 := @rotHeap_a H2 fg
    ({ fQ with red := false, dir := !fQ.dir,
               sib := ({ fp with red := true } : Frame).fill qL } : Frame) fQ.sib.ptr dgq
  have b5 := rotHeap_b H2 fg
    ({ fQ with red := false, dir := !fQ.dir,
               sib := ({ fp with red := true } : Frame).fill qL } : Frame) fQ.sib.ptr
  simp only at a3 b4 b5
  generalize rotHeap H2 fg
    ({ fQ with red := false, dir := !fQ.dir,
               sib := ({ fp with red := true } : Frame).fill qL } : Frame) fQ.sib.ptr = H3
    at hrot2 a3 b4 b5
  have a4 : Agree h H3 [fg.addr, fp.addr, fQ.addr] :=
    agree_mono (agree_trans a2 a3) (by simp)
  have htw : rot_twice h fg.addr (!fg.dir) = some (H3, fQ.addr) := by
    simp only [rot_twice, Bool.not_not, e7, hrot1, hset1, hrot2, Option.bind_eq_bind,
      Option.some_bind]
  have lT3 : load H3 fT.addr = some (fT.record fg.addr) := by
    rw [load_eq ht0, a4 fT.addr (by simp [dtg, dtp, dtq])]; exact hT
  have hset := setLink_eq lT3 fT.dir fQ.addr
  rw [record_withLink_dir] at hset
  have a5 : Agree h (Function.update H3 fT.addr (some (fT.record fQ.addr)))
      [fT.addr, fg.addr, fp.addr, fQ.addr] :=
    agree_update (agree_mono a4 (by simp)) _ _ (by simp)
  refine ⟨Function.update H3 fT.addr (some (fT.record fQ.addr)), ?_, agree_mono a5 ?_, by simp,
    ?_⟩
  · simp only [insert_fix, e1, e2, e3, e4, e5, htw, hset, Option.bind_eq_bind,
      Option.some_bind, if_true, if_neg e6]
  · intro a ha
    simp only [List.mem_cons, List.mem_singleton, List.not_mem_nil, or_false] at ha
    simp only [List.mem_cons, mem_fill]
    rcases ha with rfl | rfl | rfl | rfl <;> simp
  · refine rep_fill.2 ⟨hq0, ?_, rep_fill.2 ⟨hg0, ?_, ?_, ?_⟩, rep_fill.2 ⟨hp0, ?_, ?_, ?_⟩⟩
    · rw [Function.update_noteq (Ne.symm dtq), b5]
      have := record_swap ({ fQ with red := false,
                                     sib := ({ fg with red := true } : Frame).fill fQ.sib } :
        Frame) (({ fp with red := true } : Frame).fill qL)
      simp only [fill_ptr] at this
      rw [fill_ptr, this]
    · rw [Function.update_noteq (Ne.symm dtg), b4]
    · exact rep_keep a5 hrU (by simp [dtU, dgU, dpU, dqU])
    · exact rep_keep a5 hrN (by simp [dtN, dgN, dpN, dqN])
    · rw [Function.update_noteq (Ne.symm dtp), a3 fp.addr (by simp [Ne.symm dgp, dpq]), b3]
    · exact rep_keep a5 hrS (by simp [dtS, dgS, dpS, dqS])
    · exact rep_keep a5 hrL (by simp [dtL, dgL, dpL, dqL])

/-! ## The steps of `rb_insert` under a path -/

theorem agree_plug {h h2 : Heap} {c : List Frame} {w : Tree} {as : List Ptr}
    (hag : Agree h h2 as) (hsub : ∀ a ∈ as, a ∈ ctxAddrs c ∨ a ∈ w.addrs) :
    Agree h h2 (plug c w).addrs := by
  intro z hz
  refine hag z (fun hm => hz ?_)
  refine ((plug_addrs_perm c w).mem_iff).2 ?_
  rcases hsub z hm with h1 | h1
  · exact List.mem_append_left _ h1
  · exact List.mem_append_right _ h1

theorem top_new {h : Heap} {K1 : List Frame} {fp : Frame} {m : Ptr} (data : Nat)
    (hI : HInv h (fp :: K1) Tree.nil) (hm0 : m ≠ NULL)
    (hmf : m ∉ (plug ((fp :: K1) ++ [headFrame]) Tree.nil).addrs) :
    ∃ h1, insert_top m data h fp.addr NULL fp.dir = some (h1, m, true, false) ∧
      HInv h1 (fp :: K1) (Tree.node m Tree.nil true data Tree.nil) ∧
      (plug (fp :: K1) (Tree.node m Tree.nil true data Tree.nil)).addrs.Perm
        (m :: (plug (fp :: K1) Tree.nil).addrs) := by
  have hrep : rep h (plug (fp :: (K1 ++ [headFrame])) Tree.nil) = true := hI.hrep
  have hnd : (plug (fp :: (K1 ++ [headFrame])) Tree.nil).addrs.Nodup := hI.hnd
  have hmf : m ∉ (plug (fp :: (K1 ++ [headFrame])) Tree.nil).addrs := hmf
  obtain ⟨⟨hp0, hP, -, -⟩, -⟩ := (rep_plug _ _).1 hrep
  have hmc : m ∉ ctxAddrs (fp :: (K1 ++ [headFrame])) := by
    intro hm
    exact hmf (((plug_addrs_perm _ _).mem_iff).2 (List.mem_append_left _ hm))
  have hpm : fp.addr ≠ m := fun e => hmc (by simp [ctxAddrs, e])
  have hrep1 : rep (Function.update h m
      (some { link0 := NULL, link1 := NULL, red := true, data := data }))
      (plug (fp :: (K1 ++ [headFrame])) Tree.nil) = true := by
    rw [rep_update _ hmf]; exact hrep
  have lP : load (Function.update h m
      (some { link0 := NULL, link1 := NULL, red := true, data := data })) fp.addr =
      some (fp.record NULL) := by
    rw [load_update_ne hpm, load_eq hp0]; exact hP
  have hset := setLink_eq lP fp.dir m
  rw [record_withLink_dir] at hset
  have hag : Agree (Function.update h m
      (some { link0 := NULL, link1 := NULL, red := true, data := data }))
      (Function.update (Function.update h m
        (some { link0 := NULL, link1 := NULL, red := true, data := data })) fp.addr
        (some (fp.record m))) (fp.addr :: Tree.nil.addrs) :=
    agree_update (agree_refl _ _) _ _ (by simp)
  obtain ⟨hR, hN⟩ := @rep_plug_replace _ _ fp (K1 ++ [headFrame]) Tree.nil
    (Tree.node m Tree.nil true data Tree.nil) hrep1 hnd hag
    (rep_node.2 ⟨hm0, by simp [Function.update_noteq (Ne.symm hpm)], rfl, rfl⟩)
    (by simp) (by simp) (by simpa using hmc)
  refine ⟨_, ?_, ⟨hR, hN⟩, ?_⟩
  · simp only [insert_top, make_node, if_neg hm0, if_true, hset, Option.bind_eq_bind,
      Option.some_bind, pure]
  · refine ((plug_addrs_perm _ _).trans ?_).trans
      (List.Perm.cons m (plug_addrs_perm (fp :: K1) Tree.nil).symm)
    simp only [addrs_node, addrs_nil, List.nil_append, List.append_nil]
    exact List.perm_append_singleton _ _

theorem top_flip {h : Heap} {K : List Frame} {a la ra : Ptr} {ll lr rl rr : Tree} {c : Bool}
    {d ld rd : Nat}
    (hI : HInv h K (Tree.node a (Tree.node la ll true ld lr) c d (Tree.node ra rl true rd rr)))
    (m : Ptr) (data : Nat) (p : Ptr) (dir : Bool) :
    ∃ h1, insert_top m data h p a dir = some (h1, a, false, false) ∧
      HInv h1 K
        (Tree.node a (Tree.node la ll false ld lr) true d (Tree.node ra rl false rd rr)) := by
  obtain ⟨-, hrX⟩ := (rep_plug _ _).1 hI.hrep
  obtain ⟨-, hndX, -⟩ := ctx_nodup_split hI.hnd
  obtain ⟨ha0, hA, hrL, hrR⟩ := rep_node.1 hrX
  obtain ⟨hl0, hL, hrll, hrlr⟩ := rep_node.1 hrL
  obtain ⟨hr0, hR, hrrl, hrrr⟩ := rep_node.1 hrR
  simp only [nodup_node, mem_node, not_or, forall_eq_or_imp,
    or_imp, forall_and, forall_eq, List.forall_mem_ne'] at hndX
  obtain ⟨⟨dal, dall, dalr⟩, ⟨dar, darl, darr⟩, ⟨dlall, dlalr, -, -, -⟩,
    ⟨drarl, drarr, -, -, -⟩, ⟨dlr, drall, dralr⟩, ⟨dlarl, -, -⟩, dlarr, -, -⟩ := hndX
  simp only [ptr_node] at hA
  have lA : load h a = some { link0 := la, link1 := ra, red := c, data := d } := by
    rw [load_eq ha0]; exact hA
  have lL : load h la = some { link0 := ll.ptr, link1 := lr.ptr, red := true, data := ld } := by
    rw [load_eq hl0]; exact hL
  have lR : load h ra = some { link0 := rl.ptr, link1 := rr.ptr, red := true, data := rd } := by
    rw [load_eq hr0]; exact hR
  have e1 : getLink h a false = some la := by rw [getLink_eq lA]; rfl
  have e2 : getLink h a true = some ra := by rw [getLink_eq lA]; rfl
  have e3 : IS_RED h la = some true := by simp [IS_RED, hl0, getRed_eq lL]
  have e4 : IS_RED h ra = some true := by simp [IS_RED, hr0, getRed_eq lR]
  have e5 := setRed_eq lA true
  have lA1 : load (Function.update h a
      (some { link0 := la, link1 := ra, red := true, data := d })) a =
      some { link0 := la, link1 := ra, red := true, data := d } := load_update_same ha0
  have lL1 : load (Function.update h a
      (some { link0 := la, link1 := ra, red := true, data := d })) la =
      some { link0 := ll.ptr, link1 := lr.ptr, red := true, data := ld } := by
    rw [load_update_ne (Ne.symm dal)]; exact lL
  have e6 : getLink (Function.update h a
      (some { link0 := la, link1 := ra, red := true, data := d })) a false = some la := by
    rw [getLink_eq lA1]; rfl
  have e7 := setRed_eq lL1 false
  have lA2 : load (Function.update (Function.update h a
      (some { link0 := la, link1 := ra, red := true, data := d })) la
      (some { link0 := ll.ptr, link1 := lr.ptr, red := false, data := ld })) a =
      some { link0 := la, link1 := ra, red := true, data := d } := by
    rw [load_update_ne dal]; exact lA1
  have lR2 : load (Function.update (Function.update h a
      (some { link0 := la, link1 := ra, red := true, data := d })) la
      (some { link0 := ll.ptr, link1 := lr.ptr, red := false, data := ld })) ra =
      some { link0 := rl.ptr, link1 := rr.ptr, red := true, data := rd } := by
    rw [load_update_ne (Ne.symm dlr), load_update_ne (Ne.symm dar)]; exact lR
  have e8 : getLink (Function.update (Function.update h a
      (some { link0 := la, link1 := ra, red := true, data := d })) la
      (some { link0 := ll.ptr, link1 := lr.ptr, red := false, data := ld })) a true =
      some ra := by
    rw [getLink_eq lA2]; rfl
  have e9 := setRed_eq lR2 false
  have hag : Agree h (Function.update (Function.update (Function.update h a
      (some { link0 := la, link1 := ra, red := true, data := d })) la
      (some { link0 := ll.ptr, link1 := lr.ptr, red := false, data := ld })) ra
      (some { link0 := rl.ptr, link1 := rr.ptr, red := false, data := rd })) [a, la, ra] :=
    agree_update (agree_update (agree_update (agree_refl _ _) _ _ (by simp)) _ _ (by simp))
      _ _ (by simp)
  have hrep2 : rep (Function.update (Function.update (Function.update h a
      (some { link0 := la, link1 := ra, red := true, data := d })) la
      (some { link0 := ll.ptr, link1 := lr.ptr, red := false, data := ld })) ra
      (some { link0 := rl.ptr, link1 := rr.ptr, red := false, data := rd }))
      (Tree.node a (Tree.node la ll false ld lr) true d (Tree.node ra rl false rd rr)) =
      true := by
    refine rep_node.2 ⟨ha0, ?_, rep_node.2 ⟨hl0, ?_, ?_, ?_⟩, rep_node.2 ⟨hr0, ?_, ?_, ?_⟩⟩
    · rw [Function.update_noteq dar, Function.update_noteq dal]; simp
    · rw [Function.update_noteq dlr]; simp
    · exact rep_keep hag hrll (by simp [dall, dlall, drall])
    · exact rep_keep hag hrlr (by simp [dalr, dlalr, dralr])
    · simp
    · exact rep_keep hag hrrl (by simp [darl, dlarl, drarl])
    · exact rep_keep hag hrrr (by simp [darr, dlarr, drarr])
  obtain ⟨hR2, hN2⟩ := plug_same_perm hI.hrep hI.hnd
    (agree_mono hag (by intro x hx; simp at hx; rcases hx with rfl | rfl | rfl <;> simp))
    hrep2 rfl (List.Perm.refl _)
  refine ⟨_, ?_, ⟨hR2, hN2⟩⟩
  simp only [insert_top, if_neg ha0, e1, e2, e3, e4, e5, e6, e7, e8, e9, Option.bind_eq_bind,
    Option.some_bind, if_true, pure]

theorem perm_ins_single {fg fp : Frame} {X : Tree} :
    (({ fp with red := false,
                sib := ({ fg with red := true } : Frame).fill fp.sib } : Frame).fill X).addrs.Perm
      (fg.fill (fp.fill X)).addrs := by
  rw [List.perm_iff_count]
  intro a
  simp only [count_fill_addrs]
  omega

theorem perm_ins_double {fg fp fQ : Frame} {qL : Tree} :
    (({ fQ with red := false,
                sib := ({ fg with red := true } : Frame).fill fQ.sib } : Frame).fill
      (({ fp with red := true } : Frame).fill qL)).addrs.Perm
      (fg.fill (fp.fill (fQ.fill qL))).addrs := by
  rw [List.perm_iff_count]
  intro a
  simp only [count_fill_addrs]
  omega

theorem fix_single_plug {h : Heap} {K2 : List Frame} {fg fp : Frame} {X : Tree}
    (hI : HInv h (fp :: fg :: K2) X) (hdp : fp.dir = fg.dir) (hqr : X.isRed = true)
    (hpr : fp.red = true) :
    ∃ h2, insert_fix h (topFrame K2).addr fg.addr fp.addr X.ptr fg.dir = some h2 ∧
      HInv h2 (({ fp with red := false,
                          sib := ({ fg with red := true } : Frame).fill fp.sib } : Frame) :: K2)
        X := by
  have hrep : rep h (plug (K2 ++ [headFrame]) (fg.fill (fp.fill X))) = true := hI.hrep
  have hnd : (plug (K2 ++ [headFrame]) (fg.fill (fp.fill X))).addrs.Nodup := hI.hnd
  obtain ⟨fT, c1, hc1, hta, hT, ht0, htw, hts⟩ := grand_facts hrep hnd
  rw [hc1] at hrep hnd
  obtain ⟨-, hrw⟩ := (rep_plug _ _).1 hrep
  obtain ⟨-, hndw, -⟩ := ctx_nodup_split hnd
  obtain ⟨h2, hfix, hag, hT2, hrep2⟩ :=
    fix_single_local hdp hT ht0 htw hts hrw hndw hqr hpr
  obtain ⟨hR, hN⟩ := plug_replace_perm hrep hnd hag hrep2 (by rw [hT2]; simp)
    perm_ins_single
  rw [← hta]
  refine ⟨h2, hfix, ⟨?_, ?_⟩⟩
  · show rep h2 (plug (K2 ++ [headFrame]) _) = true
    rw [hc1]; exact hR
  · show (plug (K2 ++ [headFrame]) _).addrs.Nodup
    rw [hc1]; exact hN

theorem fix_double_plug {h : Heap} {K2 : List Frame} {fg fp fQ : Frame} {qL : Tree}
    (hI : HInv h (fp :: fg :: K2) (fQ.fill qL)) (hdp : fp.dir = !fg.dir)
    (hdq : fQ.dir = fg.dir) (hqr : fQ.red = true) (hpr : fp.red = true) :
    ∃ h2, insert_fix h (topFrame K2).addr fg.addr fp.addr fQ.addr fg.dir = some h2 ∧
      HInv h2 (({ fp with red := true } : Frame) ::
        ({ fQ with red := false,
                   sib := ({ fg with red := true } : Frame).fill fQ.sib } : Frame) :: K2) qL := by
  have hrep : rep h (plug (K2 ++ [headFrame]) (fg.fill (fp.fill (fQ.fill qL)))) = true :=
    hI.hrep
  have hnd : (plug (K2 ++ [headFrame]) (fg.fill (fp.fill (fQ.fill qL)))).addrs.Nodup := hI.hnd
  obtain ⟨fT, c1, hc1, hta, hT, ht0, htw, hts⟩ := grand_facts hrep hnd
  rw [hc1] at hrep hnd
  obtain ⟨-, hrw⟩ := (rep_plug _ _).1 hrep
  obtain ⟨-, hndw, -⟩ := ctx_nodup_split hnd
  obtain ⟨h2, hfix, hag, hT2, hrep2⟩ :=
    fix_double_local hdp hdq hT ht0 htw hts hrw hndw hqr hpr
  obtain ⟨hR, hN⟩ := plug_replace_perm hrep hnd hag hrep2 (by rw [hT2]; simp)
    perm_ins_double
  rw [← hta]
  refine ⟨h2, hfix, ⟨?_, ?_⟩⟩
  · show rep h2 (plug (K2 ++ [headFrame]) _) = true
    rw [hc1]; exact hR
  · show (plug (K2 ++ [headFrame]) _).addrs.Nodup
    rw [hc1]; exact hN

/-! ## Colours after the steps of `rb_insert` -/

theorem rb_flipnode {a la ra : Ptr} {ll lr rl rr : Tree} {c : Bool} {d ld rd : Nat} {n : Nat}
    (h : (Tree.node a (Tree.node la ll true ld lr) c d (Tree.node ra rl true rd rr)).rb n) :
    c = false ∧
      (Tree.node a (Tree.node la ll false ld lr) true d (Tree.node ra rl false rd rr)).rb n ∧
      (Tree.node la ll false ld lr).safe ∧ (Tree.node ra rl false rd rr).safe := by
  obtain ⟨m, hL, hR, hcol, hn⟩ := rb_at_node.1 h
  have hc : c = false := by
    cases c with
    | false => rfl
    | true => have := (hcol rfl).1; simp at this
  subst hc
  obtain ⟨k, hll, hlr, hlc, hk⟩ := rb_at_node.1 hL
  obtain ⟨j, hrl, hrr, hrc, hj⟩ := rb_at_node.1 hR
  simp only [if_true] at hk hj
  subst hk
  subst hj
  simp only [Bool.false_eq_true, if_false] at hn
  refine ⟨rfl, rb_at_node.2 ⟨m + 1, rb_at_node.2 ⟨m, hll, hlr, by simp, by simp⟩,
    rb_at_node.2 ⟨m, hrl, hrr, by simp, by simp⟩, by simp, by simp [hn]⟩,
    ⟨rfl, (hlc rfl).1, (hlc rfl).2⟩, ⟨rfl, (hrc rfl).1, (hrc rfl).2⟩⟩

theorem rb_newnode {m : Ptr} {data : Nat} {k : Nat} (h : Tree.nil.rb k) :
    (Tree.node m Tree.nil true data Tree.nil).rb k := by
  have := rb_nil.1 h
  subst this
  exact rb_at_node.2 ⟨1, rb_nil.2 rfl, rb_nil.2 rfl, by simp, by simp⟩

theorem rb_ins_single {fg fp : Frame} {X X2 : Tree} {n : Nat}
    (hw : (fg.fill (fp.fill X)).rb n) (hpr : fp.red = true) (hU : fg.sib.isRed = false)
    (hX : ∀ k, X.rb k → X2.rb k) :
    (({ fp with red := false,
                sib := ({ fg with red := true } : Frame).fill fp.sib } : Frame).fill X2).rb n := by
  obtain ⟨m, hP, hUb, hgc, hn⟩ := rb_fill.1 hw
  obtain ⟨k, hXb, hS, hpc, hk⟩ := rb_fill.1 hP
  simp only [hpr, if_true] at hk
  subst hk
  have hgr : fg.red = false := by
    cases hg : fg.red with
    | false => rfl
    | true => have := (hgc hg).1; simp [hpr] at this
  simp only [hgr, Bool.false_eq_true, if_false] at hn
  refine rb_fill.2 ⟨m, hX m hXb, rb_fill.2 ⟨m, hS, hUb, fun _ => ⟨(hpc hpr).2, hU⟩, by simp⟩,
    by simp, by simp [hn]⟩

theorem rb_ins_double {fg fp fQ : Frame} {X qL : Tree} {n : Nat}
    (hw : (fg.fill (fp.fill X)).rb n) (hpr : fp.red = true) (hU : fg.sib.isRed = false)
    (hX : ∀ k, X.rb k → (fQ.fill qL).rb k) (hqr : fQ.red = true) :
    (({ fQ with red := false,
                sib := ({ fg with red := true } : Frame).fill fQ.sib } : Frame).fill
      (({ fp with red := true } : Frame).fill qL)).rb n := by
  obtain ⟨m, hP, hUb, hgc, hn⟩ := rb_fill.1 hw
  obtain ⟨k, hXb, hS, hpc, hk⟩ := rb_fill.1 hP
  simp only [hpr, if_true] at hk
  subst hk
  have hgr : fg.red = false := by
    cases hg : fg.red with
    | false => rfl
    | true => have := (hgc hg).1; simp [hpr] at this
  simp only [hgr, Bool.false_eq_true, if_false] at hn
  obtain ⟨j, hqL, hqN, hqc, hj⟩ := rb_fill.1 (hX m hXb)
  simp only [hqr, if_true] at hj
  subst hj
  refine rb_fill.2 ⟨m, rb_fill.2 ⟨m, hqL, hS, fun _ => ⟨(hqc hqr).1, (hpc hpr).2⟩, by simp⟩,
    rb_fill.2 ⟨m, hqN, hUb, fun _ => ⟨(hqc hqr).2, hU⟩, by simp⟩, by simp, by simp [hn]⟩

/-! ## The descent of `rb_insert` -/

theorem done_of {h : Heap} {K : List Frame} {X : Tree} {m : Ptr} {old : List Ptr} {ins : Bool}
    (hI : HInv h K X) (hc : (plug K X).rbOK)
    (hp : (plug K X).addrs.Perm (if ins then m :: old else old)) : InsDone m old h ins := by
  refine ⟨plug K X, ?_, ?_, hc, hp⟩
  · rw [← plug_snoc]; exact hI.hrep
  · rw [← plug_snoc]; exact hI.hnd

theorem insert_step_ins (cmp : Nat → Nat → Int) (m data : Nat) {l : InsLoc} {h1 h2 : Heap}
    {q1 : Ptr} (htop : insert_top m data l.h l.p l.q l.dir = some (h1, q1, true, false))
    (hfix : insert_fix h1 l.t l.g l.p q1 l.last = some h2) :
    insert_step cmp m data l = some (Sum.inl (InsExit.done h2 true)) := by
  simp [insert_step, htop, hfix]

theorem insert_step_cont (cmp : Nat → Nat → Int) (m data : Nat) {l : InsLoc} {h1 h2 : Heap}
    {a : Ptr} {lt rt : Tree} {c : Bool} {d : Nat}
    (htop : insert_top m data l.h l.p l.q l.dir = some (h1, a, false, false))
    (hfix : insert_fix h1 l.t l.g l.p a l.last = some h2)
    (hX : rep h2 (Tree.node a lt c d rt) = true) :
    insert_step cmp m data l = some (if toInt32 (cmp data d) = 0
      then Sum.inl (InsExit.done h2 false)
      else Sum.inr { h := h2, t := if l.g ≠ NULL then l.g else l.t, g := l.p, p := a,
                     q := (if decide (toInt32 (cmp data d) > 0) then rt else lt).ptr,
                     dir := decide (toInt32 (cmp data d) > 0), last := l.dir }) := by
  have hld := load_node hX
  simp only [insert_step, htop, hfix, Option.bind_eq_bind, Option.some_bind, getData_eq hld,
    getLink_eq hld, Bool.false_eq_true, if_false, pure]
  by_cases hc : toInt32 (cmp data d) = 0
  · simp [hc]
  · simp only [hc, if_false]
    by_cases hd : toInt32 (cmp data d) > 0
    · simp [hd, rb_node.link]
    · simp [hd, rb_node.link]

theorem insert_loop_succ (cmp : Nat → Nat → Int) (m data : Nat) (fuel : Nat) (l : InsLoc) :
    insert_loop cmp m data (fuel + 1) l =
      match insert_step cmp m data l with
      | none => none
      | some (Sum.inl e) => some e
      | some (Sum.inr l2) => insert_loop cmp m data fuel l2 := rfl

theorem repCtx_ne_null {h : Heap} : ∀ (c : List Frame) (p : Ptr), repCtx h c p →
    ∀ f ∈ c, f.addr ≠ NULL := by
  intro c
  induction c with
  | nil => intro p _ f hf; simp at hf
  | cons g c ih =>
    intro p hr f hf
    obtain ⟨h1, -, -, h4⟩ := hr
    rcases List.mem_cons.1 hf with rfl | hm
    · exact h1
    · exact ih _ h4 f hm

theorem hinv_ne_null {h : Heap} {K : List Frame} {X : Tree} (hI : HInv h K X) :
    ∀ f ∈ K, f.addr ≠ NULL := by
  intro f hf
  obtain ⟨hrc, -⟩ := (rep_plug _ _).1 hI.hrep
  exact repCtx_ne_null _ _ hrc f (List.mem_append_left _ hf)

theorem hinv_sub {h : Heap} {K : List Frame} {X : Tree} (hI : HInv h K X) :
    rep h X = true := ((rep_plug _ _).1 hI.hrep).2

theorem isRed_p {h : Heap} {K : List Frame} {X : Tree} (hI : HInv h K X) :
    IS_RED h (pAddr K) = some (pRed K) := by
  cases K with
  | nil => simp [pAddr, pRed, IS_RED]
  | cons f K =>
    have hrep : rep h (plug (f :: (K ++ [headFrame])) X) = true := hI.hrep
    obtain ⟨⟨h0, hF, -, -⟩, -⟩ := (rep_plug _ _).1 hrep
    have hl : load h f.addr = some (f.record X.ptr) := by rw [load_eq h0]; exact hF
    simp [pAddr, pRed, IS_RED, h0, getRed_eq hl]

theorem iloc_step {l : InsLoc} {K : List Frame} {X : Tree} {h2 : Heap} (hI : HInv h2 K X)
    (hL : ILoc l K X) (fX : Frame) (X2 : Tree) :
    ILoc { h := h2, t := if l.g ≠ NULL then l.g else l.t, g := l.p, p := fX.addr,
           q := X2.ptr, dir := fX.dir, last := l.dir } (fX :: K) X2 := by
  obtain ⟨-, hp, hg, ht, hd, -⟩ := hL
  refine ⟨rfl, rfl, hp, ?_, (fun f K1 e => by cases e; rfl), ?_⟩
  · show (if l.g ≠ NULL then l.g else l.t) = (topFrame (K.drop 1)).addr
    cases K with
    | nil => simp [hg, pAddr, ht]
    | cons f K1 =>
      cases K1 with
      | nil => simp [hg, pAddr, ht]
      | cons f2 K2 =>
        have := hinv_ne_null hI f2 (by simp)
        simp [hg, pAddr, this, topFrame]
  · intro f f2 K2 e
    cases e
    exact hd f2 K2 rfl

theorem cont_normal (cmp : Nat → Nat → Int) (data : Nat) {h1 : Heap} {K : List Frame}
    {a : Ptr} {lt rt : Tree} {c : Bool} {d : Nat}
    (hI : HInv h1 K (Tree.node a lt c d rt)) (hc : (plug K (Tree.node a lt c d rt)).rbOK)
    (hnf : (lt.isRed && rt.isRed) = false)
    (hred : c = true → (lt.safe ∧ rt.safe) ∨ ∃ fg K2, K = fg :: K2 ∧ fg.sib.isRed = false)
    (hpath : ∀ f ∈ K, toInt32 (cmp data f.data) ≠ 0 ∧
      f.dir = decide (toInt32 (cmp data f.data) > 0))
    (hne : toInt32 (cmp data d) ≠ 0) :
    NInv cmp data h1
      (({ addr := a, red := c, data := d, dir := decide (toInt32 (cmp data d) > 0),
          sib := if decide (toInt32 (cmp data d) > 0) then lt else rt } : Frame) :: K)
      (if decide (toInt32 (cmp data d) > 0) then rt else lt) := by
  have hfill := node_eq_fill a lt rt c d (decide (toInt32 (cmp data d) > 0))
  rw [hfill] at hI hc
  refine ⟨⟨hI.hrep, hI.hnd⟩, hc, (fun e => by cases e), ?_, ?_, ?_⟩
  · intro fp K1 e
    cases e
    simp only
    rintro ⟨h1, h2⟩
    by_cases hd : toInt32 (cmp data d) > 0 <;> simp [hd] at h1 h2 <;> simp [h1, h2] at hnf
  · intro fp K1 e hr
    cases e
    simp only at hr
    rcases hred hr with ⟨hs1, hs2⟩ | hx
    · left
      by_cases hd : toInt32 (cmp data d) > 0 <;> simp [hd] <;> assumption
    · exact Or.inr hx
  · intro f hf
    rcases List.mem_cons.1 hf with rfl | hm
    · exact ⟨hne, rfl⟩
    · exact hpath f hm

theorem isRed_root {h : Heap} {a : Ptr} {lt rt : Tree} {c : Bool} {d : Nat}
    (hr : rep h (Tree.node a lt c d rt) = true) : IS_RED h a = some c := by
  have := isRed_ptr _ hr
  simpa using this

theorem iter_quiet (cmp : Nat → Nat → Int) (m data : Nat) {l : InsLoc} {K : List Frame}
    {a : Ptr} {lt rt : Tree} {c : Bool} {d : Nat}
    (hI : HInv l.h K (Tree.node a lt c d rt)) (hq : l.q = a) (hp : l.p = pAddr K)
    (hnf : (lt.isRed && rt.isRed) = false) (hnv : (c && pRed K) = false) :
    insert_step cmp m data l = some (if toInt32 (cmp data d) = 0
      then Sum.inl (InsExit.done l.h false)
      else Sum.inr { h := l.h, t := if l.g ≠ NULL then l.g else l.t, g := l.p, p := a,
                     q := (if decide (toInt32 (cmp data d) > 0) then rt else lt).ptr,
                     dir := decide (toInt32 (cmp data d) > 0), last := l.dir }) := by
  subst hq
  have hrX := hinv_sub hI
  have htop := insert_top_noflip hrX hnf m data l.p l.dir
  have hfix := insert_fix_noviol (isRed_root hrX) (isRed_p hI) hnv l.t l.g l.last
  rw [← hp] at hfix
  exact insert_step_cont cmp m data htop hfix hrX

theorem macro_plain (cmp : Nat → Nat → Int) (m data : Nat) (f : Nat) {l : InsLoc}
    {K : List Frame} {X : Tree} {h1 : Heap} {a : Ptr} {lt rt : Tree} {c : Bool} {d : Nat}
    (hL : ILoc l K X) (hXa : X.ptr = a)
    (htop : insert_top m data l.h l.p l.q l.dir = some (h1, a, false, false))
    (hI : HInv h1 K (Tree.node a lt c d rt)) (hc : (plug K (Tree.node a lt c d rt)).rbOK)
    (hnf : (lt.isRed && rt.isRed) = false) (hnv : (c && pRed K) = false)
    (hred : c = true → (lt.safe ∧ rt.safe) ∨ ∃ fg K2, K = fg :: K2 ∧ fg.sib.isRed = false)
    (hpath : ∀ f ∈ K, toInt32 (cmp data f.data) ≠ 0 ∧
      f.dir = decide (toInt32 (cmp data f.data) > 0))
    (hperm : (plug K (Tree.node a lt c d rt)).addrs.Perm (plug K X).addrs)
    (hcnt : lt.count < X.count ∧ rt.count < X.count) :
    Progress cmp m data f l K X := by
  have hrX := hinv_sub hI
  have hfix := insert_fix_noviol (isRed_root hrX) (isRed_p hI) hnv l.t l.g l.last
  rw [← hL.2.1] at hfix
  have hstep := insert_step_cont cmp m data htop hfix hrX
  by_cases h0 : toInt32 (cmp data d) = 0
  · left
    refine ⟨h1, false, ?_, done_of hI hc hperm⟩
    rw [insert_loop_succ, hstep]
    simp [h0]
  · right
    simp only [h0, if_false] at hstep
    refine ⟨2, _, _, _, le_refl _, ?_, cont_normal cmp data hI hc hnf hred hpath h0,
      iloc_step hI (by
        obtain ⟨h1, h2, h3, h4, h5, h6⟩ := hL
        exact ⟨by rw [h1, hXa]; rfl, h2, h3, h4, h5, h6⟩)
        ({ addr := a, red := c, data := d, dir := decide (toInt32 (cmp data d) > 0),
           sib := if decide (toInt32 (cmp data d) > 0) then lt else rt } : Frame) _, ?_, ?_⟩
    · rw [insert_loop_succ, hstep]
    · split <;> omega
    · have := node_eq_fill a lt rt c d (decide (toInt32 (cmp data d) > 0))
      rw [this] at hperm
      exact hperm

theorem rbOK_plug_black {K : List Frame} {X X2 : Tree} (hc : (plug K X).rbOK)
    (hp : pRed K = false) (hX : ∀ k, X.rb k → X2.rb k) : (plug K X2).rbOK := by
  cases K with
  | nil =>
    obtain ⟨n, hn⟩ := rbOK_rb hc
    exact rb_rbOK (hX n hn)
  | cons fp K1 =>
    have hc2 : (plug K1 (fp.fill X)).rbOK := hc
    obtain ⟨n, hn⟩ := rbOK_rb (rbOK_plug_sub hc2)
    obtain ⟨m, hXb, hS, -, hnm⟩ := rb_fill.1 hn
    have hpr : fp.red = false := hp
    have hn2 : (fp.fill X2).rb n :=
      rb_fill.2 ⟨m, hX m hXb, hS, by simp [hpr], hnm⟩
    exact @rb_lift K1 _ _ _ _ hc2 hn hn2 (Or.inl ⟨by simp, rfl⟩)

theorem pred_of_red {K : List Frame} {X : Tree} (hc : (plug K X).rbOK)
    (hr : X.isRed = true) : pRed K = false := by
  cases K with
  | nil => rfl
  | cons fp K1 =>
    have hc2 : (plug K1 (fp.fill X)).rbOK := hc
    obtain ⟨n, hn⟩ := rbOK_rb (rbOK_plug_sub hc2)
    obtain ⟨m, -, -, hcol, -⟩ := rb_fill.1 hn
    cases hp : fp.red with
    | false => exact hp
    | true => have := (hcol hp).1; rw [hr] at this; cases this

theorem viol_single {h1 : Heap} {K2 : List Frame} {fg fp : Frame} {X X2 : Tree}
    (hI1 : HInv h1 (fp :: fg :: K2) X2) (hcol : (plug (fp :: fg :: K2) X).rbOK)
    (hX : ∀ k, X.rb k → X2.rb k) (hqr : X2.isRed = true) (hpr : fp.red = true)
    (hU : fg.sib.isRed = false) (hdp : fp.dir = fg.dir) :
    ∃ h2, insert_fix h1 (topFrame K2).addr fg.addr fp.addr X2.ptr fg.dir = some h2 ∧
      HInv h2 (({ fp with red := false,
                          sib := ({ fg with red := true } : Frame).fill fp.sib } : Frame) :: K2)
        X2 ∧
      (plug (({ fp with red := false,
                        sib := ({ fg with red := true } : Frame).fill fp.sib } : Frame) :: K2)
        X2).rbOK ∧
      (plug (({ fp with red := false,
                        sib := ({ fg with red := true } : Frame).fill fp.sib } : Frame) :: K2)
        X2).addrs.Perm (plug (fp :: fg :: K2) X2).addrs := by
  obtain ⟨h2, hfix, hI2⟩ := fix_single_plug hI1 hdp hqr hpr
  have hc2 : (plug K2 (fg.fill (fp.fill X))).rbOK := hcol
  obtain ⟨n, hn⟩ := rbOK_rb (rbOK_plug_sub hc2)
  refine ⟨h2, hfix, hI2, ?_, plug_perm perm_ins_single⟩
  exact @rb_lift K2 _ _ _ _ hc2 hn (rb_ins_single hn hpr hU hX) (Or.inl ⟨by simp, rfl⟩)

theorem viol_double {h1 : Heap} {K2 : List Frame} {fg fp fQ : Frame} {X qL : Tree}
    (hI1 : HInv h1 (fp :: fg :: K2) (fQ.fill qL)) (hcol : (plug (fp :: fg :: K2) X).rbOK)
    (hX : ∀ k, X.rb k → (fQ.fill qL).rb k) (hqr : fQ.red = true) (hpr : fp.red = true)
    (hU : fg.sib.isRed = false) (hdp : fp.dir = !fg.dir) (hdq : fQ.dir = fg.dir) :
    ∃ h2, insert_fix h1 (topFrame K2).addr fg.addr fp.addr fQ.addr fg.dir = some h2 ∧
      HInv h2 (({ fp with red := true } : Frame) ::
        ({ fQ with red := false,
                   sib := ({ fg with red := true } : Frame).fill fQ.sib } : Frame) :: K2) qL ∧
      (plug (({ fp with red := true } : Frame) ::
        ({ fQ with red := false,
                   sib := ({ fg with red := true } : Frame).fill fQ.sib } : Frame) :: K2)
        qL).rbOK ∧
      (plug (({ fp with red := true } : Frame) ::
        ({ fQ with red := false,
                   sib := ({ fg with red := true } : Frame).fill fQ.sib } : Frame) :: K2)
        qL).addrs.Perm (plug (fp :: fg :: K2) (fQ.fill qL)).addrs := by
  obtain ⟨h2, hfix, hI2⟩ := fix_double_plug hI1 hdp hdq hqr hpr
  have hc2 : (plug K2 (fg.fill (fp.fill X))).rbOK := hcol
  obtain ⟨n, hn⟩ := rbOK_rb (rbOK_plug_sub hc2)
  refine ⟨h2, hfix, hI2, ?_, plug_perm perm_ins_double⟩
  exact @rb_lift K2 _ _ _ _ hc2 hn (rb_ins_double hn hpr hU hX hqr) (Or.inl ⟨by simp, rfl⟩)

theorem ninv_parent {cmp : Nat → Nat → Int} {data : Nat} {h : Heap} {K : List Frame}
    {X : Tree} (hN : NInv cmp data h K X) (hr : pRed K = true) (hns : ¬X.safe) :
    ∃ fp fg K2, K = fp :: fg :: K2 ∧ fp.red = true ∧ fg.sib.isRed = false := by
  cases K with
  | nil => simp [pRed] at hr
  | cons fp K1 =>
    rcases hN.redok fp K1 rfl hr with hs | ⟨fg, K2, rfl, hU⟩
    · exact absurd hs hns
    · exact ⟨fp, fg, K2, rfl, hr, hU⟩

theorem bool_ne_not {a b : Bool} (h : ¬a = b) : a = !b := by
  cases a <;> cases b <;> simp_all

theorem macro_new (cmp : Nat → Nat → Int) (m data : Nat) (f : Nat) {l : InsLoc}
    {K : List Frame} (hN : NInv cmp data l.h K Tree.nil) (hL : ILoc l K Tree.nil)
    (hm0 : m ≠ NULL) (hmf : m ∉ (plug (K ++ [headFrame]) Tree.nil).addrs) :
    Progress cmp m data f l K Tree.nil := by
  cases K with
  | nil => exact absurd rfl (hN.root rfl).1
  | cons fp K1 =>
    obtain ⟨hq, hp, hg, ht, hd, hl⟩ := hL
    have hd := hd fp K1 rfl
    have hq : l.q = NULL := hq
    have hp : l.p = fp.addr := hp
    obtain ⟨h1, htop, hI1, hperm⟩ := top_new data hN.heap hm0 hmf
    rw [← hp, ← hq, ← hd] at htop
    left
    cases hpr : fp.red with
    | false =>
      have hfix := insert_fix_noviol (isRed_root (hinv_sub hI1)) (isRed_p hI1)
        (by simp [pRed, hpr]) l.t l.g l.last
      rw [show pAddr (fp :: K1) = l.p from hp.symm] at hfix
      have hstep := insert_step_ins cmp m data htop hfix
      refine ⟨h1, true, ?_, done_of hI1
        (rbOK_plug_black hN.hcol (by simp [pRed, hpr]) (fun k => rb_newnode)) hperm⟩
      rw [insert_loop_succ, hstep]
    | true =>
      obtain ⟨fp2, fg, K2, hK, -, hU⟩ := ninv_parent hN (by simp [pRed, hpr])
        (by simp [Tree.safe])
      cases hK
      have hp : l.p = fp.addr := hp
      have hg : l.g = fg.addr := hg
      have ht : l.t = (topFrame K2).addr := ht
      have hl := hl fp fg K2 rfl
      by_cases hdp : fp.dir = fg.dir
      · obtain ⟨h2, hfix, hI2, hc2, hperm2⟩ :=
          viol_single hI1 hN.hcol (fun k => rb_newnode) rfl hpr hU hdp
        simp only [ptr_node] at hfix
        rw [← ht, ← hg, ← hp, ← hl] at hfix
        have hstep := insert_step_ins cmp m data htop hfix
        refine ⟨h2, true, ?_, done_of hI2 hc2 (hperm2.trans hperm)⟩
        rw [insert_loop_succ, hstep]
      · have hdp2 := bool_ne_not hdp
        have hnode : Tree.node m Tree.nil true data Tree.nil =
            ({ addr := m, red := true, data := data, dir := fg.dir, sib := Tree.nil } :
              Frame).fill Tree.nil := by
          unfold Frame.fill; simp
        rw [hnode] at hI1 hperm
        obtain ⟨h2, hfix, hI2, hc2, hperm2⟩ :=
          viol_double hI1 hN.hcol (fun k hk => by rw [← hnode]; exact rb_newnode hk) rfl hpr hU
            hdp2 rfl
        simp only at hfix
        rw [← ht, ← hg, ← hp, ← hl] at hfix
        have hstep := insert_step_ins cmp m data htop hfix
        refine ⟨h2, true, ?_, done_of hI2 hc2 (hperm2.trans hperm)⟩
        rw [insert_loop_succ, hstep]

theorem fill_eq_node (f : Frame) (t : Tree) :
    f.fill t = Tree.node f.addr (if f.dir then f.sib else t) f.red f.data
      (if f.dir then t else f.sib) := by
  unfold Frame.fill; cases f.dir <;> simp

theorem safe_node {Y : Tree} (hY : Y.safe) :
    ∃ a lt d rt, Y = Tree.node a lt false d rt ∧ lt.isRed = false ∧ rt.isRed = false := by
  cases Y with
  | nil => exact absurd hY (by simp [Tree.safe])
  | node a lt c d rt =>
    obtain ⟨h1, h2, h3⟩ := hY
    subst h1
    exact ⟨a, lt, d, rt, rfl, h2, h3⟩

theorem tail_quiet (cmp : Nat → Nat → Int) (m data : Nat) (f : Nat) {l1 : InsLoc}
    {B C : Frame} {K2 : List Frame} {Y : Tree}
    (hI : HInv l1.h (B :: C :: K2) Y) (hc : (plug (B :: C :: K2) Y).rbOK) (hY : Y.safe)
    (hq : l1.q = Y.ptr) (hp : l1.p = B.addr) (hg : l1.g = C.addr) (hd : l1.dir = B.dir)
    (hpath : ∀ f ∈ B :: C :: K2, toInt32 (cmp data f.data) ≠ 0 ∧
      f.dir = decide (toInt32 (cmp data f.data) > 0)) :
    insert_loop cmp m data (f + 1) l1 = some (InsExit.done l1.h false) ∨
    ∃ l2 K3 X3, insert_loop cmp m data (f + 1) l1 = insert_loop cmp m data f l2 ∧
      NInv cmp data l2.h K3 X3 ∧ ILoc l2 K3 X3 ∧ X3.count < Y.count ∧
      plug K3 X3 = plug (B :: C :: K2) Y ∧ l2.h = l1.h := by
  obtain ⟨a, lt, d, rt, rfl, hlt, hrt⟩ := safe_node hY
  have hstep := iter_quiet cmp m data hI hq hp (by simp [hlt]) (by simp)
  by_cases h0 : toInt32 (cmp data d) = 0
  · left
    rw [insert_loop_succ, hstep]
    simp [h0]
  · right
    simp only [h0, if_false] at hstep
    have hC0 : C.addr ≠ NULL := hinv_ne_null hI C (by simp)
    refine ⟨{ h := l1.h, t := if l1.g ≠ NULL then l1.g else l1.t, g := l1.p, p := a,
              q := (if decide (toInt32 (cmp data d) > 0) then rt else lt).ptr,
              dir := decide (toInt32 (cmp data d) > 0), last := l1.dir }, _, _,
      by rw [insert_loop_succ, hstep],
      cont_normal cmp data hI hc (by simp [hlt]) (by simp) hpath h0, ?_, ?_, ?_, rfl⟩
    · refine ⟨rfl, rfl, hp, ?_, (fun f K1 e => by cases e; rfl), ?_⟩
      · show (if l1.g ≠ NULL then l1.g else l1.t) = C.addr
        simp [hg, hC0]
      · intro f f2 K e
        cases e
        exact hd
    · simp only [count_node]; split <;> omega
    · show plug (B :: C :: K2) _ = _
      rw [← node_eq_fill]

theorem mid_quiet (cmp : Nat → Nat → Int) (m data : Nat) (f : Nat) {l1 : InsLoc}
    {A B : Frame} {K2 : List Frame} {Y : Tree}
    (hI : HInv l1.h (A :: B :: K2) Y) (hq : l1.q = A.addr) (hp : l1.p = B.addr)
    (hB : B.red = false) (hYr : Y.isRed = false) (hSr : A.sib.isRed = false)
    (hA : toInt32 (cmp data A.data) ≠ 0 ∧ A.dir = decide (toInt32 (cmp data A.data) > 0)) :
    insert_loop cmp m data (f + 1) l1 = insert_loop cmp m data f
      { h := l1.h, t := if l1.g ≠ NULL then l1.g else l1.t, g := l1.p, p := A.addr,
        q := Y.ptr, dir := A.dir, last := l1.dir } := by
  have hI2 : HInv l1.h (B :: K2) (A.fill Y) := ⟨hI.hrep, hI.hnd⟩
  rw [fill_eq_node] at hI2
  have hstep := iter_quiet cmp m data hI2 hq hp
    (by cases A.dir <;> simp [hYr, hSr]) (by simp [pRed, hB])
  simp only [hA.1, if_false] at hstep
  rw [insert_loop_succ, hstep]
  simp only
  congr 2
  · rw [← hA.2]; cases A.dir <;> simp
  · exact hA.2.symm

theorem sib_black_of_red {K : List Frame} {fp : Frame} {X : Tree}
    (hc : (plug (fp :: K) X).rbOK) (hpr : fp.red = true) : fp.sib.isRed = false := by
  have hc2 : (plug K (fp.fill X)).rbOK := hc
  obtain ⟨n, hn⟩ := rbOK_rb (rbOK_plug_sub hc2)
  obtain ⟨m, -, -, hcol, -⟩ := rb_fill.1 hn
  exact (hcol hpr).2

theorem macro_viol_single (cmp : Nat → Nat → Int) (m data : Nat) (f : Nat) {l : InsLoc}
    {K2 : List Frame} {fg fp : Frame} {a la ra : Ptr} {ll lr rl rr : Tree} {c : Bool}
    {d ld rd : Nat}
    (hN : NInv cmp data l.h (fp :: fg :: K2)
      (Tree.node a (Tree.node la ll true ld lr) c d (Tree.node ra rl true rd rr)))
    (hL : ILoc l (fp :: fg :: K2)
      (Tree.node a (Tree.node la ll true ld lr) c d (Tree.node ra rl true rd rr)))
    (hpr : fp.red = true) (hU : fg.sib.isRed = false) (hdp : fp.dir = fg.dir) :
    Progress cmp m data f l (fp :: fg :: K2)
      (Tree.node a (Tree.node la ll true ld lr) c d (Tree.node ra rl true rd rr)) := by
  obtain ⟨hq, hp, hg, ht, hd, hl⟩ := hL
  have hq : l.q = a := hq
  have hp : l.p = fp.addr := hp
  have hg : l.g = fg.addr := hg
  have ht : l.t = (topFrame K2).addr := ht
  have hl := hl fp fg K2 rfl
  obtain ⟨n, hn⟩ := rbOK_rb (rbOK_plug_sub hN.hcol)
  obtain ⟨-, -, hsL, hsR⟩ := rb_flipnode hn
  obtain ⟨h1, htop, hI1⟩ := top_flip hN.heap m data l.p l.dir
  have htop2 : insert_top m data l.h l.p l.q l.dir = some (h1, a, false, false) := by
    rw [hq]; exact htop
  obtain ⟨h2, hfix, hI2, hc2, hperm2⟩ :=
    viol_single hI1 hN.hcol (fun k hk => (rb_flipnode hk).2.1) rfl hpr hU hdp
  simp only [ptr_node] at hfix
  rw [← ht, ← hg, ← hp, ← hl] at hfix
  have hstep := insert_step_cont cmp m data htop2 hfix (hinv_sub hI2)
  have hperm := hperm2.trans (@plug_perm (fp :: fg :: K2)
    (Tree.node a (Tree.node la ll true ld lr) c d (Tree.node ra rl true rd rr))
    (Tree.node a (Tree.node la ll false ld lr) true d (Tree.node ra rl false rd rr))
    (List.Perm.refl _))
  by_cases h0 : toInt32 (cmp data d) = 0
  · left
    refine ⟨h2, false, ?_, done_of hI2 hc2 hperm⟩
    rw [insert_loop_succ, hstep]
    simp [h0]
  · simp only [h0, if_false] at hstep
    have hfill := node_eq_fill a (Tree.node la ll false ld lr) (Tree.node ra rl false rd rr)
      true d (decide (toInt32 (cmp data d) > 0))
    rw [hfill] at hI2 hc2 hperm
    have hY : (if decide (toInt32 (cmp data d) > 0) then Tree.node ra rl false rd rr
        else Tree.node la ll false ld lr).safe := by
      split
      · exact hsR
      · exact hsL
    have hcntY : (if decide (toInt32 (cmp data d) > 0) then Tree.node ra rl false rd rr
        else Tree.node la ll false ld lr).count <
        (Tree.node a (Tree.node la ll true ld lr) c d (Tree.node ra rl true rd rr)).count := by
      split <;> simp <;> omega
    rcases @tail_quiet cmp m data (f + 1)
      { h := h2, t := if l.g ≠ NULL then l.g else l.t, g := l.p, p := a,
        q := (if decide (toInt32 (cmp data d) > 0) then Tree.node ra rl false rd rr
          else Tree.node la ll false ld lr).ptr,
        dir := decide (toInt32 (cmp data d) > 0), last := l.dir } _ _ _ _
      ⟨hI2.hrep, hI2.hnd⟩ hc2 hY rfl rfl hp rfl (by
        intro x hx
        rcases List.mem_cons.1 hx with rfl | hx
        · exact ⟨h0, rfl⟩
        · rcases List.mem_cons.1 hx with rfl | hx
          · exact hN.path fp (by simp)
          · exact hN.path x (by simp [hx])) with hexit | ⟨l2, K3, X3, hloop, hN3, hL3, hcnt, hplug, -⟩
    · left
      refine ⟨h2, false, ?_, done_of ⟨hI2.hrep, hI2.hnd⟩ hc2 hperm⟩
      rw [insert_loop_succ, hstep]
      exact hexit
    · right
      refine ⟨1, l2, K3, X3, by omega, ?_, hN3, hL3, by omega, ?_⟩
      · rw [insert_loop_succ, hstep]
        exact hloop
      · rw [hplug]; exact hperm

theorem macro_viol_double (cmp : Nat → Nat → Int) (m data : Nat) (f : Nat) {l : InsLoc}
    {K2 : List Frame} {fg fp : Frame} {a la ra : Ptr} {ll lr rl rr : Tree} {c : Bool}
    {d ld rd : Nat}
    (hN : NInv cmp data l.h (fp :: fg :: K2)
      (Tree.node a (Tree.node la ll true ld lr) c d (Tree.node ra rl true rd rr)))
    (hL : ILoc l (fp :: fg :: K2)
      (Tree.node a (Tree.node la ll true ld lr) c d (Tree.node ra rl true rd rr)))
    (hpr : fp.red = true) (hU : fg.sib.isRed = false) (hdp : fp.dir = !fg.dir) :
    Progress cmp m data f l (fp :: fg :: K2)
      (Tree.node a (Tree.node la ll true ld lr) c d (Tree.node ra rl true rd rr)) := by
  obtain ⟨hq, hp, hg, ht, hd, hl⟩ := hL
  have hq : l.q = a := hq
  have hp : l.p = fp.addr := hp
  have hg : l.g = fg.addr := hg
  have ht : l.t = (topFrame K2).addr := ht
  have hl := hl fp fg K2 rfl
  obtain ⟨n, hn⟩ := rbOK_rb (rbOK_plug_sub hN.hcol)
  obtain ⟨-, -, hsL, hsR⟩ := rb_flipnode hn
  have hS : fp.sib.isRed = false := sib_black_of_red hN.hcol hpr
  have hpf := hN.path fp (by simp)
  have hpg := hN.path fg (by simp)
  have hpK : ∀ x ∈ K2, toInt32 (cmp data x.data) ≠ 0 ∧
      x.dir = decide (toInt32 (cmp data x.data) > 0) := fun x hx => hN.path x (by simp [hx])
  obtain ⟨h1, htop, hI1⟩ := top_flip hN.heap m data l.p l.dir
  have htop2 : insert_top m data l.h l.p l.q l.dir = some (h1, a, false, false) := by
    rw [hq]; exact htop
  have hfillQ := node_eq_fill a (Tree.node la ll false ld lr) (Tree.node ra rl false rd rr)
    true d fg.dir
  have hqL : (if fg.dir then Tree.node ra rl false rd rr
      else Tree.node la ll false ld lr).safe := by
    split
    · exact hsR
    · exact hsL
  have hqN : (if fg.dir then Tree.node la ll false ld lr
      else Tree.node ra rl false rd rr).safe := by
    split
    · exact hsL
    · exact hsR
  have hcL : (if fg.dir then Tree.node ra rl false rd rr
      else Tree.node la ll false ld lr).count <
      (Tree.node a (Tree.node la ll true ld lr) c d (Tree.node ra rl true rd rr)).count := by
    split <;> simp <;> omega
  have hcN : (if fg.dir then Tree.node la ll false ld lr
      else Tree.node ra rl false rd rr).count <
      (Tree.node a (Tree.node la ll true ld lr) c d (Tree.node ra rl true rd rr)).count := by
    split <;> simp <;> omega
  have hperm1 := @plug_perm (fp :: fg :: K2)
    (Tree.node a (Tree.node la ll true ld lr) c d (Tree.node ra rl true rd rr))
    (Tree.node a (Tree.node la ll false ld lr) true d (Tree.node ra rl false rd rr))
    (List.Perm.refl _)
  have hflip : ∀ k, (Tree.node a (Tree.node la ll true ld lr) c d
      (Tree.node ra rl true rd rr)).rb k →
      (Tree.node a (Tree.node la ll false ld lr) true d (Tree.node ra rl false rd rr)).rb k :=
    fun k hk => (rb_flipnode hk).2.1
  rw [hfillQ] at hI1 hperm1 hflip
  generalize (if fg.dir then Tree.node ra rl false rd rr else Tree.node la ll false ld lr) = qL
    at hI1 hperm1 hflip hqL hcL
  generalize (if fg.dir then Tree.node la ll false ld lr else Tree.node ra rl false rd rr) = qN
    at hI1 hperm1 hflip hqN hcN
  obtain ⟨h2, hfix, hI2, hc2, hperm2⟩ := viol_double hI1 hN.hcol hflip rfl hpr hU hdp rfl
  simp only at hfix
  rw [← ht, ← hg, ← hp, ← hl] at hfix
  have hperm := hperm2.trans hperm1
  obtain ⟨P, hP⟩ : ∃ P : Frame, P = ({ fp with red := true } : Frame) := ⟨_, rfl⟩
  obtain ⟨G, hG⟩ : ∃ G : Frame, G = ({ fg with red := true } : Frame) := ⟨_, rfl⟩
  obtain ⟨Q, hQ⟩ : ∃ Q : Frame,
      Q = ({ addr := a, red := false, data := d, dir := fg.dir, sib := G.fill qN } : Frame) :=
    ⟨_, rfl⟩
  have hI3 : HInv h2 (P :: Q :: K2) qL := by rw [hP, hQ, hG]; exact hI2
  have hc3 : (plug (P :: Q :: K2) qL).rbOK := by rw [hP, hQ, hG]; exact hc2
  have hperm3 : (plug (P :: Q :: K2) qL).addrs.Perm (plug (fp :: fg :: K2)
      (Tree.node a (Tree.node la ll true ld lr) c d (Tree.node ra rl true rd rr))).addrs := by
    rw [hP, hQ, hG]; exact hperm
  have hPa : P.addr = fp.addr := by rw [hP]
  have hPd : P.dir = fp.dir := by rw [hP]
  have hPx : P.data = fp.data := by rw [hP]
  have hPs : P.sib = fp.sib := by rw [hP]
  have hGa : G.addr = fg.addr := by rw [hG]
  have hGd : G.dir = fg.dir := by rw [hG]
  have hGx : G.data = fg.data := by rw [hG]
  have hGs : G.sib = fg.sib := by rw [hG]
  have hQa : Q.addr = a := by rw [hQ]
  have hQr : Q.red = false := by rw [hQ]
  have hQx : Q.data = d := by rw [hQ]
  have hQd : Q.dir = fg.dir := by rw [hQ]
  have hQs : Q.sib = G.fill qN := by rw [hQ]
  clear hI2 hc2 hperm hperm2 hperm1 hI1 hflip
  have hXrep : rep h2 (Q.fill (P.fill qL)) = true :=
    hinv_sub (⟨hI3.hrep, hI3.hnd⟩ : HInv h2 K2 (Q.fill (P.fill qL)))
  rw [fill_eq_node Q (P.fill qL), hQa, hQr, hQx, hQd] at hXrep
  have hstep := insert_step_cont cmp m data htop2 hfix hXrep
  by_cases h0 : toInt32 (cmp data d) = 0
  · left
    refine ⟨h2, false, ?_, done_of hI3 hc3 hperm3⟩
    rw [insert_loop_succ, hstep]
    simp [h0]
  simp only [h0, if_false] at hstep
  have hqLr : qL.isRed = false := by
    obtain ⟨_, _, _, _, rfl, _, _⟩ := safe_node hqL
    rfl
  have hqNr : qN.isRed = false := by
    obtain ⟨_, _, _, _, rfl, _, _⟩ := safe_node hqN
    rfl
  by_cases hdir : decide (toInt32 (cmp data d) > 0) = fg.dir
  · have hnext : (if decide (toInt32 (cmp data d) > 0) = true
        then (if fg.dir = true then P.fill qL else Q.sib)
        else (if fg.dir = true then Q.sib else P.fill qL)).ptr = P.addr := by
      rw [hdir]; cases fg.dir <;> simp
    rw [hnext] at hstep
    have e1 : insert_loop cmp m data (f + 3) l = insert_loop cmp m data (f + 2)
        { h := h2, t := if l.g ≠ NULL then l.g else l.t, g := l.p, p := a, q := P.addr,
          dir := decide (toInt32 (cmp data d) > 0), last := l.dir } := by
      rw [insert_loop_succ, hstep]
    have e2 := @mid_quiet cmp m data (f + 1)
      { h := h2, t := if l.g ≠ NULL then l.g else l.t, g := l.p, p := a, q := P.addr,
        dir := decide (toInt32 (cmp data d) > 0), last := l.dir } P Q K2 qL hI3 rfl hQa.symm
      hQr hqLr (by rw [hPs]; exact hS)
      ⟨by rw [hPx]; exact hpf.1, by rw [hPd, hPx]; exact hpf.2⟩
    rcases @tail_quiet cmp m data f
      { h := h2, t := if l.p ≠ NULL then l.p else (if l.g ≠ NULL then l.g else l.t), g := a,
        p := P.addr, q := qL.ptr, dir := P.dir,
        last := decide (toInt32 (cmp data d) > 0) } P Q K2 qL hI3 hc3 hqL rfl rfl hQa.symm rfl
      (by
        intro x hx
        rcases List.mem_cons.1 hx with rfl | hx
        · exact ⟨by rw [hPx]; exact hpf.1, by rw [hPd, hPx]; exact hpf.2⟩
        · rcases List.mem_cons.1 hx with rfl | hx
          · exact ⟨by rw [hQx]; exact h0, by rw [hQd, hQx]; exact hdir.symm⟩
          · exact hpK x hx) with hexit | ⟨l2, K3, X3, hloop, hN3, hL3, hcnt, hplug, -⟩
    · left
      exact ⟨h2, false, e1.trans (e2.trans hexit), done_of hI3 hc3 hperm3⟩
    · right
      refine ⟨0, l2, K3, X3, by omega, ?_, hN3, hL3, by omega, by rw [hplug]; exact hperm3⟩
      exact e1.trans (e2.trans hloop)
  · have hdir2 : decide (toInt32 (cmp data d) > 0) = !fg.dir := bool_ne_not hdir
    obtain ⟨R, hR⟩ : ∃ R : Frame, R = ({ Q with dir := !Q.dir, sib := P.fill qL } : Frame) :=
      ⟨_, rfl⟩
    have htree : Q.fill (P.fill qL) = R.fill (G.fill qN) := by
      rw [fill_swap Q (P.fill qL), hQs, hR]
    have hRa : R.addr = a := by rw [hR]; exact hQa
    have hRr : R.red = false := by rw [hR]; exact hQr
    have hRx : R.data = d := by rw [hR]; exact hQx
    have hRd : R.dir = !fg.dir := by rw [hR]; simp [hQd]
    have hI4 : HInv h2 (G :: R :: K2) qN := by
      have h3 : HInv h2 K2 (Q.fill (P.fill qL)) := ⟨hI3.hrep, hI3.hnd⟩
      rw [htree] at h3
      exact ⟨h3.hrep, h3.hnd⟩
    have hc4 : (plug (G :: R :: K2) qN).rbOK := by
      have h3 : (plug K2 (Q.fill (P.fill qL))).rbOK := hc3
      rw [htree] at h3
      exact h3
    have hperm4 : (plug (G :: R :: K2) qN).addrs.Perm (plug (fp :: fg :: K2)
        (Tree.node a (Tree.node la ll true ld lr) c d (Tree.node ra rl true rd rr))).addrs := by
      have h3 : (plug K2 (Q.fill (P.fill qL))).addrs.Perm (plug (fp :: fg :: K2)
        (Tree.node a (Tree.node la ll true ld lr) c d (Tree.node ra rl true rd rr))).addrs :=
        hperm3
      rw [htree] at h3
      exact h3
    have hnext : (if decide (toInt32 (cmp data d) > 0) = true
        then (if fg.dir = true then P.fill qL else Q.sib)
        else (if fg.dir = true then Q.sib else P.fill qL)).ptr = G.addr := by
      rw [hdir2, hQs]; cases fg.dir <;> simp
    rw [hnext] at hstep
    have e1 : insert_loop cmp m data (f + 3) l = insert_loop cmp m data (f + 2)
        { h := h2, t := if l.g ≠ NULL then l.g else l.t, g := l.p, p := a, q := G.addr,
          dir := decide (toInt32 (cmp data d) > 0), last := l.dir } := by
      rw [insert_loop_succ, hstep]
    have e2 := @mid_quiet cmp m data (f + 1)
      { h := h2, t := if l.g ≠ NULL then l.g else l.t, g := l.p, p := a, q := G.addr,
        dir := decide (toInt32 (cmp data d) > 0), last := l.dir } G R K2 qN hI4 rfl hRa.symm
      hRr hqNr (by rw [hGs]; exact hU)
      ⟨by rw [hGx]; exact hpg.1, by rw [hGd, hGx]; exact hpg.2⟩
    rcases @tail_quiet cmp m data f
      { h := h2, t := if l.p ≠ NULL then l.p else (if l.g ≠ NULL then l.g else l.t), g := a,
        p := G.addr, q := qN.ptr, dir := G.dir,
        last := decide (toInt32 (cmp data d) > 0) } G R K2 qN hI4 hc4 hqN rfl rfl hRa.symm rfl
      (by
        intro x hx
        rcases List.mem_cons.1 hx with rfl | hx
        · exact ⟨by rw [hGx]; exact hpg.1, by rw [hGd, hGx]; exact hpg.2⟩
        · rcases List.mem_cons.1 hx with rfl | hx
          · exact ⟨by rw [hRx]; exact h0, by rw [hRd, hRx]; exact hdir2.symm⟩
          · exact hpK x hx) with hexit | ⟨l2, K3, X3, hloop, hN3, hL3, hcnt, hplug, -⟩
    · left
      exact ⟨h2, false, e1.trans (e2.trans hexit), done_of hI4 hc4 hperm4⟩
    · right
      refine ⟨0, l2, K3, X3, by omega, ?_, hN3, hL3, by omega, by rw [hplug]; exact hperm4⟩
      exact e1.trans (e2.trans hloop)

theorem macro_node (cmp : Nat → Nat → Int) (m data : Nat) (f : Nat) {l : InsLoc}
    {K : List Frame} {a : Ptr} {lt rt : Tree} {c : Bool} {d : Nat}
    (hN : NInv cmp data l.h K (Tree.node a lt c d rt))
    (hL : ILoc l K (Tree.node a lt c d rt)) :
    Progress cmp m data f l K (Tree.node a lt c d rt) := by
  have hq : l.q = a := hL.1
  by_cases hboth : (lt.isRed && rt.isRed) = false
  · have htop : insert_top m data l.h l.p l.q l.dir = some (l.h, a, false, false) := by
      rw [hq]; exact insert_top_noflip (hinv_sub hN.heap) hboth m data l.p l.dir
    refine macro_plain cmp m data f hL rfl htop hN.heap hN.hcol hboth ?_ ?_ hN.path
      (List.Perm.refl _) (by simp only [count_node]; omega)
    · cases c with
      | false => rfl
      | true => simp [pred_of_red hN.hcol rfl]
    · intro hc
      subst hc
      right
      cases K with
      | nil => have := (hN.root rfl).2; simp at this
      | cons fp K1 =>
        refine ⟨fp, K1, rfl, ?_⟩
        have := hN.two fp K1 rfl
        simp only [isRed_node, true_and, Bool.not_eq_true] at this
        exact this
  · simp only [Bool.and_eq_false_iff, not_or, Bool.not_eq_false] at hboth
    obtain ⟨la, ll, ld, lr, rfl⟩ := red_node hboth.1
    obtain ⟨ra, rl, rd, rr, rfl⟩ := red_node hboth.2
    cases hpr : pRed K with
    | false =>
      obtain ⟨h1, htop, hI1⟩ := top_flip hN.heap m data l.p l.dir
      have htop2 : insert_top m data l.h l.p l.q l.dir = some (h1, a, false, false) := by
        rw [hq]; exact htop
      obtain ⟨n, hn⟩ := rbOK_rb (rbOK_plug_sub hN.hcol)
      obtain ⟨-, -, hsL, hsR⟩ := rb_flipnode hn
      refine macro_plain cmp m data f hL rfl htop2 hI1
        (rbOK_plug_black hN.hcol hpr (fun k hk => (rb_flipnode hk).2.1)) (by simp)
        (by simp [hpr]) (fun _ => Or.inl ⟨hsL, hsR⟩) hN.path
        (plug_perm (List.Perm.refl _)) (by simp only [count_node]; omega)
    | true =>
      obtain ⟨fp, fg, K2, hK, hfr, hU⟩ := ninv_parent hN hpr (by simp [Tree.safe])
      subst hK
      by_cases hdp : fp.dir = fg.dir
      · exact macro_viol_single cmp m data f hN hL hfr hU hdp
      · exact macro_viol_double cmp m data f hN hL hfr hU (bool_ne_not hdp)

theorem insert_macro (cmp : Nat → Nat → Int) (m data : Nat) (f : Nat) {l : InsLoc}
    {K : List Frame} {X : Tree} (hN : NInv cmp data l.h K X) (hL : ILoc l K X)
    (hm0 : m ≠ NULL) (hmf : m ∉ (plug (K ++ [headFrame]) X).addrs) :
    Progress cmp m data f l K X := by
  cases X with
  | nil => exact macro_new cmp m data f hN hL hm0 hmf
  | node a lt c d rt => exact macro_node cmp m data f hN hL

theorem insert_loop_spec (cmp : Nat → Nat → Int) (m data : Nat) (hm0 : m ≠ NULL) :
    ∀ (n fuel : Nat) (l : InsLoc) (K : List Frame) (X : Tree), X.count ≤ n →
      3 * n + 3 ≤ fuel → NInv cmp data l.h K X → ILoc l K X →
      m ∉ (plug (K ++ [headFrame]) X).addrs →
      ∃ h2 ins, insert_loop cmp m data fuel l = some (InsExit.done h2 ins) ∧
        InsDone m (plug K X).addrs h2 ins := by
  intro n
  induction n with
  | zero =>
    intro fuel l K X hc hf hN hL hmf
    obtain ⟨f, rfl⟩ : ∃ f, fuel = f + 3 := ⟨fuel - 3, by omega⟩
    rcases insert_macro cmp m data f hN hL hm0 hmf with h | ⟨k, l2, K2, X2, -, -, -, -, hlt, -⟩
    · exact h
    · omega
  | succ n ih =>
    intro fuel l K X hc hf hN hL hmf
    obtain ⟨f, rfl⟩ : ∃ f, fuel = f + 3 := ⟨fuel - 3, by omega⟩
    rcases insert_macro cmp m data f hN hL hm0 hmf with
      h | ⟨k, l2, K2, X2, hk, hloop, hN2, hL2, hlt, hperm⟩
    · exact h
    · have hmf2 : m ∉ (plug (K2 ++ [headFrame]) X2).addrs :=
        fun hm => hmf ((perm_snoc headFrame hperm).mem_iff.1 hm)
      obtain ⟨h2, ins, hres, T, hr, hnd, hcol, hpT⟩ :=
        ih (f + k) l2 K2 X2 (by omega) (by omega) hN2 hL2 hmf2
      refine ⟨h2, ins, hloop.trans hres, T, hr, hnd, hcol, hpT.trans ?_⟩
      cases ins with
      | false => exact hperm
      | true => exact List.Perm.cons m hperm

theorem insert_finish {h : Heap} {T : Tree} (s : State) (ins : Bool)
    (hr : rep h (headFrame.fill T) = true) (hnd : (headFrame.fill T).addrs.Nodup)
    (hT : T ≠ Tree.nil) :
    ∃ h4, getLink h HEAD true = some T.ptr ∧
      insert_exit { s with mem := Function.update h HEAD none, root := T.ptr } ins =
        some (if ins then 0 else EEXIST,
          { mem := h4, root := T.ptr,
            size := if ins then (s.size + 1) % 18446744073709551616 else s.size,
            released := s.released }) ∧
      Owns { mem := h4, root := T.ptr,
             size := if ins then (s.size + 1) % 18446744073709551616 else s.size,
             released := s.released } (T.setRed false) := by
  obtain ⟨hh0, hH, -, hrT⟩ := rep_fill.1 hr
  obtain ⟨-, hHT, -, hndT, -⟩ := nodup_fill.1 hnd
  have hh0 : HEAD ≠ NULL := hh0
  have hH : h HEAD = some (headFrame.record T.ptr) := hH
  have hHT : HEAD ∉ T.addrs := hHT
  have lH : load h HEAD = some (headFrame.record T.ptr) := by rw [load_eq hh0]; exact hH
  have e1 : getLink h HEAD true = some T.ptr := by
    rw [getLink_eq lH]; rfl
  cases T with
  | nil => exact absurd rfl hT
  | node b l c x r =>
    have hrT2 : rep (Function.update h HEAD none) (Tree.node b l c x r) = true := by
      rw [rep_update _ hHT]; exact hrT
    obtain ⟨h2, hset, hag, hrep2⟩ := rep_setRed_root hrT2 hndT
    have hbH : HEAD ≠ b := fun e => hHT (by simp [e])
    refine ⟨h2, e1, ?_, rfl, hrep2, hndT, hHT, ?_⟩
    · simp only [insert_exit, ptr_node, hset, Option.bind_eq_bind, Option.some_bind, pure]
      cases ins <;> rfl
    · show h2 HEAD = none
      rw [hag HEAD (by simp [hbH])]
      simp

/-- On every tree with the colour invariants and a black root `rb_insert` returns (the
allocation handing out an unused address), and the handle then owns a tree with the colour
invariants, a black root and `size` nodes: one node more when it returns 0, the same number
when it returns `EEXIST`. -/
theorem rb_insert_shape (cmp : Nat → Nat → Int) (fuel data : Nat) (m : Ptr) (s : State)
    (t : Tree) (ho : Owns s t) (hc : t.rbOK) (hb : t.isRed = false) (hs : s.size = t.count)
    (hlt : t.count + 1 < 18446744073709551616) (hm0 : m ≠ NULL) (hmH : m ≠ HEAD)
    (hmf : m ∉ t.addrs) (hfuel : 3 * t.count + 3 ≤ fuel) :
    ∃ c s2 t2, rb_insert fuel cmp m s data = some (c, s2) ∧ Owns s2 t2 ∧ t2.rbOK ∧
      t2.isRed = false ∧ s2.size = t2.count ∧
      ((c = 0 ∧ t2.count = t.count + 1) ∨ (c = EEXIST ∧ t2.count = t.count)) ∧
      ∀ a ∈ t2.addrs, a ∈ t.addrs ∨ a = m := by
  have hI0 := rinit ho hc
  obtain ⟨hset, -, -⟩ := head_frame ho
  obtain ⟨hroot, hrep, hnd, hH, hmHd⟩ := ho
  by_cases hn : s.root = NULL
  · have ht : t = Tree.nil := (ptr_eq_null_iff t hrep).1 (hroot ▸ hn)
    subst ht
    simp only [count_nil] at hs
    have hld : load (Function.update s.mem m
        (some { link0 := NULL, link1 := NULL, red := true, data := data })) m =
        some { link0 := NULL, link1 := NULL, red := true, data := data } :=
      load_update_same hm0
    refine ⟨0, State.mk (Function.update (Function.update s.mem m
          (some { link0 := NULL, link1 := NULL, red := true, data := data })) m
          (some { link0 := NULL, link1 := NULL, red := false, data := data }))
        m ((s.size + 1) % 18446744073709551616) s.released,
      Tree.node m Tree.nil false data Tree.nil, ?_, ?_, ?_, rfl, ?_, Or.inl ⟨rfl, rfl⟩, ?_⟩
    · simp only [rb_insert, if_pos hn, hs, ne_eq, not_true_eq_false, if_false, make_node,
        if_neg hm0, insert_exit, setRed_eq hld, Option.bind_eq_bind, Option.some_bind, pure,
        if_true]
    · refine ⟨rfl, rep_node.2 ⟨hm0, by simp, rfl, rfl⟩, by simp, by simp [Ne.symm hmH], ?_⟩
      show Function.update (Function.update s.mem m _) m _ HEAD = none
      rw [Function.update_noteq (Ne.symm hmH), Function.update_noteq (Ne.symm hmH)]
      exact hmHd
    · exact rb_rbOK (rb_at_node.2 ⟨1, rb_nil.2 rfl, rb_nil.2 rfl, by simp, rfl⟩)
    · simp [hs]
    · intro a ha
      simp at ha
      exact Or.inr ha
  · have htn : t ≠ Tree.nil := fun e => hn (by rw [hroot, e]; rfl)
    have hN0 : NInv cmp data (Function.update s.mem HEAD
        (some { link0 := NULL, link1 := s.root, red := false, data := 0 })) [] t :=
      ⟨⟨hI0.hrep, hI0.hnd⟩, hc, fun _ => ⟨htn, hb⟩, (fun fp K1 e => by cases e),
        (fun fp K1 e => by cases e), (fun f hf => by simp at hf)⟩
    have hmf0 : m ∉ (plug ([] ++ [headFrame]) t).addrs := by
      show m ∉ (headFrame.fill t).addrs
      rw [mem_fill]
      simp only [not_or]
      exact ⟨hmH, by simp [headFrame], hmf⟩
    obtain ⟨h2, ins, hloop, T, hrT, hndT, hcT, hpT⟩ :=
      insert_loop_spec cmp m data hm0 t.count fuel
        { h := Function.update s.mem HEAD
            (some { link0 := NULL, link1 := s.root, red := false, data := 0 }),
          t := HEAD, g := NULL, p := NULL, q := s.root, dir := false, last := false } [] t
        (le_refl _) hfuel hN0
        ⟨hroot, rfl, rfl, rfl, (fun f K1 e => by cases e), (fun f f2 K2 e => by cases e)⟩ hmf0
    have hpT2 : T.addrs.Perm (if ins then m :: t.addrs else t.addrs) := hpT
    have hcnt : T.count = if ins then t.count + 1 else t.count := by
      rw [count_eq_length, hpT2.length_eq, count_eq_length]
      cases ins <;> simp
    have hTn : T ≠ Tree.nil := by
      intro e
      rw [e] at hcnt
      have : 0 < t.count := by
        cases t with
        | nil => exact absurd rfl htn
        | node _ _ _ _ _ => simp
      cases ins <;> simp at hcnt <;> omega
    obtain ⟨h4, e1, e2, hown⟩ := insert_finish s ins hrT hndT hTn
    refine ⟨if ins then 0 else EEXIST, _, T.setRed false, ?_, hown, setRed_rbOK hcT,
      setRed_false_isRed _, ?_, ?_, ?_⟩
    · simp only [rb_insert, if_neg hn, hset, hloop, e1, Option.bind_eq_bind, Option.some_bind]
      exact e2
    · simp only [setRed_count, hcnt]
      cases ins
      · simpa using hs
      · simp only [if_true]
        omega
    · rw [setRed_count, hcnt]
      cases ins
      · exact Or.inr ⟨rfl, rfl⟩
      · exact Or.inl ⟨rfl, rfl⟩
    · intro a ha
      rw [setRed_addrs] at ha
      have := hpT2.mem_iff.1 ha
      cases ins
      · exact Or.inl this
      · rcases List.mem_cons.1 this with e | hm
        · exact Or.inr e
        · exact Or.inl hm

/-! ## Sequences of calls -/

theorem fresh_not_mem {s : State} {t : Tree} {m : Ptr} (hr : rep s.mem t = true)
    (hm : s.mem m = none) : m ∉ t.addrs := by
  intro hmem
  obtain ⟨n, hn, -⟩ := rep_mem hr hmem
  rw [hm] at hn
  cases hn

theorem length_le_of_lt {l : List Nat} {N : Nat} (hnd : l.Nodup) (hlt : ∀ a ∈ l, a < N) :
    l.length ≤ N := by
  have h1 : l.toFinset ⊆ Finset.range N := by
    intro a ha
    exact Finset.mem_range.2 (hlt a (List.mem_toFinset.1 ha))
  have h2 := Finset.card_le_card h1
  rw [List.toFinset_card_of_nodup hnd, Finset.card_range] at h2
  exact h2

theorem null_not_mem {h : Heap} {t : Tree} (hr : rep h t = true) : NULL ∉ t.addrs := by
  intro hm
  obtain ⟨n, -, h0⟩ := rep_mem hr hm
  exact h0 rfl

theorem count_lt_word {h : Heap} {t : Tree} (hr : rep h t = true) (hnd : t.addrs.Nodup)
    (hlt : ∀ a ∈ t.addrs, a < 18446744073709551616) : t.count < 18446744073709551616 := by
  have hnd2 : (NULL :: t.addrs).Nodup := List.nodup_cons.2 ⟨null_not_mem hr, hnd⟩
  have := @length_le_of_lt _ 18446744073709551616 hnd2 (by
    intro a ha
    rcases List.mem_cons.1 ha with rfl | ha
    · simp [NULL]
    · exact hlt a ha)
  rw [count_eq_length]
  simp only [List.length_cons] at this
  omega

theorem count_succ_lt_word {h : Heap} {t : Tree} {m : Ptr} (hr : rep h t = true)
    (hnd : t.addrs.Nodup) (hlt : ∀ a ∈ t.addrs, a < 18446744073709551616) (hm0 : m ≠ NULL)
    (hmw : m < 18446744073709551616) (hmf : m ∉ t.addrs) :
    t.count + 1 < 18446744073709551616 := by
  have hnd2 : (NULL :: m :: t.addrs).Nodup :=
    List.nodup_cons.2 ⟨by simp [Ne.symm hm0, null_not_mem hr], List.nodup_cons.2 ⟨hmf, hnd⟩⟩
  have := @length_le_of_lt _ 18446744073709551616 hnd2 (by
    intro a ha
    rcases List.mem_cons.1 ha with rfl | ha
    · simp [NULL]
    · rcases List.mem_cons.1 ha with rfl | ha
      · exact hmw
      · exact hlt a ha)
  rw [count_eq_length]
  simp only [List.length_cons] at this
  omega

theorem run_inv (cmp : Nat → Nat → Int) (fuel : Nat) :
    ∀ (ops : List Op) (s : State) (t : Tree), Owns s t → t.rbOK → t.isRed = false →
      s.size = t.count → (∀ a ∈ t.addrs, a < 18446744073709551616) →
      3 * (t.count + ops.length) + 3 ≤ fuel → freshOps fuel cmp ops s = true →
      ∃ codes s2 t2, runOps fuel cmp ops s = some (codes, s2) ∧ Owns s2 t2 ∧ t2.rbOK ∧
        t2.isRed = false ∧ s2.size = t2.count ∧
        t2.count + remOK ops codes = t.count + insOK ops codes := by
  intro ops
  induction ops with
  | nil =>
    intro s t ho hc hb hs _ _ _
    exact ⟨[], s, t, rfl, ho, hc, hb, hs, rfl⟩
  | cons op ops ih =>
    intro s t ho hc hb hs hw hfuel hfresh
    simp only [List.length_cons] at hfuel
    simp only [freshOps, Bool.and_eq_true] at hfresh
    obtain ⟨hof, hrest⟩ := hfresh
    cases op with
    | insert k m =>
      simp only [opFresh, Bool.and_eq_true, decide_eq_true_eq] at hof
      obtain ⟨⟨⟨hm0, hmH⟩, hmn⟩, hmw⟩ := hof
      have hmf := fresh_not_mem ho.2.1 hmn
      have hcb : t.count + 1 < 18446744073709551616 :=
        count_succ_lt_word ho.2.1 ho.2.2.1 hw hm0 hmw hmf
      obtain ⟨c, s1, t1, hrun, ho1, hc1, hb1, hs1, hcnt, hsub⟩ :=
        rb_insert_shape cmp fuel k m s t ho hc hb hs hcb hm0 hmH hmf (by omega)
      have hrun2 : runOp fuel cmp s (Op.insert k m) = some (c, s1) := hrun
      rw [hrun2] at hrest
      have hle : t1.count ≤ t.count + 1 := by rcases hcnt with h | h <;> omega
      have hw1 : ∀ a ∈ t1.addrs, a < 18446744073709551616 := by
        intro a ha
        rcases hsub a ha with h | rfl
        · exact hw a h
        · exact hmw
      obtain ⟨codes, s2, t2, hruns, ho2, hc2, hb2, hs2, hnet⟩ :=
        ih s1 t1 ho1 hc1 hb1 hs1 hw1 (by omega) hrest
      refine ⟨c :: codes, s2, t2, ?_, ho2, hc2, hb2, hs2, ?_⟩
      · simp only [runOps, hrun2, hruns, Option.map_some']
      · simp only [insOK, remOK]
        rcases hcnt with ⟨rfl, h⟩ | ⟨rfl, h⟩
        · simp only [if_true]; omega
        · simp only [EEXIST, OfNat.ofNat_ne_zero, if_false]; omega
    | remove k =>
      have hcb := count_lt_word ho.2.1 ho.2.2.1 hw
      obtain ⟨c, s1, t1, hrun, ho1, hc1, hb1, hs1, hcnt, hsub⟩ :=
        rb_remove_shape cmp fuel k s t ho hc hs (by omega) (by omega)
      have hrun2 : runOp fuel cmp s (Op.remove k) = some (c, s1) := hrun
      rw [hrun2] at hrest
      have hle : t1.count ≤ t.count := by rcases hcnt with h | h <;> omega
      obtain ⟨codes, s2, t2, hruns, ho2, hc2, hb2, hs2, hnet⟩ :=
        ih s1 t1 ho1 hc1 hb1 hs1 (fun a ha => hw a (hsub a ha)) (by omega) hrest
      refine ⟨c :: codes, s2, t2, ?_, ho2, hc2, hb2, hs2, ?_⟩
      · simp only [runOps, hrun2, hruns, Option.map_some']
      · simp only [insOK, remOK]
        rcases hcnt with ⟨rfl, h⟩ | ⟨rfl, h⟩
        · simp only [if_true]; omega
        · simp only [ENOENT, OfNat.ofNat_ne_zero, if_false]; omega

theorem freshOps_take (cmp : Nat → Nat → Int) (fuel : Nat) :
    ∀ (ops : List Op) (k : Nat) (s : State), freshOps fuel cmp ops s = true →
      freshOps fuel cmp (ops.take k) s = true := by
  intro ops
  induction ops with
  | nil => intro k s h; simpa using h
  | cons op ops ih =>
    intro k s h
    cases k with
    | zero => rfl
    | succ k =>
      simp only [List.take_succ_cons, freshOps, Bool.and_eq_true] at h ⊢
      refine ⟨h.1, ?_⟩
      cases hr : runOp fuel cmp s op with
      | none => rfl
      | some r =>
        rw [hr] at h
        exact ih k r.2 h.2

/-- C13: for every finite sequence of `rb_insert` and `rb_remove` calls on a freshly
created empty tree (each allocation handing out an unused block at a 64-bit address, enough
fuel for the descents), after every prefix of the sequence the calls have all returned, the
handle owns a tree of `rb_size` nodes, `rb_size` plus the number of removes that returned 0
equals the number of inserts that returned 0, and `rb_size` is 0 exactly when the root is
absent. -/
theorem count_consistency (cmp : Nat → Nat → Int) (fuel : Nat) (ops : List Op) (k : Nat)
    (hfuel : 3 * ops.length + 3 ≤ fuel)
    (hfresh : freshOps fuel cmp ops emptyState = true) :
    ∃ codes s t, runOps fuel cmp (ops.take k) emptyState = some (codes, s) ∧ Owns s t ∧
      rb_size s = some t.count ∧
      t.count + remOK (ops.take k) codes = insOK (ops.take k) codes ∧
      (rb_size s = some 0 ↔ s.root = NULL) := by
  have hl : (ops.take k).length ≤ ops.length := by
    rw [List.length_take]; exact Nat.min_le_right _ _
  obtain ⟨codes, s, t, hrun, ho, -, -, hs, hnet⟩ :=
    run_inv cmp fuel (ops.take k) emptyState Tree.nil
      ⟨rfl, rfl, by simp, by simp, rfl⟩ ⟨rfl, by simp [Tree.blackHeight]⟩ rfl rfl
      (by simp) (by simp only [count_nil]; omega)
      (freshOps_take cmp fuel ops k emptyState hfresh)
  have hnil : s.root = NULL ↔ t = Tree.nil := by
    rw [ho.1]; exact ptr_eq_null_iff t ho.2.1
  have hcz : t.count = 0 ↔ t = Tree.nil := by
    cases t with
    | nil => simp
    | node a l c d r => simp
  have hsz : rb_size s = some t.count := by
    unfold rb_size
    rw [if_neg, hs]
    rintro ⟨h1, h2⟩
    exact h2 (by rw [hs]; exact hcz.2 (hnil.1 h1))
  refine ⟨codes, s, t, hrun, ho, hsz, ?_, ?_⟩
  · simpa using hnet
  · rw [hsz, hnil, ← hcz]
    simp

/-- Witness for C13: insert 5, insert 3, remove 5, remove 7 on the empty tree, after the
first three calls. -/
theorem count_consistency_witness :
    3 * [Op.insert 5 2, Op.insert 3 3, Op.remove 5, Op.remove 7].length + 3 ≤ 15 ∧
    freshOps 15 cmp3 [Op.insert 5 2, Op.insert 3 3, Op.remove 5, Op.remove 7] emptyState =
      true ∧
    ∃ codes s t, runOps 15 cmp3
        ([Op.insert 5 2, Op.insert 3 3, Op.remove 5, Op.remove 7].take 3) emptyState =
        some (codes, s) ∧ Owns s t ∧ rb_size s = some t.count ∧
      t.count + remOK ([Op.insert 5 2, Op.insert 3 3, Op.remove 5, Op.remove 7].take 3) codes =
        insOK ([Op.insert 5 2, Op.insert 3 3, Op.remove 5, Op.remove 7].take 3) codes ∧
      (rb_size s = some 0 ↔ s.root = NULL) :=
  ⟨by decide, by decide,
    count_consistency cmp3 15 [Op.insert 5 2, Op.insert 3 3, Op.remove 5, Op.remove 7] 3
      (by decide) (by decide)⟩

/-! ## No access to an absent node -/

/-- C17: for every tree satisfying the invariants (its nodes at 64-bit addresses) and every
element, `rb_insert` (its allocation handing out an unused block) and `rb_remove` return:
in the model every access to an absent node, in particular a rotation about an absent `g`,
the promotion of an absent child in `rot_once` and the recolouring of an absent child of
the rotated-in node, makes the call fail, and neither call fails. -/
theorem no_absent_node_access (cmp : Nat → Nat → Int) (fuel data : Nat) (m : Ptr) (s : State)
    (t : Tree) (hv : Valid cmp s t) (hw : ∀ a ∈ t.addrs, a < 18446744073709551616)
    (hm0 : m ≠ NULL) (hmH : m ≠ HEAD) (hmf : s.mem m = none)
    (hmw : m < 18446744073709551616) (hfuel : 3 * t.count + 3 ≤ fuel) :
    (∃ r, rb_insert fuel cmp m s data = some r) ∧ (∃ r, rb_remove fuel cmp s data = some r) := by
  obtain ⟨ho, hval, hs⟩ := hv
  simp only [Tree.rbValid, Bool.and_eq_true, Bool.not_eq_true'] at hval
  obtain ⟨⟨⟨-, hnr⟩, hbh⟩, hb⟩ := hval
  constructor
  · obtain ⟨c, s2, -, hrun, -⟩ := rb_insert_shape cmp fuel data m s t ho ⟨hnr, hbh⟩ hb hs
      (count_succ_lt_word ho.2.1 ho.2.2.1 hw hm0 hmw (fresh_not_mem ho.2.1 hmf))
      hm0 hmH (fresh_not_mem ho.2.1 hmf) hfuel
    exact ⟨_, hrun⟩
  · obtain ⟨c, s2, -, hrun, -⟩ := rb_remove_shape cmp fuel data s t ho ⟨hnr, hbh⟩ hs
      (count_lt_word ho.2.1 ho.2.2.1 hw) (by omega)
    exact ⟨_, hrun⟩

/-- Witness for C17 on the tree built from 5, 3, 8, 1, 4 with the element 2. -/
theorem no_absent_node_access_witness :
    Valid _rb_raw_data_cmp fiveTree.toState fiveTree ∧
    (∃ r, rb_insert 18 _rb_raw_data_cmp 7 fiveTree.toState 2 = some r) ∧
    (∃ r, rb_remove 18 _rb_raw_data_cmp fiveTree.toState 2 = some r) :=
  ⟨by decide, no_absent_node_access _rb_raw_data_cmp 18 2 7 fiveTree.toState fiveTree
    (by decide) (by decide) (by decide) (by decide) (by decide) (by decide) (by decide)⟩

/-! ## The search of `rb_remove` for a present key -/

theorem mem_pairs_inorder {t : Tree} {e : Ptr × Nat} (he : e ∈ t.pairs) : e.2 ∈ t.inorder := by
  rw [← pairs_snd]
  exact List.mem_map_of_mem _ he

theorem mem_inorder_pairs {t : Tree} {x : Nat} (hx : x ∈ t.inorder) :
    ∃ e ∈ t.pairs, e.2 = x := by
  rw [← pairs_snd] at hx
  obtain ⟨e, he, rfl⟩ := List.mem_map.1 hx
  exact ⟨e, he, rfl⟩

theorem bst_sorted {cmp : Nat → Nat → Int} (hc : StrictTotal cmp) :
    ∀ t : Tree, t.bst cmp = true → t.pairs.Pairwise (fun a b => cmp a.2 b.2 < 0) := by
  intro t
  induction t with
  | nil => intro _; simp
  | node a l c d r ihl ihr =>
    intro hb
    obtain ⟨hlo, hgt, hbl, hbr⟩ := bst_node.1 hb
    rw [pairs_node, List.pairwise_append]
    refine ⟨ihl hbl, List.pairwise_cons.2 ⟨?_, ihr hbr⟩, ?_⟩
    · intro e he
      exact (hc.antisymm _ _).2 (hgt _ (mem_pairs_inorder he))
    · intro x hx y hy
      have hxd := hlo _ (mem_pairs_inorder hx)
      rcases List.mem_cons.1 hy with rfl | hy
      · exact hxd
      · exact hc.trans _ _ _ hxd ((hc.antisymm _ _).2 (hgt _ (mem_pairs_inorder hy)))

theorem leftAt_fill {k : Nat} {f : Frame} {t : Tree} (h : (f.fill t).leftAt k = true) :
    t.leftAt k = true ∧ (f.data = k → f.dir = false → t ≠ Tree.nil) := by
  unfold Frame.fill at h
  cases hd : f.dir with
  | true =>
    simp only [hd, if_true, Tree.leftAt, Bool.and_eq_true] at h
    exact ⟨h.2, fun _ hf => by cases hf⟩
  | false =>
    simp only [hd, Bool.false_eq_true, if_false, Tree.leftAt, Bool.and_eq_true, Bool.or_eq_true,
      decide_eq_true_eq] at h
    refine ⟨h.1.2, fun hk _ => ?_⟩
    rcases h.1.1 with h1 | h1
    · exact absurd hk h1
    · exact h1

theorem pw_mid {R : Ptr × Nat → Ptr × Nat → Prop} {A M C : List (Ptr × Nat)}
    (hs : (A ++ M ++ C).Pairwise R) :
    M.Pairwise R ∧ (∀ x ∈ A, ∀ y ∈ M, R x y) ∧ (∀ x ∈ M, ∀ y ∈ C, R x y) := by
  obtain ⟨h1, -, h3⟩ := List.pairwise_append.1 hs
  obtain ⟨-, h5, h6⟩ := List.pairwise_append.1 h1
  exact ⟨h5, h6, fun x hx y hy => h3 x (List.mem_append_right _ hx) y hy⟩

theorem sinv_step {cmp : Nat → Nat → Int} (hc : StrictTotal cmp) {k : Nat}
    {whole : List (Ptr × Nat)} {K K2 : List Frame} {fX : Frame} {X2 : Tree} {f : Ptr}
    (hs : whole.Pairwise (fun a b => cmp a.2 b.2 < 0))
    (hfit : ∀ e ∈ whole, toInt32 (cmp k e.2) = cmp k e.2)
    (hS : SInv cmp k whole K (fX.fill X2) f)
    (hd : fX.dir = decide (toInt32 (cmp k fX.data) > 0)) (ha0 : fX.addr ≠ NULL)
    (htd : (topFrame K2).data = fX.data) (htdir : (topFrame K2).dir = fX.dir)
    (hcl : ctxLeft K2 = ctxLeft (fX :: K)) (hcr : ctxRight K2 = ctxRight (fX :: K)) :
    SInv cmp k whole K2 X2 (if toInt32 (cmp k fX.data) = 0 then fX.addr else f) := by
  have hp := hS.hp
  rw [pairs_fill] at hp
  have hmem : (fX.addr, fX.data) ∈ whole := by
    rw [← hp]; cases fX.dir <;> simp
  have hfx : toInt32 (cmp k fX.data) = cmp k fX.data := hfit _ hmem
  have hd0 := hd
  rw [hfx] at hd ⊢
  obtain ⟨hlX, hkX⟩ := leftAt_fill hS.hleft
  have hkk : cmp k k = 0 := (hc.eq_zero k k).2 rfl
  have htop : ∀ fq K0, K2 = fq :: K0 →
      fq.dir = decide (toInt32 (cmp k fq.data) > 0) ∧ (fq.data = k → X2 ≠ Tree.nil) := by
    intro fq K0 hK
    subst hK
    simp only [topFrame] at htd htdir
    rw [htd, htdir]
    refine ⟨hd0, fun e => hkX e ?_⟩
    rw [hd, e, hkk]; rfl
  rw [← hp] at hs
  obtain ⟨hM, hAM, hMC⟩ := pw_mid hs
  cases hdir : fX.dir with
  | true =>
    rw [hdir] at hd
    have hpos : 0 < cmp k fX.data := by simpa using hd.symm
    have hne : cmp k fX.data ≠ 0 := by omega
    simp only [hdir, if_true, List.append_nil] at hp hM
    refine ⟨?_, ?_, ?_, hlX, htop⟩
    · rw [hcl, hcr]
      simp only [ctxLeft, ctxRight, hdir, if_true, List.nil_append]
      rw [← hp]; simp only [List.append_assoc]
    · rw [hcl]
      simp only [ctxLeft, hdir, if_true]
      intro e he
      rcases List.mem_append.1 he with h1 | h1
      · exact hS.hl e h1
      · rcases List.mem_append.1 h1 with h2 | h2
        · have h3 : cmp e.2 fX.data < 0 :=
            (List.pairwise_append.1 (List.pairwise_append.1 hM).1).2.2 e h2 (fX.addr, fX.data)
              (by simp)
          exact (hc.antisymm _ _).1 (hc.trans _ _ _ h3 ((hc.antisymm _ _).2 hpos))
        · rw [List.mem_singleton.1 h2]; exact hpos
    · rw [if_neg hne, hcr]
      simp only [ctxRight, hdir, if_true, List.nil_append]
      exact hS.hr
  | false =>
    rw [hdir] at hd
    have hnp : cmp k fX.data ≤ 0 := by
      have := hd.symm
      simpa using this
    simp only [hdir, Bool.false_eq_true, if_false, List.nil_append] at hp hM hMC
    have hright : ctxRight K2 = (fX.addr, fX.data) :: (fX.sib.pairs ++ ctxRight K) := by
      rw [hcr]; simp only [ctxRight, hdir, Bool.false_eq_true, if_false, List.cons_append]
    refine ⟨?_, ?_, ?_, hlX, htop⟩
    · rw [hcl, hright]
      simp only [ctxLeft, hdir, Bool.false_eq_true, if_false, List.append_nil]
      rw [← hp]; simp only [List.append_assoc, List.cons_append, List.nil_append]
    · rw [hcl]
      simp only [ctxLeft, hdir, Bool.false_eq_true, if_false, List.append_nil]
      exact hS.hl
    · by_cases hz : cmp k fX.data = 0
      · rw [if_pos hz]
        have hk : k = fX.data := (hc.eq_zero _ _).1 hz
        exact Or.inr ⟨ha0, _, by rw [hright, ← hk]⟩
      · rw [if_neg hz]
        have hneg : cmp k fX.data < 0 := by omega
        rcases hS.hr with ⟨hf0, hall⟩ | ⟨hf0, R, hR⟩
        · refine Or.inl ⟨hf0, ?_⟩
          rw [hright]
          intro e he
          rcases List.mem_cons.1 he with rfl | he
          · exact hneg
          · rcases List.mem_append.1 he with h1 | h1
            · have h3 : cmp fX.data e.2 < 0 :=
                (List.pairwise_cons.1 (List.pairwise_append.1 hM).2.1).1 e h1
              exact hc.trans _ _ _ hneg h3
            · exact hall e h1
        · exfalso
          have h3 : cmp fX.data k < 0 :=
            hMC (fX.addr, fX.data) (by simp) (f, k) (by rw [hR]; simp)
          have := (hc.antisymm _ _).1 h3
          omega

theorem sinv_init (cmp : Nat → Nat → Int) {k : Nat} {t : Tree} (hl : t.leftAt k = true) :
    SInv cmp k t.pairs [] t NULL :=
  ⟨by simp [ctxLeft, ctxRight], by simp [ctxLeft], Or.inl ⟨rfl, by simp [ctxRight]⟩, hl,
    fun _ _ e => by cases e⟩

theorem sinv_exit {cmp : Nat → Nat → Int} (hc : StrictTotal cmp) {k : Nat}
    {whole : List (Ptr × Nat)} {K0 : List Frame} {fq : Frame} {f : Ptr}
    (hS : SInv cmp k whole (fq :: K0) Tree.nil f) (hk : ∃ e ∈ whole, e.2 = k)
    (hsib : fq.sib = Tree.nil) :
    f ≠ NULL ∧ ∃ R, whole = ctxLeft K0 ++ (fq.addr, fq.data) :: (f, k) :: R ∧
      ctxRight K0 = (f, k) :: R := by
  have hkk : cmp k k = 0 := (hc.eq_zero k k).2 rfl
  have hp := hS.hp
  obtain ⟨-, hnk⟩ := hS.htop fq K0 rfl
  have hnk : fq.data ≠ k := fun e => hnk e rfl
  rcases hS.hr with ⟨-, hall⟩ | ⟨hf0, R, hR⟩
  · exfalso
    obtain ⟨e, he, hek⟩ := hk
    rw [← hp] at he
    simp only [pairs_nil, List.append_nil, List.mem_append] at he
    rcases he with he | he
    · have := hS.hl e he
      rw [hek, hkk] at this
      omega
    · have := hall e he
      rw [hek, hkk] at this
      omega
  · refine ⟨hf0, R, ?_⟩
    cases hdir : fq.dir with
    | false =>
      exfalso
      simp only [ctxRight, hdir, Bool.false_eq_true, if_false, List.cons_append,
        List.cons.injEq, Prod.mk.injEq] at hR
      exact hnk hR.1.2
    | true =>
      simp only [ctxRight, hdir, if_true, List.nil_append] at hR
      refine ⟨?_, hR⟩
      rw [← hp]
      simp only [ctxLeft, ctxRight, hdir, if_true, hsib, pairs_nil, List.nil_append,
        List.append_nil, List.append_assoc, List.singleton_append, hR]

theorem remove_loop_search {cmp : Nat → Nat → Int} (hc : StrictTotal cmp) (data : Nat)
    {whole : List (Ptr × Nat)} (hs : whole.Pairwise (fun a b => cmp a.2 b.2 < 0))
    (hfit : ∀ e ∈ whole, toInt32 (cmp data e.2) = cmp data e.2) :
    ∀ (fuel : Nat) (l : RemLoc) (K : List Frame) (X : Tree), X.count < fuel →
      RInv l.h K X → pushOK K X → RLoc l K → SInv cmp data whole K X l.f →
      ∃ l2 K2, remove_loop cmp data fuel l = some l2 ∧ RInv l2.h K2 Tree.nil ∧
        pushOK K2 Tree.nil ∧ RLoc l2 K2 ∧ (K ≠ [] ∨ X ≠ Tree.nil → K2 ≠ []) ∧
        (plug K2 Tree.nil).addrs.Perm (plug K X).addrs ∧
        SInv cmp data whole K2 Tree.nil l2.f := by
  intro fuel
  induction fuel with
  | zero => intro l K X hc; omega
  | succ n ih =>
    intro l K X hcn hI hok hloc hS
    by_cases hX : X = Tree.nil
    · subst hX
      refine ⟨l, K, ?_, hI, hok, hloc, ?_, List.Perm.refl _, hS⟩
      · simp only [remove_loop, remove_step_exit cmp data hI hloc]
      · intro hk
        rcases hk with hk | hk
        · exact hk
        · exact absurd rfl hk
    · obtain ⟨l1, K1, X1, hstep, hI1, hok1, hloc1, hK1, hcnt, hperm, -, -, fX, hfill, hd, hf,
        htd, htdir, hta, hcl, hcr⟩ := remove_step_go cmp data hI hok hloc hX
      have ha0 : fX.addr ≠ NULL := by
        intro e
        have hm : fX.addr ∈ X.addrs := by rw [hfill]; exact mem_fill_addr fX X1
        exact null_not_mem (rinv_sub hI) (e ▸ hm)
      rw [hfill] at hS
      have hS1 := sinv_step hc hs hfit hS hd ha0 htd htdir hcl hcr
      rw [← hf] at hS1
      obtain ⟨l2, K2, hloop, hI2, hok2, hloc2, hK2, hperm2, hS2⟩ :=
        ih l1 K1 X1 (by omega) hI1 hok1 hloc1 hS1
      refine ⟨l2, K2, ?_, hI2, hok2, hloc2, fun _ => hK2 (Or.inl hK1), hperm2.trans hperm, hS2⟩
      simp only [remove_loop, hstep, hloop]

theorem pairs_setData (a : Ptr) (d : Nat) : ∀ t : Tree,
    (t.setData a d).pairs = t.pairs.map (fun e => if e.1 = a then (a, d) else e) := by
  intro t
  induction t with
  | nil => rfl
  | node b l c x r ihl ihr =>
    simp only [Tree.setData, pairs_node, ihl, ihr, List.map_append, List.map_cons]
    by_cases hb : b = a
    · simp [hb]
    · simp [hb]

theorem map_set_id (a : Ptr) (d : Nat) : ∀ l : List (Ptr × Nat), a ∉ l.map Prod.fst →
    l.map (fun e => if e.1 = a then (a, d) else e) = l := by
  intro l
  induction l with
  | nil => intro _; rfl
  | cons e l ih =>
    intro h
    simp only [List.map_cons, List.mem_cons, not_or] at h
    simp only [List.map_cons, ih h.2, if_neg (Ne.symm h.1)]

theorem pairs_setRed (t : Tree) (c : Bool) : (t.setRed c).pairs = t.pairs := by
  cases t <;> rfl

theorem nodup_split {A R : List (Ptr × Nat)} {aq af : Ptr} {dq k : Nat}
    (h : ((A ++ (aq, dq) :: (af, k) :: R).map Prod.fst).Nodup) :
    af ∉ A.map Prod.fst ∧ af ∉ R.map Prod.fst ∧ aq ∉ A.map Prod.fst ∧ aq ≠ af ∧
      aq ∉ R.map Prod.fst := by
  simp only [List.map_append, List.map_cons, List.nodup_append, List.nodup_cons,
    List.mem_cons, not_or, List.Disjoint, List.mem_cons] at h
  obtain ⟨-, ⟨⟨h1, h2⟩, h3, -⟩, h5⟩ := h
  refine ⟨fun hm => h5 hm (Or.inr (Or.inl rfl)), h3, fun hm => h5 hm (Or.inl rfl), h1, h2⟩

theorem probeOK_sub {cmp : Nat → Nat → Int} {k : Nat} {t u : Tree}
    (hp : ProbeOK cmp k t) (hs : ∀ x ∈ u.inorder, x ∈ t.inorder) : ProbeOK cmp k u :=
  fun x hx h0 d hd => hp x (hs x hx) h0 d (hs d hd)

theorem get_loop_stored (cmp : Nat → Nat → Int) (h : Heap) (k : Nat) :
    ∀ (t : Tree) (fuel : Nat), rep h t = true → t.bst cmp = true → ProbeOK cmp k t →
      t.count < fuel →
      (∀ x ∈ t.inorder, cmp k x = 0 → get_loop cmp h k fuel t.ptr = some (some x)) ∧
        ((∀ x ∈ t.inorder, cmp k x ≠ 0) → get_loop cmp h k fuel t.ptr = some none) := by
  intro t
  induction t with
  | nil =>
    intro fuel _ _ _ hf
    cases fuel with
    | zero => simp at hf
    | succ n => simp [get_loop]
  | node a l c d r ihl ihr =>
    intro fuel hr hb hp hf
    cases fuel with
    | zero => simp at hf
    | succ n =>
      have hld := load_node hr
      obtain ⟨ha, -, hrl, hrr⟩ := rep_node.1 hr
      obtain ⟨hlt, hgt, hbl, hbr⟩ := bst_node.1 hb
      simp only [count_node] at hf
      have hpl : ProbeOK cmp k l := probeOK_sub hp (fun x hx => by simp [hx])
      have hpr : ProbeOK cmp k r := probeOK_sub hp (fun x hx => by simp [hx])
      have hdm : d ∈ (Tree.node a l c d r).inorder := by simp
      have hnl : ∀ x ∈ l.inorder, cmp k x = 0 → cmp k d < 0 := fun x hx h0 =>
        (hp x (by simp [hx]) h0 d hdm).1 (hlt x hx)
      have hnr : ∀ x ∈ r.inorder, cmp k x = 0 → 0 < cmp k d := fun x hx h0 =>
        (hp x (by simp [hx]) h0 d hdm).2 (hgt x hx)
      obtain ⟨ihl1, ihl2⟩ := ihl n hrl hbl hpl (by omega)
      obtain ⟨ihr1, ihr2⟩ := ihr n hrr hbr hpr (by omega)
      simp only [get_loop, ptr_node, if_neg ha, getData, getLink, hld, Option.map_some',
        Option.bind_eq_bind, Option.some_bind, inorder_node, rb_node.link]
      by_cases h0 : cmp k d = 0
      · simp only [h0, if_true]
        refine ⟨?_, fun hall => absurd h0 (hall d (by simp))⟩
        intro x hx hx0
        rcases List.mem_append.1 hx with h1 | h1
        · have := hnl x h1 hx0; omega
        · rcases List.mem_cons.1 h1 with h2 | h2
          · rw [h2]; rfl
          · have := hnr x h2 hx0; omega
      · simp only [if_neg h0]
        by_cases hpos : cmp k d > 0
        · simp only [hpos, decide_True, if_true]
          refine ⟨?_, fun hall => ihr2 (fun x hx => hall x (by simp [hx]))⟩
          intro x hx hx0
          rcases List.mem_append.1 hx with h1 | h1
          · have := hnl x h1 hx0; omega
          · rcases List.mem_cons.1 h1 with h2 | h2
            · rw [h2] at hx0; exact absurd hx0 h0
            · exact ihr1 x h2 hx0
        · simp only [hpos, decide_False, Bool.false_eq_true, if_false]
          refine ⟨?_, fun hall => ihl2 (fun x hx => hall x (by simp [hx]))⟩
          intro x hx hx0
          rcases List.mem_append.1 hx with h1 | h1
          · exact ihl1 x h1 hx0
          · rcases List.mem_cons.1 h1 with h2 | h2
            · rw [h2] at hx0; exact absurd hx0 h0
            · have := hnr x h2 hx0; omega

/-- Lookup on a strictly ordered tree, for any comparator whose results on the probe agree
with the order of the stored elements, and a marker that is not stored: when a stored
element compares equal to the key, `rb_get_unsafe` returns that stored element and
`rb_find` returns 1; when none does, `rb_get_unsafe` returns the marker and `rb_find`
returns 0. -/
theorem lookup_stored (cmp : Nat → Nat → Int) (nf : Nat) (s : State) (t : Tree)
    (ho : Owns s t) (hb : t.bst cmp = true) (k fuel : Nat) (hp : ProbeOK cmp k t)
    (hnf : nf ∉ t.inorder) (hf : t.count < fuel) :
    (∀ x ∈ t.inorder, cmp k x = 0 →
        rb_get_unsafe fuel cmp nf s k = some x ∧ rb_find fuel cmp nf s k = some 1) ∧
      ((∀ x ∈ t.inorder, cmp k x ≠ 0) →
        rb_get_unsafe fuel cmp nf s k = some nf ∧ rb_find fuel cmp nf s k = some 0) := by
  obtain ⟨hroot, hrep, -, -, -⟩ := ho
  obtain ⟨h1, h2⟩ := get_loop_stored cmp s.mem k t fuel hrep hb hp hf
  rw [← hroot] at h1 h2
  constructor
  · intro x hx h0
    have hxn : x ≠ nf := fun e => hnf (e ▸ hx)
    simp [rb_find, rb_get_unsafe, h1 x hx h0, hxn]
  · intro hall
    simp [rb_find, rb_get_unsafe, h2 hall]

/-- Lookup on the tree 10, 40, 70 under the comparator on the tens: the probe 45 gets the
stored element 40, not the probe; the probe 55 gets the marker.  And on the tree built from
5, 3, 8, 1, 4 under the default comparator the probe 4 gets 4. -/
theorem lookup_stored_witness :
    ( rb_get_unsafe 4 cmpTens 77 tensTree.toState 45 = some 40 ∧
      rb_find 4 cmpTens 77 tensTree.toState 45 = some 1) ∧
    ( rb_get_unsafe 4 cmpTens 77 tensTree.toState 55 = some 77 ∧
      rb_find 4 cmpTens 77 tensTree.toState 55 = some 0) ∧
    ( rb_get_unsafe 6 _rb_raw_data_cmp 77 fiveTree.toState 4 = some 4 ∧
      rb_find 6 _rb_raw_data_cmp 77 fiveTree.toState 4 = some 1) :=
  ⟨(lookup_stored cmpTens 77 tensTree.toState tensTree (by decide) (by decide) 45 4
      (by decide) (by decide) (by decide)).1 40 (by decide) (by decide),
    (lookup_stored cmpTens 77 tensTree.toState tensTree (by decide) (by decide) 55 4
      (by decide) (by decide) (by decide)).2 (by decide),
    (lookup_stored _rb_raw_data_cmp 77 fiveTree.toState fiveTree (by decide) (by decide) 4 6
      (by decide) (by decide) (by decide)).1 4 (by decide) (by decide)⟩

/-! ## Lookup after insert -/

/-- C5: on a fresh tree with the default comparator `rb_insert` returns 0 on the keys 0 and
2^31, and `rb_find` of 2^31 then returns 0 (`rb_get_unsafe` returns the marker, here the word
77, which is none of the keys) although the key was accepted and is stored: its node hangs
on the lesser side of 0, because the `int dir` of `rb_insert` is negative on the comparator
result 2^31, while the lookup keeps the result in a `ptrdiff_t` and turns to the greater
side.  Likewise `rb_insert` of 2^32 after 0 returns `EEXIST`, yet `rb_find` of 2^32
returns 0.  The key 0 is found in both trees. -/
theorem rb_find_misses_inserted_key :
    ((runOps 3 _rb_raw_data_cmp [Op.insert 0 2, Op.insert 2147483648 3] emptyState).map
        (fun r => (r.1, (toTree r.2.mem 3 r.2.root).map Tree.inorder)) =
      some ([0, 0], some [2147483648, 0]) ∧
    (runOps 3 _rb_raw_data_cmp [Op.insert 0 2, Op.insert 2147483648 3] emptyState).bind
        (fun r => rb_get_unsafe 3 _rb_raw_data_cmp 77 r.2 2147483648) = some 77 ∧
    (runOps 3 _rb_raw_data_cmp [Op.insert 0 2, Op.insert 2147483648 3] emptyState).bind
        (fun r => rb_find 3 _rb_raw_data_cmp 77 r.2 2147483648) = some 0 ∧
    (runOps 3 _rb_raw_data_cmp [Op.insert 0 2, Op.insert 2147483648 3] emptyState).bind
        (fun r => rb_find 3 _rb_raw_data_cmp 77 r.2 0) = some 1) ∧
    ((runOps 3 _rb_raw_data_cmp [Op.insert 0 2, Op.insert 4294967296 3] emptyState).map
        (fun r => (r.1, (toTree r.2.mem 3 r.2.root).map Tree.inorder)) =
      some ([0, EEXIST], some [0]) ∧
    (runOps 3 _rb_raw_data_cmp [Op.insert 0 2, Op.insert 4294967296 3] emptyState).bind
        (fun r => rb_get_unsafe 3 _rb_raw_data_cmp 77 r.2 4294967296) = some 77 ∧
    (runOps 3 _rb_raw_data_cmp [Op.insert 0 2, Op.insert 4294967296 3] emptyState).bind
        (fun r => rb_find 3 _rb_raw_data_cmp 77 r.2 4294967296) = some 0 ∧
    (runOps 3 _rb_raw_data_cmp [Op.insert 0 2, Op.insert 4294967296 3] emptyState).bind
        (fun r => rb_find 3 _rb_raw_data_cmp 77 r.2 0) = some 1) := by
  decide

end RBTree
